import Mathlib

/-!
# BBQ: a block-based bounded SPSC queue (`bbq.h`)

A shallow embedding of `PEX::BBQ::SPSC::Queue<T, N, B>` and a verification of its
behaviour when calls are applied one complete call at a time.

* pointers to blocks (`head`, `tail`, `Cursor::next`) are ring positions (`Nat`);
* the arrays `blocks[B]` and `data[NE]` are functions from positions, updated with `upd`;
* the bit-fields `version : VERSION_BITS` and `index : INDEX_BITS` are natural numbers
  reduced modulo `2 ^ width` whenever they are stored; `uint64_t` arithmetic is reduced
  modulo `2 ^ 64`;
* the `goto again` loops of `enqueue` and `dequeue` take a fuel argument, one unit per
  pass through the label; `none` means that the fuel ran out.
-/

namespace BBQ

/-! ## Data model -/

/-- Template parameters `N` (capacity) and `B` (number of blocks) of `Queue<T, N, B>`,
together with the width of the version bit-field.  `VERSION_BITS` is the constant 44
in the source (see `Params.source`); it is kept as a field so that narrower counters
can be analysed with the same definitions. -/
structure Params where
  N : Nat
  B : Nat
  VERSION_BITS : Nat
deriving DecidableEq, Repr

/-- The instantiation of the source: `VERSION_BITS = 44`. -/
def Params.source (N B : Nat) : Params := ⟨N, B, 44⟩

/-- Each block contains `NE = N / B` entries. -/
def Params.NE (p : Params) : Nat := p.N / p.B

/-- The number of index bits. -/
def INDEX_BITS : Nat := 20

/-- The two `static_assert`s of the class, together with `B ≥ 1`, `NE ≥ 1` and a version
width between 1 and 44 bits. -/
def Params.Ok (p : Params) : Prop :=
  1 ≤ p.B ∧ p.N % p.B = 0 ∧ 1 ≤ p.NE ∧ p.NE < 2 ^ INDEX_BITS ∧
    1 ≤ p.VERSION_BITS ∧ p.VERSION_BITS ≤ 44

instance (p : Params) : Decidable p.Ok := by
  unfold Params.Ok; infer_instance

/-- The 64 bit `Field`: two segments, `version` and `index`. -/
structure Field where
  version : Nat
  index : Nat
deriving DecidableEq, Repr

/-- `Field(vsn, idx)`: the constructor stores both arguments into their bit-fields. -/
def Field.make (p : Params) (vsn idx : Nat) : Field :=
  ⟨vsn % 2 ^ p.VERSION_BITS, idx % 2 ^ INDEX_BITS⟩

/-- `Field::operator+`: `index += n`, the version is untouched. -/
def Field.add (f : Field) (n : Nat) : Field :=
  ⟨f.version, (f.index + n) % 2 ^ INDEX_BITS⟩

/-- Block metadata for the producer or the consumer. -/
structure Cursor where
  field : Field
  next : Nat
  is_first : Bool
deriving DecidableEq, Repr

/-- `Cursor::init(first, block)`. -/
def Cursor.init (p : Params) (first : Bool) (block : Nat) : Cursor :=
  { field := if first then Field.make p 1 0 else Field.make p 0 p.NE
    next := block
    is_first := first }

/-- A block: the two cursors and `NE` entries. -/
structure Block (T : Type) where
  prod : Cursor
  cons : Cursor
  data : Nat → T

/-- `Block::init(is_first, next)`: both cursors are initialised, `data` is left as it is. -/
def Block.init {T : Type} (p : Params) (is_first : Bool) (next : Nat) (b : Block T) :
    Block T :=
  { b with prod := Cursor.init p is_first next, cons := Cursor.init p is_first next }

/-- `Block::prod_ready(vsn)`. -/
def Block.prod_ready {T : Type} (b : Block T) (vsn : Nat) : Bool :=
  b.prod.field.version == vsn

/-- `Block::cons_ready(vsn)`. -/
def Block.cons_ready {T : Type} (p : Params) (b : Block T) (vsn : Nat) : Bool :=
  (b.cons.field.version == vsn && b.cons.field.index == p.NE)
    || decide (b.cons.field.version > vsn)

/-- The queue object: `head`, `tail` and the array of blocks. -/
structure Queue (T : Type) where
  head : Nat
  tail : Nat
  blocks : Nat → Block T

/-- Array store: `f[i] = v`. -/
def upd {α : Type} (f : Nat → α) (i : Nat) (v : α) : Nat → α :=
  fun j => if j = i then v else f j

/-! ## Operations -/

/-- The constructor `Queue()`.  `mem` is the content of the storage before construction
(the blocks are default-constructed, so cursors and entries hold arbitrary values). -/
def Queue.Queue {T : Type} (p : Params) (mem : Nat → Block T) : Queue T :=
  { head := 0
    tail := 0
    blocks := (List.range p.B).foldl
      (fun bl i => upd bl i ((bl i).init p (i == 0) ((i + 1) % p.B))) mem }

/-- The local `nvsn` of `prod_advance`: `p.version + nb->prod.is_first`, a `uint64_t`. -/
def prod_nvsn {T : Type} (q : Queue T) : Nat :=
  let nb := (q.blocks q.head).prod.next
  ((q.blocks q.head).prod.field.version
    + (if (q.blocks nb).prod.is_first then 1 else 0)) % 2 ^ 64

/-- `Queue::prod_advance`: the result and the queue afterwards. -/
def prod_advance {T : Type} (p : Params) (q : Queue T) : Bool × Queue T :=
  let nb := (q.blocks q.head).prod.next
  let nvsn := prod_nvsn q
  if !(q.blocks nb).cons_ready p ((nvsn + (2 ^ 64 - 1)) % 2 ^ 64) then (false, q)
  else
    let b := q.blocks nb
    (true, { q with
      blocks := upd q.blocks nb { b with prod := { b.prod with field := Field.make p nvsn 0 } }
      head := nb })

/-- The local `nvsn` of `cons_advance`: `c.version + nb->cons.is_first`, a `uint64_t`. -/
def cons_nvsn {T : Type} (q : Queue T) : Nat :=
  let nb := (q.blocks q.tail).cons.next
  ((q.blocks q.tail).cons.field.version
    + (if (q.blocks nb).cons.is_first then 1 else 0)) % 2 ^ 64

/-- `Queue::cons_advance`: the returned block (`none` for `nullptr`) and the queue
afterwards. -/
def cons_advance {T : Type} (p : Params) (q : Queue T) : Option Nat × Queue T :=
  let nb := (q.blocks q.tail).cons.next
  let nvsn := cons_nvsn q
  if !(q.blocks nb).prod_ready nvsn then (none, q)
  else
    let b := q.blocks nb
    (some nb, { q with
      blocks := upd q.blocks nb { b with cons := { b.cons with field := Field.make p nvsn 0 } }
      tail := nb })

/-- `Queue::enqueue(t)`: the returned flag and the queue afterwards; one unit of fuel per
pass through `again`. -/
def enqueue {T : Type} (p : Params) : Nat → Queue T → T → Option (Bool × Queue T)
  | 0, _, _ => none
  | fuel + 1, q, t =>
    let pf := (q.blocks q.head).prod.field
    if pf.index < p.NE then
      let b := q.blocks q.head
      some (true, { q with
        blocks := upd q.blocks q.head
          { b with data := upd b.data pf.index t, prod := { b.prod with field := pf.add 1 } } })
    else
      match prod_advance p q with
      | (true, q') => enqueue p fuel q' t
      | (false, q') => some (false, q')

/-- `Queue::dequeue(t)`: the returned flag, the content of the caller's variable `t`
afterwards and the queue afterwards; one unit of fuel per pass through `again`. -/
def dequeue {T : Type} (p : Params) : Nat → Queue T → T → Option (Bool × T × Queue T)
  | 0, _, _ => none
  | fuel + 1, q, t =>
    let c := (q.blocks q.tail).cons.field
    if c.index < p.NE then
      let pf := (q.blocks q.tail).prod.field
      if pf.index = c.index then some (false, t, q)
      else
        let b := q.blocks q.tail
        some (true, b.data c.index, { q with
          blocks := upd q.blocks q.tail { b with cons := { b.cons with field := c.add 1 } } })
    else
      match cons_advance p q with
      | (some _, q') => dequeue p fuel q' t
      | (none, q') => some (false, t, q')

/-! ## Call sequences -/

/-- A queue together with the history of its calls: `accepted` lists the arguments of the
enqueue calls that returned `true`, `delivered` the values handed out by the dequeue calls
that returned `true`, both in call order. -/
structure Sys (T : Type) where
  q : Queue T
  accepted : List T
  delivered : List T

/-- A freshly constructed queue with an empty history. -/
def Sys.fresh {T : Type} (p : Params) (mem : Nat → Block T) : Sys T :=
  ⟨Queue.Queue p mem, [], []⟩

/-- One complete call `enqueue(x)`. -/
def Sys.enq {T : Type} (p : Params) (fuel : Nat) (s : Sys T) (x : T) : Option (Sys T) :=
  (enqueue p fuel s.q x).map fun r =>
    ⟨r.2, if r.1 then s.accepted ++ [x] else s.accepted, s.delivered⟩

/-- One complete call `dequeue(t)`, where the caller's variable holds `t` before. -/
def Sys.deq {T : Type} (p : Params) (fuel : Nat) (s : Sys T) (t : T) : Option (Sys T) :=
  (dequeue p fuel s.q t).map fun r =>
    ⟨r.2.2, s.accepted, if r.1 then s.delivered ++ [r.2.1] else s.delivered⟩

/-- The enqueue call at `q` makes a version counter wrap: it goes through `prod_advance`,
the advance succeeds, and the version `nvsn` it stores does not fit in `VERSION_BITS`
bits. -/
def Wraps {T : Type} (p : Params) (q : Queue T) : Prop :=
  ¬ (q.blocks q.head).prod.field.index < p.NE ∧ (prod_advance p q).1 = true ∧
    2 ^ p.VERSION_BITS ≤ prod_nvsn q

/-- The states reachable from a fresh queue by complete calls, none of which makes a
version counter wrap.  (`cons_advance` only stores a version that it has just read from a
producer cursor, so a dequeue call cannot make a counter wrap.) -/
inductive Reach {T : Type} (p : Params) : Sys T → Prop
  | fresh (mem : Nat → Block T) : Reach p (Sys.fresh p mem)
  | enq (s s' : Sys T) (fuel : Nat) (x : T) :
      Reach p s → ¬ Wraps p s.q → Sys.enq p fuel s x = some s' → Reach p s'
  | deq (s s' : Sys T) (fuel : Nat) (t : T) :
      Reach p s → Sys.deq p fuel s t = some s' → Reach p s'

/-- A call of the public interface, with the value involved. -/
inductive Call (T : Type) where
  | enq (x : T)
  | deq (t : T)

/-- What a call returned: the flag and, for a dequeue, the caller's variable afterwards. -/
inductive Ret (T : Type) where
  | enq (ok : Bool)
  | deq (ok : Bool) (t : T)
deriving DecidableEq, Repr

/-- Run a list of calls in order, collecting what each call returned. -/
def calls {T : Type} (p : Params) (fuel : Nat) :
    List (Call T) → Queue T → Option (List (Ret T) × Queue T)
  | [], q => some ([], q)
  | Call.enq x :: cs, q =>
    match enqueue p fuel q x with
    | none => none
    | some (ok, q') =>
      match calls p fuel cs q' with
      | none => none
      | some (rs, q'') => some (Ret.enq ok :: rs, q'')
  | Call.deq t :: cs, q =>
    match dequeue p fuel q t with
    | none => none
    | some (ok, t', q') =>
      match calls p fuel cs q' with
      | none => none
      | some (rs, q'') => some (Ret.deq ok t' :: rs, q'')

/-- Storage whose cursors and entries are all zero, as for an object with static storage
duration. -/
def zeroMem : Nat → Block Nat :=
  fun _ => ⟨⟨⟨0, 0⟩, 0, false⟩, ⟨⟨0, 0⟩, 0, false⟩, fun _ => 0⟩

variable {T : Type}

/-! ## Definitions for the proofs

### The steps of a call -/

/-- The queue after the store of the fast path of `enqueue`. -/
def pushQ (q : Queue T) (t : T) : Queue T :=
  { q with
    blocks := upd q.blocks q.head
      { q.blocks q.head with
        data := upd (q.blocks q.head).data (q.blocks q.head).prod.field.index t
        prod := { (q.blocks q.head).prod with field := (q.blocks q.head).prod.field.add 1 } } }

/-- The block that `prod_advance` tries to enter. -/
def pnext (q : Queue T) : Nat := (q.blocks q.head).prod.next

/-- The test made by `prod_advance`. -/
def prod_ok (p : Params) (q : Queue T) : Bool :=
  (q.blocks (pnext q)).cons_ready p ((prod_nvsn q + (2 ^ 64 - 1)) % 2 ^ 64)

/-- The queue after a successful `prod_advance`. -/
def padvQ (p : Params) (q : Queue T) : Queue T :=
  { q with
    blocks := upd q.blocks (pnext q)
      { q.blocks (pnext q) with
        prod := { (q.blocks (pnext q)).prod with field := Field.make p (prod_nvsn q) 0 } }
    head := pnext q }

/-- The queue after the cursor store of the fast path of `dequeue`. -/
def popQ (q : Queue T) : Queue T :=
  { q with
    blocks := upd q.blocks q.tail
      { q.blocks q.tail with
        cons := { (q.blocks q.tail).cons with field := (q.blocks q.tail).cons.field.add 1 } } }

/-- The block that `cons_advance` tries to enter. -/
def cnext (q : Queue T) : Nat := (q.blocks q.tail).cons.next

/-- The test made by `cons_advance`. -/
def cons_ok (q : Queue T) : Bool :=
  (q.blocks (cnext q)).prod_ready (cons_nvsn q)

/-- The queue after a successful `cons_advance`. -/
def cadvQ (p : Params) (q : Queue T) : Queue T :=
  { q with
    blocks := upd q.blocks (cnext q)
      { q.blocks (cnext q) with
        cons := { (q.blocks (cnext q)).cons with field := Field.make p (cons_nvsn q) 0 } }
    tail := cnext q }

/-! ### Abstract view of the cursors

All the cursors of a reachable queue are determined by six numbers: the position,
version and index of the producer, and the same for the consumer. -/

/-- The six numbers that summarise the cursors. -/
structure View where
  head : Nat
  hv : Nat
  hi : Nat
  tail : Nat
  tv : Nat
  tj : Nat

/-- Ring successor of position `b`. -/
def nextB (p : Params) (b : Nat) : Nat := if b + 1 < p.B then b + 1 else 0

/-- Version increment when leaving position `b`: 1 exactly when the successor is block 0. -/
def bump (p : Params) (b : Nat) : Nat := if b + 1 < p.B then 0 else 1

/-- Producer field of block `b` in the view. -/
def View.pf (p : Params) (v : View) (b : Nat) : Field :=
  if b < v.head then ⟨v.hv, p.NE⟩ else if b = v.head then ⟨v.hv, v.hi⟩ else ⟨v.hv - 1, p.NE⟩

/-- Consumer field of block `b` in the view. -/
def View.cf (p : Params) (v : View) (b : Nat) : Field :=
  if b < v.tail then ⟨v.tv, p.NE⟩ else if b = v.tail then ⟨v.tv, v.tj⟩ else ⟨v.tv - 1, p.NE⟩

/-- Consistency of a view. -/
structure View.Good (p : Params) (v : View) : Prop where
  head_lt : v.head < p.B
  tail_lt : v.tail < p.B
  hv_pos : 1 ≤ v.hv
  hv_lt : v.hv < 2 ^ p.VERSION_BITS
  hi_le : v.hi ≤ p.NE
  tv_pos : 1 ≤ v.tv
  tj_le : v.tj ≤ p.NE
  rel : (v.hv = v.tv ∧ v.tail ≤ v.head ∧ (v.tail = v.head → v.tj ≤ v.hi)) ∨
    (v.hv = v.tv + 1 ∧ v.head ≤ v.tail ∧ (v.head = v.tail → v.tj = p.NE))

/-- The producer cannot enter the next block: the consumer has not drained it yet. -/
def View.Blocked (p : Params) (v : View) : Prop :=
  (v.hv = v.tv ∧ v.head + 1 = p.B ∧ v.tail = 0 ∧ v.tj < p.NE) ∨
    (v.hv = v.tv + 1 ∧ (v.head = v.tail ∨ (v.head + 1 = v.tail ∧ v.tj < p.NE)))

/-- The consumer is in the block and lap of the producer. -/
def View.Same (v : View) : Prop := v.hv = v.tv ∧ v.tail = v.head

/-- View after the store of `enqueue`. -/
def View.push (v : View) : View := { v with hi := v.hi + 1 }

/-- View after a successful `prod_advance`. -/
def View.padv (p : Params) (v : View) : View :=
  { v with head := nextB p v.head, hv := v.hv + bump p v.head, hi := 0 }

/-- View after the cursor store of `dequeue`. -/
def View.pop (v : View) : View := { v with tj := v.tj + 1 }

/-- View after a successful `cons_advance`. -/
def View.cadv (p : Params) (v : View) : View :=
  { v with tail := nextB p v.tail, tv := v.tv + bump p v.tail, tj := 0 }

/-! ### The slots that hold accepted but undelivered items -/

/-- Slots `lo, lo + 1, ..., lo + n - 1` of block `b`. -/
def segS (b : Nat) : Nat → Nat → List (Nat × Nat)
  | _, 0 => []
  | lo, n + 1 => (b, lo) :: segS b (lo + 1) n

/-- All `NE` slots of each of the blocks `a, a + 1, ..., a + n - 1`. -/
def spanS (NE : Nat) : Nat → Nat → List (Nat × Nat)
  | _, 0 => []
  | a, n + 1 => segS a 0 NE ++ spanS NE (a + 1) n

/-- The slots between the consumer cursor and the producer cursor, oldest first. -/
def View.slots (p : Params) (v : View) : List (Nat × Nat) :=
  if v.hv = v.tv then
    if v.tail = v.head then segS v.head v.tj (v.hi - v.tj)
    else segS v.tail v.tj (p.NE - v.tj) ++ spanS p.NE (v.tail + 1) (v.head - v.tail - 1)
      ++ segS v.head 0 v.hi
  else segS v.tail v.tj (p.NE - v.tj) ++ spanS p.NE (v.tail + 1) (p.B - v.tail - 1)
    ++ spanS p.NE 0 v.head ++ segS v.head 0 v.hi

/-! ### Representation and invariant -/

/-- The cursors of `q` are the ones described by the view `v`. -/
structure Rep (p : Params) (v : View) (q : Queue T) : Prop where
  head_eq : q.head = v.head
  tail_eq : q.tail = v.tail
  prod_eq : ∀ b, b < p.B → (q.blocks b).prod = ⟨v.pf p b, (b + 1) % p.B, b == 0⟩
  cons_eq : ∀ b, b < p.B → (q.blocks b).cons = ⟨v.cf p b, (b + 1) % p.B, b == 0⟩

/-- The entry stored in slot `x = (block, index)`. -/
def rd (q : Queue T) (x : Nat × Nat) : T := (q.blocks x.1).data x.2

/-- The invariant of reachable states: the cursors are described by a consistent view,
the producer index is 0 only before the very first store, and the accepted items that
have not been delivered are stored, in order, in the slots in use. -/
def Inv (p : Params) (s : Sys T) : Prop :=
  ∃ v : View, Rep p v s.q ∧ v.Good p ∧ (v.hi = 0 → v.Same) ∧
    s.accepted = s.delivered ++ (v.slots p).map (rd s.q)

/-! ### The calls on views -/

instance (p : Params) (v : View) : Decidable (v.Blocked p) := by
  unfold View.Blocked; infer_instance

instance (v : View) : Decidable v.Same := by
  unfold View.Same; infer_instance

/-- The flag returned by `enqueue` and the view afterwards. -/
def View.enq (p : Params) (v : View) : Bool × View :=
  if v.hi < p.NE then (true, v.push)
  else if v.Blocked p then (false, v)
  else (true, (v.padv p).push)

/-- The flag returned by `dequeue` and the view afterwards. -/
def View.deq (p : Params) (v : View) : Bool × View :=
  if v.tj < p.NE then
    if (v.pf p v.tail).index = v.tj then (false, v) else (true, v.pop)
  else if v.Same then (false, v)
  else (true, (v.cadv p).pop)

/-- The enqueue call makes a version counter wrap, in terms of the view. -/
def View.wraps (p : Params) (v : View) : Prop :=
  ¬ v.hi < p.NE ∧ ¬ v.Blocked p ∧ 2 ^ p.VERSION_BITS ≤ v.hv + bump p v.head

instance (p : Params) (v : View) : Decidable (v.wraps p) := by
  unfold View.wraps; infer_instance

/-- Run a list of calls on a view and the list of stored items, collecting what each call
returns.  The result is `none` when an enqueue would make a version wrap (or when the view
has a slot in use and the list is empty). -/
def View.calls (p : Params) :
    List (Call T) → View → List T → Option (List (Ret T) × View × List T)
  | [], v, l => some ([], v, l)
  | Call.enq x :: cs, v, l =>
    if v.wraps p then none
    else
      match View.calls p cs (v.enq p).2 (if (v.enq p).1 = true then l ++ [x] else l) with
      | none => none
      | some (rs, r) => some (Ret.enq (v.enq p).1 :: rs, r)
  | Call.deq t :: cs, v, l =>
    if (v.deq p).1 = true then
      match l with
      | [] => none
      | y :: l' =>
        match View.calls p cs (v.deq p).2 l' with
        | none => none
        | some (rs, r) => some (Ret.deq true y :: rs, r)
    else
      match View.calls p cs (v.deq p).2 l with
      | none => none
      | some (rs, r) => some (Ret.deq false t :: rs, r)

/-! ### Concrete states -/

instance (p : Params) (q : Queue T) : Decidable (Wraps p q) := by
  unfold Wraps; infer_instance

/-- `Queue<uint64_t, 2, 1>`: one block of two entries. -/
def tiny : Params := Params.source 2 1

/-- The tiny queue, fresh. -/
def tiny0 : Sys Nat := Sys.fresh tiny zeroMem

/-- The tiny queue after `enqueue(10)`. -/
def tiny1 : Sys Nat := (Sys.enq tiny 2 tiny0 10).getD tiny0

/-- The tiny queue after `enqueue(10); enqueue(11)`: it is full. -/
def tiny2 : Sys Nat := (Sys.enq tiny 2 tiny1 11).getD tiny1

/-- The tiny queue after `enqueue(10); enqueue(11); dequeue()`: one item is in flight. -/
def tiny3 : Sys Nat := (Sys.deq tiny 2 tiny2 0).getD tiny2

/-- The calls of the scenario for `Queue<T, 8, 2>`; `t` is what the caller's variable
holds before each dequeue. -/
def scenario (t : Nat) : List (Call Nat) :=
  [Call.enq 0, Call.enq 1, Call.enq 2, Call.enq 3, Call.enq 4, Call.enq 5, Call.enq 6,
    Call.enq 7, Call.enq 8, Call.deq t, Call.deq t, Call.deq t, Call.deq t, Call.enq 8,
    Call.deq t, Call.deq t, Call.deq t, Call.deq t, Call.deq t]

/-- What the calls of the scenario return. -/
def scenarioRets : List (Ret Nat) :=
  [Ret.enq true, Ret.enq true, Ret.enq true, Ret.enq true, Ret.enq true, Ret.enq true,
    Ret.enq true, Ret.enq true, Ret.enq false, Ret.deq true 0, Ret.deq true 1,
    Ret.deq true 2, Ret.deq true 3, Ret.enq true, Ret.deq true 4, Ret.deq true 5,
    Ret.deq true 6, Ret.deq true 7, Ret.deq true 8]

/-! ### The slots in use, read off the queue -/

/-- The six numbers of the view, read off the cursors of the head and tail blocks. -/
def viewOf (q : Queue T) : View :=
  ⟨q.head, (q.blocks q.head).prod.field.version, (q.blocks q.head).prod.field.index,
    q.tail, (q.blocks q.tail).cons.field.version, (q.blocks q.tail).cons.field.index⟩

/-- The slots between the consumer cursor and the producer cursor of `q`, oldest first:
the slots whose items have been accepted and not yet dequeued. -/
def inUse (p : Params) (q : Queue T) : List (Nat × Nat) := (viewOf q).slots p

/-! ### Calls that may make a version wrap -/

/-- The states reachable from a fresh queue by complete calls, version wraps included. -/
inductive ReachAll {T : Type} (p : Params) : Sys T → Prop
  | fresh (mem : Nat → Block T) : ReachAll p (Sys.fresh p mem)
  | enq (s s' : Sys T) (fuel : Nat) (x : T) :
      ReachAll p s → Sys.enq p fuel s x = some s' → ReachAll p s'
  | deq (s s' : Sys T) (fuel : Nat) (t : T) :
      ReachAll p s → Sys.deq p fuel s t = some s' → ReachAll p s'

/-- The parameters `p` with one more version bit: a view whose producer version is
`2 ^ VERSION_BITS` is consistent for them. -/
def Params.wide (p : Params) : Params := ⟨p.N, p.B, p.VERSION_BITS + 1⟩

/-- The cursors of `q` after the producer version has wrapped: the producer is in block 0
with the stored version 0, which stands for the version `2 ^ VERSION_BITS` of the view;
all the other cursors are as the view says. -/
structure RepW (p : Params) (v : View) (q : Queue T) : Prop where
  head_eq : q.head = 0
  vhead : v.head = 0
  vhv : v.hv = 2 ^ p.VERSION_BITS
  vtv : v.hv = v.tv + 1
  tail_eq : q.tail = v.tail
  prod_zero : (q.blocks 0).prod = ⟨⟨0, v.hi⟩, (0 + 1) % p.B, true⟩
  prod_eq : ∀ b, 0 < b → b < p.B →
    (q.blocks b).prod = ⟨⟨2 ^ p.VERSION_BITS - 1, p.NE⟩, (b + 1) % p.B, b == 0⟩
  cons_eq : ∀ b, b < p.B → (q.blocks b).cons = ⟨v.cf p b, (b + 1) % p.B, b == 0⟩

/-- The invariant after a wrap of the producer version (two blocks or more). -/
def InvW (p : Params) (s : Sys T) : Prop :=
  ∃ v : View, RepW p v s.q ∧ v.Good p.wide ∧
    s.accepted = s.delivered ++ (v.slots p).map (rd s.q)

/-! ### Passes and block advances of a call -/

/-- The number of passes through `again` and the number of invocations of `prod_advance`
made by `Queue::enqueue`, with the control flow of `enqueue`. -/
def enqueue_cost {T : Type} (p : Params) : Nat → Queue T → Option (Nat × Nat)
  | 0, _ => none
  | fuel + 1, q =>
    if (q.blocks q.head).prod.field.index < p.NE then some (1, 0)
    else
      match prod_advance p q with
      | (true, q') => (enqueue_cost p fuel q').map fun c => (c.1 + 1, c.2 + 1)
      | (false, _) => some (1, 1)

/-- The number of passes through `again` and the number of invocations of `cons_advance`
made by `Queue::dequeue`, with the control flow of `dequeue`. -/
def dequeue_cost {T : Type} (p : Params) : Nat → Queue T → Option (Nat × Nat)
  | 0, _ => none
  | fuel + 1, q =>
    if (q.blocks q.tail).cons.field.index < p.NE then some (1, 0)
    else
      match cons_advance p q with
      | (some _, q') => (dequeue_cost p fuel q').map fun c => (c.1 + 1, c.2 + 1)
      | (none, _) => some (1, 1)

/-! ### Runs of dequeue calls -/

/-- The state `s'` is reached from `s` by complete `dequeue` calls only. -/
inductive DeqRun {T : Type} (p : Params) : Sys T → Sys T → Prop
  | refl (s : Sys T) : DeqRun p s s
  | step (s s' s'' : Sys T) (fuel : Nat) (t : T) :
      DeqRun p s s' → Sys.deq p fuel s' t = some s'' → DeqRun p s s''

/-! ### More concrete states -/

/-- The tiny queue after `enqueue(10); enqueue(11); dequeue(); dequeue()`: full block,
fully drained. -/
def tiny4 : Sys Nat := (Sys.deq tiny 2 tiny3 0).getD tiny3

/-- The tiny queue after one more `enqueue(12)`: the producer is in the second lap. -/
def tiny5 : Sys Nat := (Sys.enq tiny 2 tiny4 12).getD tiny4

/-- A queue with one block of one entry and a version counter of one bit. -/
def narrow : Params := ⟨1, 1, 1⟩

/-- The narrow queue, fresh. -/
def narrow0 : Sys Nat := Sys.fresh narrow zeroMem

/-- The narrow queue after `enqueue(1)`. -/
def narrow1 : Sys Nat := (Sys.enq narrow 2 narrow0 1).getD narrow0

/-- The narrow queue after `enqueue(1); dequeue()`. -/
def narrow2 : Sys Nat := (Sys.deq narrow 2 narrow1 0).getD narrow1

/-- The narrow queue after `enqueue(1); dequeue(); enqueue(2)`: the producer version has
wrapped from 1 to 0 and the item 2 is stored but not delivered. -/
def narrow3 : Sys Nat := (Sys.enq narrow 2 narrow2 2).getD narrow2

/-- The narrow queue after `enqueue(1); dequeue(); enqueue(2); enqueue(3)`. -/
def narrow4 : Sys Nat := (Sys.enq narrow 2 narrow3 3).getD narrow3

/-- A queue with two blocks of one entry each and a version counter of one bit. -/
def duo : Params := ⟨2, 2, 1⟩

/-- The two-block queue, fresh. -/
def duo0 : Sys Nat := Sys.fresh duo zeroMem

/-- The two-block queue after `enqueue(1)`. -/
def duo1 : Sys Nat := (Sys.enq duo 2 duo0 1).getD duo0

/-- The two-block queue after `enqueue(1); enqueue(2)`. -/
def duo2 : Sys Nat := (Sys.enq duo 2 duo1 2).getD duo1

/-- The two-block queue after `enqueue(1); enqueue(2); dequeue()`. -/
def duo3 : Sys Nat := (Sys.deq duo 2 duo2 0).getD duo2

/-- The two-block queue after `enqueue(1); enqueue(2); dequeue(); dequeue()`. -/
def duo4 : Sys Nat := (Sys.deq duo 2 duo3 0).getD duo3

/-- The two-block queue after `enqueue(1); enqueue(2); dequeue(); dequeue(); enqueue(3)`:
the last call has made the producer version wrap from 1 to 0. -/
def duo5 : Sys Nat := (Sys.enq duo 2 duo4 3).getD duo4

/-- For `Queue<T, 8, 2>`: the enqueues of 0, ..., 7 followed by four dequeues. -/
def fillDrain (t : Nat) : List (Call Nat) :=
  [Call.enq 0, Call.enq 1, Call.enq 2, Call.enq 3, Call.enq 4, Call.enq 5, Call.enq 6,
    Call.enq 7, Call.deq t, Call.deq t, Call.deq t, Call.deq t]

/-- What the calls of `fillDrain` return. -/
def fillDrainRets : List (Ret Nat) :=
  [Ret.enq true, Ret.enq true, Ret.enq true, Ret.enq true, Ret.enq true, Ret.enq true,
    Ret.enq true, Ret.enq true, Ret.deq true 0, Ret.deq true 1, Ret.deq true 2,
    Ret.deq true 3]

/-! # Theorems -/

/-! ## Closed forms of the operations -/

@[simp] theorem upd_same {α : Type} (f : Nat → α) (i : Nat) (v : α) : upd f i v i = v := by
  simp [upd]

theorem upd_apply {α : Type} (f : Nat → α) (i j : Nat) (v : α) :
    upd f i v j = if j = i then v else f j := rfl

theorem upd_other {α : Type} (f : Nat → α) (i j : Nat) (v : α) (h : j ≠ i) :
    upd f i v j = f j := by
  simp [upd, h]

theorem prod_advance_eq (p : Params) (q : Queue T) :
    prod_advance p q = if prod_ok p q then (true, padvQ p q) else (false, q) := by
  unfold prod_advance prod_ok padvQ pnext
  split <;> simp_all

theorem cons_advance_eq (p : Params) (q : Queue T) :
    cons_advance p q = if cons_ok q then (some (cnext q), cadvQ p q) else (none, q) := by
  unfold cons_advance cons_ok cadvQ cnext
  split <;> simp_all

theorem enqueue_succ (p : Params) (fuel : Nat) (q : Queue T) (t : T) :
    enqueue p (fuel + 1) q t =
      if (q.blocks q.head).prod.field.index < p.NE then some (true, pushQ q t)
      else if prod_ok p q then enqueue p fuel (padvQ p q) t
      else some (false, q) := by
  rw [enqueue]
  simp only [prod_advance_eq]
  by_cases h1 : (q.blocks q.head).prod.field.index < p.NE
  · simp [h1, pushQ]
  · cases h2 : prod_ok p q <;> simp [h1]

theorem dequeue_succ (p : Params) (fuel : Nat) (q : Queue T) (t : T) :
    dequeue p (fuel + 1) q t =
      if (q.blocks q.tail).cons.field.index < p.NE then
        if (q.blocks q.tail).prod.field.index = (q.blocks q.tail).cons.field.index then
          some (false, t, q)
        else some (true, (q.blocks q.tail).data (q.blocks q.tail).cons.field.index, popQ q)
      else if cons_ok q then dequeue p fuel (cadvQ p q) t
      else some (false, t, q) := by
  rw [dequeue]
  simp only [cons_advance_eq]
  by_cases h1 : (q.blocks q.tail).cons.field.index < p.NE
  · simp [h1, popQ]
  · cases h2 : cons_ok q <;> simp [h1]

theorem padvQ_head_index (p : Params) (q : Queue T) :
    ((padvQ p q).blocks (padvQ p q).head).prod.field.index = 0 := by
  simp [padvQ, Field.make]

theorem cadvQ_tail_index (p : Params) (q : Queue T) :
    ((cadvQ p q).blocks (cadvQ p q).tail).cons.field.index = 0 := by
  simp [cadvQ, Field.make]

/-- With `NE ≥ 1`, two passes are enough for `enqueue`: closed form of the call. -/
theorem enqueue_eq (p : Params) (hNE : 1 ≤ p.NE) (fuel : Nat) (q : Queue T) (t : T) :
    enqueue p (fuel + 2) q t =
      if (q.blocks q.head).prod.field.index < p.NE then some (true, pushQ q t)
      else if prod_ok p q then some (true, pushQ (padvQ p q) t)
      else some (false, q) := by
  rw [enqueue_succ, enqueue_succ]
  have h0 : ((padvQ p q).blocks (padvQ p q).head).prod.field.index < p.NE := by
    rw [padvQ_head_index]; omega
  simp [h0]

/-- With `NE ≥ 1`, two passes are enough for `dequeue`: closed form of the call. -/
theorem dequeue_eq (p : Params) (hNE : 1 ≤ p.NE) (fuel : Nat) (q : Queue T) (t : T) :
    dequeue p (fuel + 2) q t =
      if (q.blocks q.tail).cons.field.index < p.NE then
        if (q.blocks q.tail).prod.field.index = (q.blocks q.tail).cons.field.index then
          some (false, t, q)
        else some (true, (q.blocks q.tail).data (q.blocks q.tail).cons.field.index, popQ q)
      else if cons_ok q then
        if ((cadvQ p q).blocks (cadvQ p q).tail).prod.field.index = 0 then
          some (false, t, cadvQ p q)
        else some (true, ((cadvQ p q).blocks (cadvQ p q).tail).data 0, popQ (cadvQ p q))
      else some (false, t, q) := by
  rw [dequeue_succ, dequeue_succ]
  have h0 : ((cadvQ p q).blocks (cadvQ p q).tail).cons.field.index < p.NE := by
    rw [cadvQ_tail_index]; omega
  have hpos : 0 < p.NE := by omega
  simp [cadvQ_tail_index, hpos]

/-- The result of a call does not depend on the fuel once there is enough of it. -/
theorem enqueue_fuel (p : Params) (hNE : 1 ≤ p.NE) (fuel : Nat) (hf : 2 ≤ fuel)
    (q : Queue T) (t : T) : enqueue p fuel q t = enqueue p 2 q t := by
  obtain ⟨k, rfl⟩ : ∃ k, fuel = k + 2 := ⟨fuel - 2, by omega⟩
  rw [enqueue_eq p hNE k, show (2 : Nat) = 0 + 2 from rfl, enqueue_eq p hNE 0]

theorem dequeue_fuel (p : Params) (hNE : 1 ≤ p.NE) (fuel : Nat) (hf : 2 ≤ fuel)
    (q : Queue T) (t : T) : dequeue p fuel q t = dequeue p 2 q t := by
  obtain ⟨k, rfl⟩ : ∃ k, fuel = k + 2 := ⟨fuel - 2, by omega⟩
  rw [dequeue_eq p hNE k, show (2 : Nat) = 0 + 2 from rfl, dequeue_eq p hNE 0]

/-! ## The freshly constructed queue -/

theorem ctor_loop (p : Params) (mem : Nat → Block T) (n i : Nat) :
    ((List.range n).foldl
      (fun bl i => upd bl i ((bl i).init p (i == 0) ((i + 1) % p.B))) mem) i
      = if i < n then (mem i).init p (i == 0) ((i + 1) % p.B) else mem i := by
  induction n with
  | zero => simp
  | succ n ih =>
    rw [List.range_succ, List.foldl_append]
    simp only [List.foldl_cons, List.foldl_nil, upd_apply]
    by_cases h : i = n
    · subst h
      simp [ih]
    · rw [if_neg h, ih]
      by_cases h2 : i < n
      · simp [h2, Nat.lt_succ_of_lt h2]
      · have : ¬ i < n + 1 := by omega
        simp [h2, this]

theorem ctor_blocks (p : Params) (mem : Nat → Block T) (i : Nat) (hi : i < p.B) :
    (Queue.Queue p mem).blocks i = (mem i).init p (i == 0) ((i + 1) % p.B) := by
  unfold Queue.Queue
  simp only
  rw [ctor_loop, if_pos hi]

/-! ## Steps of a view -/

theorem View.good_push (p : Params) (v : View) (h : v.Good p) (hlt : v.hi < p.NE) :
    v.push.Good p := by
  obtain ⟨h1, h2, h3, h4, h5, h6, h7, h8⟩ := h
  constructor <;> simp only [View.push] <;> omega

theorem View.good_padv (p : Params) (v : View) (h : v.Good p) (_hfull : v.hi = p.NE)
    (hnb : ¬ v.Blocked p) (hw : v.hv + bump p v.head < 2 ^ p.VERSION_BITS) :
    (v.padv p).Good p := by
  obtain ⟨h1, h2, h3, h4, h5, h6, h7, h8⟩ := h
  unfold View.Blocked at hnb
  unfold bump at hw
  constructor <;> simp only [View.padv, nextB, bump] <;> split_ifs at hw ⊢ <;> omega

theorem View.good_pop (p : Params) (v : View) (h : v.Good p) (hlt : v.tj < p.NE)
    (hne : (v.pf p v.tail).index ≠ v.tj) : v.pop.Good p := by
  obtain ⟨h1, h2, h3, h4, h5, h6, h7, h8⟩ := h
  unfold View.pf at hne
  constructor <;> simp only [View.pop] <;> split_ifs at hne <;> simp at hne <;> omega

theorem View.good_cadv (p : Params) (v : View) (h : v.Good p) (hfull : v.tj = p.NE)
    (hns : ¬ v.Same) : (v.cadv p).Good p := by
  obtain ⟨h1, h2, h3, h4, h5, h6, h7, h8⟩ := h
  unfold View.Same at hns
  constructor <;> simp only [View.cadv, nextB, bump] <;> (try split_ifs) <;> omega

/-! ## Lists of slots -/

theorem segS_nil (b lo n : Nat) (hn : n = 0) : segS b lo n = [] := by
  subst hn; rfl

theorem segS_cons (b lo n m : Nat) (hn : n = m + 1) :
    segS b lo n = (b, lo) :: segS b (lo + 1) m := by
  subst hn; rfl

theorem segS_snoc (b lo n m k : Nat) (hn : n = m + 1) (hk : lo + m = k) :
    segS b lo n = segS b lo m ++ [(b, k)] := by
  subst hn hk
  induction m generalizing lo with
  | zero => simp [segS]
  | succ m ih =>
    rw [segS, ih (lo + 1), segS]
    simp [Nat.add_assoc, Nat.add_comm 1 m]

theorem spanS_nil (NE a n : Nat) (hn : n = 0) : spanS NE a n = [] := by
  subst hn; rfl

theorem spanS_cons (NE a n m : Nat) (hn : n = m + 1) :
    spanS NE a n = segS a 0 NE ++ spanS NE (a + 1) m := by
  subst hn; rfl

theorem spanS_snoc (NE a n m k : Nat) (hn : n = m + 1) (hk : a + m = k) :
    spanS NE a n = spanS NE a m ++ segS k 0 NE := by
  subst hn hk
  induction m generalizing a with
  | zero => simp [spanS]
  | succ m ih =>
    rw [spanS, ih (a + 1), spanS]
    simp [Nat.add_assoc, Nat.add_comm 1 m]

theorem mem_segS (b lo n : Nat) (x : Nat × Nat) :
    x ∈ segS b lo n ↔ x.1 = b ∧ lo ≤ x.2 ∧ x.2 < lo + n := by
  induction n generalizing lo with
  | zero => simp [segS]
  | succ n ih =>
    rw [segS, List.mem_cons, ih]
    rcases x with ⟨x1, x2⟩
    simp only [Prod.mk.injEq]
    omega

theorem mem_spanS (NE a n : Nat) (x : Nat × Nat) :
    x ∈ spanS NE a n ↔ a ≤ x.1 ∧ x.1 < a + n ∧ x.2 < NE := by
  induction n generalizing a with
  | zero => simp [spanS]; omega
  | succ n ih =>
    rw [spanS, List.mem_append, ih, mem_segS]
    omega

theorem length_segS (b lo n : Nat) : (segS b lo n).length = n := by
  induction n generalizing lo with
  | zero => rfl
  | succ n ih => simp [segS, ih]

theorem length_spanS (NE a n : Nat) : (spanS NE a n).length = n * NE := by
  induction n generalizing a with
  | zero => simp [spanS]
  | succ n ih => simp [spanS, ih, length_segS, Nat.succ_mul, Nat.add_comm]

theorem View.slots_same (p : Params) (v : View) (h1 : v.hv = v.tv) (h2 : v.tail = v.head) :
    v.slots p = segS v.head v.tj (v.hi - v.tj) := by
  simp [View.slots, h1, h2]

theorem View.slots_lap (p : Params) (v : View) (h1 : v.hv = v.tv) (h2 : v.tail ≠ v.head) :
    v.slots p = segS v.tail v.tj (p.NE - v.tj)
      ++ spanS p.NE (v.tail + 1) (v.head - v.tail - 1) ++ segS v.head 0 v.hi := by
  simp [View.slots, h1, h2]

theorem View.slots_next (p : Params) (v : View) (h1 : v.hv ≠ v.tv) :
    v.slots p = segS v.tail v.tj (p.NE - v.tj)
      ++ spanS p.NE (v.tail + 1) (p.B - v.tail - 1) ++ spanS p.NE 0 v.head
      ++ segS v.head 0 v.hi := by
  simp [View.slots, h1]

/-- The slot that `enqueue` writes holds no undelivered item. -/
theorem View.slot_free (p : Params) (v : View) (h : v.Good p) :
    (v.head, v.hi) ∉ v.slots p := by
  obtain ⟨h1, h2, h3, h4, h5, h6, h7, h8⟩ := h
  unfold View.slots
  split_ifs <;> simp only [List.mem_append, mem_segS, mem_spanS] <;> omega

/-- The store of `enqueue` appends its slot. -/
theorem View.slots_push (p : Params) (v : View) (h : v.Good p) :
    v.push.slots p = v.slots p ++ [(v.head, v.hi)] := by
  obtain ⟨h1, h2, h3, h4, h5, h6, h7, h8⟩ := h
  obtain ⟨head, hv, hi, tail, tv, tj⟩ := v
  simp only [View.push] at h1 h2 h3 h4 h5 h6 h7 h8 ⊢
  by_cases e : hv = tv
  · by_cases e2 : tail = head
    · rw [View.slots_same p ⟨head, hv, hi + 1, tail, tv, tj⟩ e e2,
        View.slots_same p ⟨head, hv, hi, tail, tv, tj⟩ e e2]
      exact segS_snoc head tj (hi + 1 - tj) (hi - tj) hi (by omega) (by omega)
    · rw [View.slots_lap p ⟨head, hv, hi + 1, tail, tv, tj⟩ e e2,
        View.slots_lap p ⟨head, hv, hi, tail, tv, tj⟩ e e2]
      simp only
      rw [segS_snoc head 0 (hi + 1) hi hi rfl (by omega)]
      simp only [List.append_assoc]
  · rw [View.slots_next p ⟨head, hv, hi + 1, tail, tv, tj⟩ e,
      View.slots_next p ⟨head, hv, hi, tail, tv, tj⟩ e]
    simp only
    rw [segS_snoc head 0 (hi + 1) hi hi rfl (by omega)]
    simp only [List.append_assoc]

/-- A successful `prod_advance` does not change the slots in use. -/
theorem View.slots_padv (p : Params) (v : View) (h : v.Good p) (hfull : v.hi = p.NE)
    (hnb : ¬ v.Blocked p) : (v.padv p).slots p = v.slots p := by
  obtain ⟨h1, h2, h3, h4, h5, h6, h7, h8⟩ := h
  obtain ⟨head, hv, hi, tail, tv, tj⟩ := v
  simp only [View.padv, View.Blocked, nextB, bump] at h1 h2 h3 h4 h5 h6 h7 h8 hfull hnb ⊢
  subst hfull
  by_cases hB : head + 1 < p.B
  · simp only [if_pos hB, Nat.add_zero]
    by_cases e : hv = tv
    · by_cases e2 : tail = head
      · rw [View.slots_lap p ⟨head + 1, hv, 0, tail, tv, tj⟩ e (show tail ≠ head + 1 by omega),
          View.slots_same p ⟨head, hv, p.NE, tail, tv, tj⟩ e e2]
        simp only
        subst e2
        rw [spanS_nil p.NE _ _ (show tail + 1 - tail - 1 = 0 by omega)]
        simp [segS]
      · rw [View.slots_lap p ⟨head + 1, hv, 0, tail, tv, tj⟩ e (show tail ≠ head + 1 by omega),
          View.slots_lap p ⟨head, hv, p.NE, tail, tv, tj⟩ e e2]
        simp only
        rw [spanS_snoc p.NE (tail + 1) (head + 1 - tail - 1) (head - tail - 1) head
          (by omega) (by omega)]
        simp [segS]
    · rw [View.slots_next p ⟨head + 1, hv, 0, tail, tv, tj⟩ e,
        View.slots_next p ⟨head, hv, p.NE, tail, tv, tj⟩ e]
      simp only
      rw [spanS_snoc p.NE 0 (head + 1) head head rfl (by omega)]
      simp [segS]
  · simp only [if_neg hB]
    have e : hv = tv := by omega
    rw [View.slots_next p ⟨0, hv + 1, 0, tail, tv, tj⟩ (show hv + 1 ≠ tv by omega)]
    by_cases e2 : tail = head
    · rw [View.slots_same p ⟨head, hv, p.NE, tail, tv, tj⟩ e e2]
      simp only
      rw [spanS_nil p.NE _ _ (show p.B - tail - 1 = 0 by omega)]
      subst e2
      simp [segS, spanS]
    · rw [View.slots_lap p ⟨head, hv, p.NE, tail, tv, tj⟩ e e2]
      simp only
      rw [spanS_snoc p.NE (tail + 1) (p.B - tail - 1) (head - tail - 1) head
        (by omega) (by omega)]
      simp [segS, spanS]

/-- The fast path of `dequeue` reads the oldest slot in use. -/
theorem View.slots_pop (p : Params) (v : View) (h : v.Good p) (hlt : v.tj < p.NE)
    (hne : (v.pf p v.tail).index ≠ v.tj) : v.slots p = (v.tail, v.tj) :: v.pop.slots p := by
  obtain ⟨h1, h2, h3, h4, h5, h6, h7, h8⟩ := h
  obtain ⟨head, hv, hi, tail, tv, tj⟩ := v
  simp only [View.pop, View.pf] at h1 h2 h3 h4 h5 h6 h7 h8 hlt hne ⊢
  by_cases e : hv = tv
  · by_cases e2 : tail = head
    · rw [View.slots_same p ⟨head, hv, hi, tail, tv, tj⟩ e e2,
        View.slots_same p ⟨head, hv, hi, tail, tv, tj + 1⟩ e e2]
      simp only
      subst e2
      simp at hne
      rw [segS_cons tail tj (hi - tj) (hi - (tj + 1)) (by omega)]
    · rw [View.slots_lap p ⟨head, hv, hi, tail, tv, tj⟩ e e2,
        View.slots_lap p ⟨head, hv, hi, tail, tv, tj + 1⟩ e e2]
      simp only
      rw [segS_cons tail tj (p.NE - tj) (p.NE - (tj + 1)) (by omega)]
      simp
  · rw [View.slots_next p ⟨head, hv, hi, tail, tv, tj⟩ e,
      View.slots_next p ⟨head, hv, hi, tail, tv, tj + 1⟩ e]
    simp only
    rw [segS_cons tail tj (p.NE - tj) (p.NE - (tj + 1)) (by omega)]
    simp

/-- When the fast path of `dequeue` finds equal indices, no slot is in use. -/
theorem View.slots_nil_fast (p : Params) (v : View) (h : v.Good p) (hlt : v.tj < p.NE)
    (heq : (v.pf p v.tail).index = v.tj) : v.slots p = [] := by
  obtain ⟨h1, h2, h3, h4, h5, h6, h7, h8⟩ := h
  obtain ⟨head, hv, hi, tail, tv, tj⟩ := v
  simp only [View.pf] at h1 h2 h3 h4 h5 h6 h7 h8 hlt heq ⊢
  have e2 : tail = head := by
    split_ifs at heq <;> simp at heq <;> omega
  subst e2
  simp at heq
  have e : hv = tv := by omega
  rw [View.slots_same p ⟨tail, hv, hi, tail, tv, tj⟩ e rfl]
  exact segS_nil _ _ _ (by simp only; omega)

/-- When the consumer is at the end of the block the producer is in, no slot is in use. -/
theorem View.slots_nil_slow (p : Params) (v : View) (h : v.Good p) (hfull : v.tj = p.NE)
    (hs : v.Same) : v.slots p = [] := by
  obtain ⟨h1, h2, h3, h4, h5, h6, h7, h8⟩ := h
  rw [View.slots_same p v hs.1 hs.2]
  exact segS_nil _ _ _ (by omega)

/-- A successful `cons_advance` does not change the slots in use. -/
theorem View.slots_cadv (p : Params) (v : View) (h : v.Good p) (hfull : v.tj = p.NE)
    (hns : ¬ v.Same) : (v.cadv p).slots p = v.slots p := by
  obtain ⟨h1, h2, h3, h4, h5, h6, h7, h8⟩ := h
  obtain ⟨head, hv, hi, tail, tv, tj⟩ := v
  simp only [View.cadv, View.Same, nextB, bump] at h1 h2 h3 h4 h5 h6 h7 h8 hfull hns ⊢
  subst hfull
  by_cases hB : tail + 1 < p.B
  · simp only [if_pos hB, Nat.add_zero]
    by_cases e : hv = tv
    · rw [View.slots_lap p ⟨head, hv, hi, tail, tv, p.NE⟩ e (show tail ≠ head by omega)]
      simp only
      rw [segS_nil tail p.NE _ (Nat.sub_self _)]
      by_cases e2 : tail + 1 = head
      · rw [View.slots_same p ⟨head, hv, hi, tail + 1, tv, 0⟩ e e2,
          spanS_nil p.NE _ _ (show head - tail - 1 = 0 by omega)]
        simp
      · rw [View.slots_lap p ⟨head, hv, hi, tail + 1, tv, 0⟩ e e2]
        simp only
        rw [spanS_cons p.NE (tail + 1) (head - tail - 1) (head - (tail + 1) - 1) (by omega)]
        simp
    · rw [View.slots_next p ⟨head, hv, hi, tail, tv, p.NE⟩ e,
        View.slots_next p ⟨head, hv, hi, tail + 1, tv, 0⟩ e]
      simp only
      rw [segS_nil tail p.NE _ (Nat.sub_self _),
        spanS_cons p.NE (tail + 1) (p.B - tail - 1) (p.B - (tail + 1) - 1) (by omega)]
      simp
  · simp only [if_neg hB]
    have e : hv = tv + 1 := by omega
    rw [View.slots_next p ⟨head, hv, hi, tail, tv, p.NE⟩ (show hv ≠ tv by omega)]
    simp only
    rw [segS_nil tail p.NE _ (Nat.sub_self _),
      spanS_nil p.NE _ _ (show p.B - tail - 1 = 0 by omega)]
    by_cases e2 : 0 = head
    · rw [View.slots_same p ⟨head, hv, hi, 0, tv + 1, 0⟩ e e2]
      subst e2
      simp [spanS]
    · rw [View.slots_lap p ⟨head, hv, hi, 0, tv + 1, 0⟩ e e2]
      simp only
      rw [spanS_cons p.NE 0 head (head - 0 - 1) (by omega)]
      simp

/-! ### Counting the slots in use -/

theorem mul_cases (d n : Nat) :
    (d = 0 ∧ d * n = 0) ∨ (d = 1 ∧ d * n = n) ∨ (2 ≤ d ∧ 2 * n ≤ d * n) := by
  rcases d with _ | _ | d
  · simp
  · simp
  · right; right
    constructor
    · omega
    · exact Nat.mul_le_mul_right n (by omega)

theorem View.length_same (p : Params) (v : View) (h1 : v.hv = v.tv) (h2 : v.tail = v.head) :
    (v.slots p).length = v.hi - v.tj := by
  rw [View.slots_same p v h1 h2, length_segS]

theorem View.length_lap (p : Params) (v : View) (h1 : v.hv = v.tv) (h2 : v.tail ≠ v.head) :
    (v.slots p).length = (p.NE - v.tj) + (v.head - v.tail - 1) * p.NE + v.hi := by
  rw [View.slots_lap p v h1 h2]
  simp only [List.length_append, length_segS, length_spanS]

theorem View.length_next (p : Params) (v : View) (h1 : v.hv ≠ v.tv) :
    (v.slots p).length
      = (p.NE - v.tj) + (p.B - v.tail - 1) * p.NE + v.head * p.NE + v.hi := by
  rw [View.slots_next p v h1]
  simp only [List.length_append, length_segS, length_spanS]

/-- At most `B * NE` slots are in use. -/
theorem View.length_le (p : Params) (v : View) (h : v.Good p) :
    (v.slots p).length ≤ p.B * p.NE := by
  obtain ⟨h1, h2, h3, h4, h5, h6, h7, h8⟩ := h
  by_cases e : v.hv = v.tv
  · by_cases e2 : v.tail = v.head
    · rw [View.length_same p v e e2]
      have : p.NE ≤ p.B * p.NE := Nat.le_mul_of_pos_left _ (by omega)
      omega
    · rw [View.length_lap p v e e2]
      obtain ⟨d, hd⟩ : ∃ d, p.B = (v.head - v.tail - 1) + 2 + d :=
        ⟨p.B - (v.head - v.tail - 1) - 2, by omega⟩
      generalize v.head - v.tail - 1 = m at hd ⊢
      have hBN : p.B * p.NE = m * p.NE + 2 * p.NE + d * p.NE := by rw [hd]; ring
      omega
  · rw [View.length_next p v e]
    obtain ⟨d, hd, hd2⟩ : ∃ d, p.B = (p.B - v.tail - 1) + v.head + 1 + d ∧ d = v.tail - v.head :=
      ⟨v.tail - v.head, by omega, rfl⟩
    generalize p.B - v.tail - 1 = a at hd ⊢
    have hBN : p.B * p.NE = a * p.NE + v.head * p.NE + p.NE + d * p.NE := by
      rw [hd]; ring
    rcases mul_cases d p.NE with ⟨c1, c2⟩ | ⟨c1, c2⟩ | ⟨c1, c2⟩ <;> omega

/-- When `B * NE` slots are in use, the head block is full and the producer is blocked. -/
theorem View.full_blocked (p : Params) (v : View) (h : v.Good p) (hNE : 1 ≤ p.NE)
    (hlen : (v.slots p).length = p.B * p.NE) : v.hi = p.NE ∧ v.Blocked p := by
  obtain ⟨h1, h2, h3, h4, h5, h6, h7, h8⟩ := h
  unfold View.Blocked
  by_cases e : v.hv = v.tv
  · by_cases e2 : v.tail = v.head
    · rw [View.length_same p v e e2] at hlen
      obtain ⟨d, hd⟩ : ∃ d, p.B = 1 + d := ⟨p.B - 1, by omega⟩
      have hBN : p.B * p.NE = p.NE + d * p.NE := by rw [hd]; ring
      rcases mul_cases d p.NE with ⟨c1, c2⟩ | ⟨c1, c2⟩ | ⟨c1, c2⟩ <;> omega
    · rw [View.length_lap p v e e2] at hlen
      obtain ⟨d, hd⟩ : ∃ d, p.B = (v.head - v.tail - 1) + 2 + d :=
        ⟨p.B - (v.head - v.tail - 1) - 2, by omega⟩
      have hm : v.head = v.tail + 1 + (v.head - v.tail - 1) := by omega
      generalize v.head - v.tail - 1 = m at hd hlen hm
      have hBN : p.B * p.NE = m * p.NE + 2 * p.NE + d * p.NE := by rw [hd]; ring
      rcases mul_cases d p.NE with ⟨c1, c2⟩ | ⟨c1, c2⟩ | ⟨c1, c2⟩ <;> omega
  · rw [View.length_next p v e] at hlen
    obtain ⟨d, hd, hd2⟩ : ∃ d, p.B = (p.B - v.tail - 1) + v.head + 1 + d ∧ d = v.tail - v.head :=
      ⟨v.tail - v.head, by omega, rfl⟩
    generalize p.B - v.tail - 1 = a at hd hlen
    have hBN : p.B * p.NE = a * p.NE + v.head * p.NE + p.NE + d * p.NE := by
      rw [hd]; ring
    rcases mul_cases d p.NE with ⟨c1, c2⟩ | ⟨c1, c2⟩ | ⟨c1, c2⟩ <;> omega

/-- When the head block is full and the producer is blocked, more than `B * NE - NE` slots
are in use. -/
theorem View.blocked_length (p : Params) (v : View) (h : v.Good p) (hNE : 1 ≤ p.NE)
    (hfull : v.hi = p.NE) (hb : v.Blocked p) : p.B * p.NE < (v.slots p).length + p.NE := by
  obtain ⟨h1, h2, h3, h4, h5, h6, h7, h8⟩ := h
  unfold View.Blocked at hb
  by_cases e : v.hv = v.tv
  · by_cases e2 : v.tail = v.head
    · rw [View.length_same p v e e2]
      have hB1 : p.B = 1 := by omega
      have hBN : p.B * p.NE = p.NE := by rw [hB1, Nat.one_mul]
      omega
    · rw [View.length_lap p v e e2]
      have hd : p.B = (v.head - v.tail - 1) + 2 := by omega
      generalize v.head - v.tail - 1 = m at hd ⊢
      have hBN : p.B * p.NE = m * p.NE + 2 * p.NE := by rw [hd]; ring
      omega
  · rw [View.length_next p v e]
    obtain ⟨d, hd, hd2⟩ : ∃ d, p.B = (p.B - v.tail - 1) + v.head + 1 + d ∧ d = v.tail - v.head :=
      ⟨v.tail - v.head, by omega, rfl⟩
    generalize p.B - v.tail - 1 = a at hd ⊢
    have hBN : p.B * p.NE = a * p.NE + v.head * p.NE + p.NE + d * p.NE := by
      rw [hd]; ring
    rcases mul_cases d p.NE with ⟨c1, c2⟩ | ⟨c1, c2⟩ | ⟨c1, c2⟩ <;> omega

/-! ### Fields of the view after each step -/

theorem View.pf_push (p : Params) (v : View) (b : Nat) :
    v.push.pf p b = if b = v.head then ⟨v.hv, v.hi + 1⟩ else v.pf p b := by
  obtain ⟨head, hv, hi, tail, tv, tj⟩ := v
  simp only [View.pf, View.push]
  split_ifs <;> first | omega | rfl

theorem View.cf_pop (p : Params) (v : View) (b : Nat) :
    v.pop.cf p b = if b = v.tail then ⟨v.tv, v.tj + 1⟩ else v.cf p b := by
  obtain ⟨head, hv, hi, tail, tv, tj⟩ := v
  simp only [View.cf, View.pop]
  split_ifs <;> first | omega | rfl

theorem View.pf_padv (p : Params) (v : View) (h : v.Good p) (hfull : v.hi = p.NE) (b : Nat)
    (hb : b < p.B) :
    (v.padv p).pf p b
      = if b = nextB p v.head then ⟨v.hv + bump p v.head, 0⟩ else v.pf p b := by
  obtain ⟨h1, h2, h3, h4, h5, h6, h7, h8⟩ := h
  obtain ⟨head, hv, hi, tail, tv, tj⟩ := v
  simp only [View.pf, View.padv, nextB, bump] at h1 h2 h3 h4 h5 h6 h7 h8 hfull ⊢
  split_ifs <;> simp <;> omega

theorem View.cf_cadv (p : Params) (v : View) (h : v.Good p) (hfull : v.tj = p.NE) (b : Nat)
    (hb : b < p.B) :
    (v.cadv p).cf p b
      = if b = nextB p v.tail then ⟨v.tv + bump p v.tail, 0⟩ else v.cf p b := by
  obtain ⟨h1, h2, h3, h4, h5, h6, h7, h8⟩ := h
  obtain ⟨head, hv, hi, tail, tv, tj⟩ := v
  simp only [View.cf, View.cadv, nextB, bump] at h1 h2 h3 h4 h5 h6 h7 h8 hfull ⊢
  split_ifs <;> simp <;> omega

theorem mod_next (p : Params) (b : Nat) (hb : b < p.B) : (b + 1) % p.B = nextB p b := by
  unfold nextB
  split_ifs with h
  · exact Nat.mod_eq_of_lt h
  · have : b + 1 = p.B := by omega
    rw [this, Nat.mod_self]

theorem nextB_lt (p : Params) (b : Nat) (hb : b < p.B) : nextB p b < p.B := by
  unfold nextB
  split_ifs <;> omega

theorem nextB_first (p : Params) (b : Nat) :
    (if (nextB p b == 0) = true then 1 else 0) = bump p b := by
  unfold nextB bump
  split_ifs <;> simp_all

/-! ## The queue as a representation of a view -/

theorem pow_bits (p : Params) (hw : p.VERSION_BITS ≤ 44) : 2 ^ p.VERSION_BITS ≤ 2 ^ 44 :=
  Nat.pow_le_pow_right (by decide) hw

theorem Rep.head_field {p : Params} {v : View} {q : Queue T} (hr : Rep p v q)
    (hg : v.Good p) : (q.blocks q.head).prod.field = ⟨v.hv, v.hi⟩ := by
  rw [hr.head_eq, hr.prod_eq _ hg.head_lt]
  simp [View.pf]

theorem Rep.tail_field {p : Params} {v : View} {q : Queue T} (hr : Rep p v q)
    (hg : v.Good p) : (q.blocks q.tail).cons.field = ⟨v.tv, v.tj⟩ := by
  rw [hr.tail_eq, hr.cons_eq _ hg.tail_lt]
  simp [View.cf]

theorem Rep.tail_prod {p : Params} {v : View} {q : Queue T} (hr : Rep p v q)
    (hg : v.Good p) : (q.blocks q.tail).prod.field = v.pf p v.tail := by
  rw [hr.tail_eq, hr.prod_eq _ hg.tail_lt]

theorem Rep.pnext_eq {p : Params} {v : View} {q : Queue T} (hr : Rep p v q)
    (hg : v.Good p) : pnext q = nextB p v.head := by
  unfold pnext
  rw [hr.head_eq, hr.prod_eq _ hg.head_lt]
  exact mod_next p _ hg.head_lt

theorem Rep.cnext_eq {p : Params} {v : View} {q : Queue T} (hr : Rep p v q)
    (hg : v.Good p) : cnext q = nextB p v.tail := by
  unfold cnext
  rw [hr.tail_eq, hr.cons_eq _ hg.tail_lt]
  exact mod_next p _ hg.tail_lt

theorem Rep.prod_nvsn_eq {p : Params} {v : View} {q : Queue T} (hr : Rep p v q)
    (hg : v.Good p) (hw : p.VERSION_BITS ≤ 44) : prod_nvsn q = v.hv + bump p v.head := by
  have hn := hr.pnext_eq hg
  unfold pnext at hn
  unfold prod_nvsn
  simp only
  rw [hn, hr.head_field hg, hr.prod_eq _ (nextB_lt p _ hg.head_lt)]
  simp only
  rw [nextB_first]
  have h1 := hg.hv_lt
  have h2 := pow_bits p hw
  have h3 : bump p v.head ≤ 1 := by unfold bump; split_ifs <;> omega
  exact Nat.mod_eq_of_lt (by omega)

theorem Rep.cons_nvsn_eq {p : Params} {v : View} {q : Queue T} (hr : Rep p v q)
    (hg : v.Good p) (hw : p.VERSION_BITS ≤ 44) : cons_nvsn q = v.tv + bump p v.tail := by
  have hn := hr.cnext_eq hg
  unfold cnext at hn
  unfold cons_nvsn
  simp only
  rw [hn, hr.tail_field hg, hr.cons_eq _ (nextB_lt p _ hg.tail_lt)]
  simp only
  rw [nextB_first]
  have h1 := hg.hv_lt
  have h2 := pow_bits p hw
  have h3 : bump p v.tail ≤ 1 := by unfold bump; split_ifs <;> omega
  have h4 := hg.rel
  exact Nat.mod_eq_of_lt (by omega)

/-- The test of `prod_advance` fails exactly when the producer is blocked. -/
theorem Rep.prod_ok_iff {p : Params} {v : View} {q : Queue T} (hr : Rep p v q)
    (hg : v.Good p) (hw : p.VERSION_BITS ≤ 44) : prod_ok p q = true ↔ ¬ v.Blocked p := by
  unfold prod_ok Block.cons_ready
  rw [hr.prod_nvsn_eq hg hw, hr.pnext_eq hg, hr.cons_eq _ (nextB_lt p _ hg.head_lt)]
  obtain ⟨h1, h2, h3, h4, h5, h6, h7, h8⟩ := hg
  have h9 := pow_bits p hw
  by_cases hB : v.head + 1 < p.B
  · have hb : bump p v.head = 0 := by simp [bump, hB]
    have hn : nextB p v.head = v.head + 1 := by simp [nextB, hB]
    have h11 : (v.hv + 0 + (2 ^ 64 - 1)) % 2 ^ 64 = v.hv - 1 := by omega
    rw [hb, hn, h11]
    simp only [Bool.or_eq_true, Bool.and_eq_true, beq_iff_eq, decide_eq_true_eq]
    unfold View.Blocked View.cf
    split_ifs <;> simp only [and_true, eq_self_iff_true] <;> omega
  · have hb : bump p v.head = 1 := by simp [bump, hB]
    have hn : nextB p v.head = 0 := by simp [nextB, hB]
    have h11 : (v.hv + 1 + (2 ^ 64 - 1)) % 2 ^ 64 = v.hv := by omega
    rw [hb, hn, h11]
    simp only [Bool.or_eq_true, Bool.and_eq_true, beq_iff_eq, decide_eq_true_eq]
    unfold View.Blocked View.cf
    split_ifs <;> simp only [and_true, eq_self_iff_true] <;> omega

/-- The test of `cons_advance` fails exactly when the consumer is in the block and lap of
the producer. -/
theorem Rep.cons_ok_iff {p : Params} {v : View} {q : Queue T} (hr : Rep p v q)
    (hg : v.Good p) (hw : p.VERSION_BITS ≤ 44) : cons_ok q = true ↔ ¬ v.Same := by
  unfold cons_ok Block.prod_ready
  rw [hr.cons_nvsn_eq hg hw, hr.cnext_eq hg, hr.prod_eq _ (nextB_lt p _ hg.tail_lt)]
  obtain ⟨h1, h2, h3, h4, h5, h6, h7, h8⟩ := hg
  simp only [beq_iff_eq]
  by_cases hB : v.tail + 1 < p.B
  · have hb : bump p v.tail = 0 := by simp [bump, hB]
    have hn : nextB p v.tail = v.tail + 1 := by simp [nextB, hB]
    rw [hb, hn]
    unfold View.Same View.pf
    split_ifs <;> simp only [and_true, eq_self_iff_true] <;> omega
  · have hb : bump p v.tail = 1 := by simp [bump, hB]
    have hn : nextB p v.tail = 0 := by simp [nextB, hB]
    rw [hb, hn]
    unfold View.Same View.pf
    split_ifs <;> simp only [and_true, eq_self_iff_true] <;> omega

/-! ## Each step of a call keeps the representation -/

theorem rd_pushQ (q : Queue T) (t : T) (x : Nat × Nat) :
    rd (pushQ q t) x
      = if x = (q.head, (q.blocks q.head).prod.field.index) then t else rd q x := by
  obtain ⟨b, k⟩ := x
  simp only [rd, pushQ, upd_apply, Prod.mk.injEq]
  by_cases h1 : b = q.head
  · by_cases h2 : k = (q.blocks q.head).prod.field.index
    · simp [h1, h2]
    · simp [h1, h2, upd_apply]
  · simp [h1]

theorem rd_padvQ (p : Params) (q : Queue T) (x : Nat × Nat) : rd (padvQ p q) x = rd q x := by
  simp only [rd, padvQ, upd_apply]
  split_ifs with h
  · rw [h]
  · rfl

theorem rd_popQ (q : Queue T) (x : Nat × Nat) : rd (popQ q) x = rd q x := by
  simp only [rd, popQ, upd_apply]
  split_ifs with h
  · rw [h]
  · rfl

theorem rd_cadvQ (p : Params) (q : Queue T) (x : Nat × Nat) : rd (cadvQ p q) x = rd q x := by
  simp only [rd, cadvQ, upd_apply]
  split_ifs with h
  · rw [h]
  · rfl

theorem Rep.push {p : Params} {v : View} {q : Queue T} (hr : Rep p v q) (hg : v.Good p)
    (hlt : v.hi < p.NE) (hidx : p.NE < 2 ^ INDEX_BITS) (t : T) :
    Rep p v.push (pushQ q t) := by
  have hf := hr.head_field hg
  refine ⟨hr.head_eq, hr.tail_eq, ?_, ?_⟩
  · intro b hb
    rw [View.pf_push]
    simp only [pushQ, upd_apply]
    by_cases h : b = v.head
    · have h' : b = q.head := by rw [hr.head_eq]; exact h
      rw [if_pos h, if_pos h']
      simp only [hf, Field.add]
      have : (v.hi + 1) % 2 ^ INDEX_BITS = v.hi + 1 := Nat.mod_eq_of_lt (by omega)
      rw [← h', hr.prod_eq b hb, this]
    · have h' : ¬ b = q.head := by rw [hr.head_eq]; exact h
      rw [if_neg h, if_neg h']
      exact hr.prod_eq b hb
  · intro b hb
    simp only [pushQ, upd_apply]
    split_ifs with h
    · rw [h]; simp only; rw [← h]; exact hr.cons_eq b hb
    · exact hr.cons_eq b hb

theorem Rep.pop {p : Params} {v : View} {q : Queue T} (hr : Rep p v q) (hg : v.Good p)
    (hlt : v.tj < p.NE) (hidx : p.NE < 2 ^ INDEX_BITS) :
    Rep p v.pop (popQ q) := by
  have hf := hr.tail_field hg
  refine ⟨hr.head_eq, hr.tail_eq, ?_, ?_⟩
  · intro b hb
    simp only [popQ, upd_apply]
    split_ifs with h
    · rw [h]; simp only; rw [← h]; exact hr.prod_eq b hb
    · exact hr.prod_eq b hb
  · intro b hb
    rw [View.cf_pop]
    simp only [popQ, upd_apply]
    by_cases h : b = v.tail
    · have h' : b = q.tail := by rw [hr.tail_eq]; exact h
      rw [if_pos h, if_pos h']
      simp only [hf, Field.add]
      have : (v.tj + 1) % 2 ^ INDEX_BITS = v.tj + 1 := Nat.mod_eq_of_lt (by omega)
      rw [← h', hr.cons_eq b hb, this]
    · have h' : ¬ b = q.tail := by rw [hr.tail_eq]; exact h
      rw [if_neg h, if_neg h']
      exact hr.cons_eq b hb

theorem Rep.padv {p : Params} {v : View} {q : Queue T} (hr : Rep p v q) (hg : v.Good p)
    (hfull : v.hi = p.NE) (hw : p.VERSION_BITS ≤ 44)
    (hnw : v.hv + bump p v.head < 2 ^ p.VERSION_BITS) :
    Rep p (v.padv p) (padvQ p q) := by
  have hn := hr.pnext_eq hg
  have hv := hr.prod_nvsn_eq hg hw
  have hlt := nextB_lt p _ hg.head_lt
  refine ⟨hn, hr.tail_eq, ?_, ?_⟩
  · intro b hb
    rw [View.pf_padv p v hg hfull b hb]
    simp only [padvQ, upd_apply, hn, hv]
    by_cases h : b = nextB p v.head
    · rw [if_pos h, if_pos h]
      simp only [Field.make]
      rw [hr.prod_eq _ hlt, ← h, Nat.mod_eq_of_lt hnw]
      simp
    · rw [if_neg h, if_neg h]
      exact hr.prod_eq b hb
  · intro b hb
    simp only [padvQ, upd_apply, hn]
    split_ifs with h
    · simp only; rw [← h]; exact hr.cons_eq b hb
    · exact hr.cons_eq b hb

theorem Rep.cadv {p : Params} {v : View} {q : Queue T} (hr : Rep p v q) (hg : v.Good p)
    (hfull : v.tj = p.NE) (hw : p.VERSION_BITS ≤ 44) (hns : ¬ v.Same) :
    Rep p (v.cadv p) (cadvQ p q) := by
  have hn := hr.cnext_eq hg
  have hv := hr.cons_nvsn_eq hg hw
  have hlt := nextB_lt p _ hg.tail_lt
  have hnw : v.tv + bump p v.tail < 2 ^ p.VERSION_BITS := by
    obtain ⟨h1, h2, h3, h4, h5, h6, h7, h8⟩ := hg
    unfold View.Same at hns
    unfold bump
    split_ifs <;> omega
  refine ⟨hr.head_eq, hn, ?_, ?_⟩
  · intro b hb
    simp only [cadvQ, upd_apply, hn]
    split_ifs with h
    · simp only; rw [← h]; exact hr.prod_eq b hb
    · exact hr.prod_eq b hb
  · intro b hb
    rw [View.cf_cadv p v hg hfull b hb]
    simp only [cadvQ, upd_apply, hn, hv]
    by_cases h : b = nextB p v.tail
    · rw [if_pos h, if_pos h]
      simp only [Field.make]
      rw [hr.cons_eq _ hlt, ← h, Nat.mod_eq_of_lt hnw]
      simp
    · rw [if_neg h, if_neg h]
      exact hr.cons_eq b hb

/-! ## The outcomes of a call -/

/-- The three ways in which an `enqueue` call returns. -/
theorem enqueue_cases (p : Params) (hNE : 1 ≤ p.NE) (fuel : Nat) (q : Queue T) (x : T)
    (r : Bool × Queue T) (h : enqueue p fuel q x = some r) :
    ((q.blocks q.head).prod.field.index < p.NE ∧ r = (true, pushQ q x)) ∨
    (¬ (q.blocks q.head).prod.field.index < p.NE ∧ prod_ok p q = true ∧
      r = (true, pushQ (padvQ p q) x)) ∨
    (¬ (q.blocks q.head).prod.field.index < p.NE ∧ prod_ok p q = false ∧ r = (false, q)) := by
  rcases fuel with _ | fuel
  · simp [enqueue] at h
  · rw [enqueue_succ] at h
    by_cases h1 : (q.blocks q.head).prod.field.index < p.NE
    · rw [if_pos h1] at h
      exact Or.inl ⟨h1, (Option.some.inj h).symm⟩
    · rw [if_neg h1] at h
      cases h2 : prod_ok p q
      · rw [h2] at h
        exact Or.inr (Or.inr ⟨h1, rfl, (Option.some.inj h).symm⟩)
      · rw [h2, if_pos rfl] at h
        rcases fuel with _ | fuel
        · simp [enqueue] at h
        · rw [enqueue_succ, padvQ_head_index, if_pos (by omega)] at h
          exact Or.inr (Or.inl ⟨h1, rfl, (Option.some.inj h).symm⟩)

/-- The five ways in which a `dequeue` call returns. -/
theorem dequeue_cases (p : Params) (hNE : 1 ≤ p.NE) (fuel : Nat) (q : Queue T) (t : T)
    (r : Bool × T × Queue T) (h : dequeue p fuel q t = some r) :
    ((q.blocks q.tail).cons.field.index < p.NE ∧
      (q.blocks q.tail).prod.field.index = (q.blocks q.tail).cons.field.index ∧
      r = (false, t, q)) ∨
    ((q.blocks q.tail).cons.field.index < p.NE ∧
      (q.blocks q.tail).prod.field.index ≠ (q.blocks q.tail).cons.field.index ∧
      r = (true, (q.blocks q.tail).data (q.blocks q.tail).cons.field.index, popQ q)) ∨
    (¬ (q.blocks q.tail).cons.field.index < p.NE ∧ cons_ok q = true ∧
      ((cadvQ p q).blocks (cadvQ p q).tail).prod.field.index = 0 ∧
      r = (false, t, cadvQ p q)) ∨
    (¬ (q.blocks q.tail).cons.field.index < p.NE ∧ cons_ok q = true ∧
      ((cadvQ p q).blocks (cadvQ p q).tail).prod.field.index ≠ 0 ∧
      r = (true, ((cadvQ p q).blocks (cadvQ p q).tail).data 0, popQ (cadvQ p q))) ∨
    (¬ (q.blocks q.tail).cons.field.index < p.NE ∧ cons_ok q = false ∧ r = (false, t, q)) := by
  rcases fuel with _ | fuel
  · simp [dequeue] at h
  · rw [dequeue_succ] at h
    by_cases h1 : (q.blocks q.tail).cons.field.index < p.NE
    · rw [if_pos h1] at h
      by_cases h2 : (q.blocks q.tail).prod.field.index = (q.blocks q.tail).cons.field.index
      · rw [if_pos h2] at h
        exact Or.inl ⟨h1, h2, (Option.some.inj h).symm⟩
      · rw [if_neg h2] at h
        exact Or.inr (Or.inl ⟨h1, h2, (Option.some.inj h).symm⟩)
    · rw [if_neg h1] at h
      cases h2 : cons_ok q
      · rw [h2] at h
        exact Or.inr (Or.inr (Or.inr (Or.inr ⟨h1, rfl, (Option.some.inj h).symm⟩)))
      · rw [h2, if_pos rfl] at h
        rcases fuel with _ | fuel
        · simp [dequeue] at h
        · rw [dequeue_succ, cadvQ_tail_index, if_pos (by omega)] at h
          by_cases h3 : ((cadvQ p q).blocks (cadvQ p q).tail).prod.field.index = 0
          · rw [if_pos h3] at h
            exact Or.inr (Or.inr (Or.inl ⟨h1, rfl, h3, (Option.some.inj h).symm⟩))
          · rw [if_neg h3] at h
            exact Or.inr (Or.inr (Or.inr (Or.inl ⟨h1, rfl, h3, (Option.some.inj h).symm⟩)))

/-- With `NE ≥ 1` and two units of fuel every `enqueue` call returns. -/
theorem enqueue_isSome (p : Params) (hNE : 1 ≤ p.NE) (fuel : Nat) (hf : 2 ≤ fuel)
    (q : Queue T) (x : T) : (enqueue p fuel q x).isSome = true := by
  obtain ⟨k, rfl⟩ : ∃ k, fuel = k + 2 := ⟨fuel - 2, by omega⟩
  rw [enqueue_eq p hNE]
  split_ifs <;> rfl

/-- With `NE ≥ 1` and two units of fuel every `dequeue` call returns. -/
theorem dequeue_isSome (p : Params) (hNE : 1 ≤ p.NE) (fuel : Nat) (hf : 2 ≤ fuel)
    (q : Queue T) (t : T) : (dequeue p fuel q t).isSome = true := by
  obtain ⟨k, rfl⟩ : ∃ k, fuel = k + 2 := ⟨fuel - 2, by omega⟩
  rw [dequeue_eq p hNE]
  split_ifs <;> rfl

/-! ## The invariant -/

theorem rep_fresh (p : Params) (hidx : p.NE < 2 ^ INDEX_BITS) (hw1 : 1 ≤ p.VERSION_BITS)
    (mem : Nat → Block T) : Rep p ⟨0, 1, 0, 0, 1, 0⟩ (Queue.Queue p mem) := by
  have h1 : 1 % 2 ^ p.VERSION_BITS = 1 :=
    Nat.mod_eq_of_lt (Nat.one_lt_two_pow (by omega))
  have h2 : p.NE % 2 ^ INDEX_BITS = p.NE := Nat.mod_eq_of_lt hidx
  refine ⟨rfl, rfl, ?_, ?_⟩
  · intro b hb
    rw [ctor_blocks p mem b hb]
    simp only [Block.init, Cursor.init, Field.make, View.pf, h1, h2]
    rcases b with _ | b
    · simp
    · simp
  · intro b hb
    rw [ctor_blocks p mem b hb]
    simp only [Block.init, Cursor.init, Field.make, View.cf, h1, h2]
    rcases b with _ | b
    · simp
    · simp

theorem good_fresh (p : Params) (hB : 1 ≤ p.B) (hw1 : 1 ≤ p.VERSION_BITS) :
    View.Good p ⟨0, 1, 0, 0, 1, 0⟩ := by
  have : 1 < 2 ^ p.VERSION_BITS := Nat.one_lt_two_pow (by omega)
  constructor <;> first | (simp only; omega) | simp

theorem Inv.fresh (p : Params) (hp : p.Ok) (mem : Nat → Block T) :
    Inv p (Sys.fresh p mem) := by
  refine ⟨⟨0, 1, 0, 0, 1, 0⟩, rep_fresh p hp.2.2.2.1 hp.2.2.2.2.1 mem,
    good_fresh p hp.1 hp.2.2.2.2.1, ?_, ?_⟩
  · intro _; exact ⟨rfl, rfl⟩
  · rw [View.slots_same p _ rfl rfl]
    simp [Sys.fresh, segS]

/-- History after the store of `enqueue`: the new item is appended, nothing else changes. -/
theorem hist_push {p : Params} {v : View} {q : Queue T} (hr : Rep p v q) (hg : v.Good p)
    (x : T) : (v.push.slots p).map (rd (pushQ q x)) = (v.slots p).map (rd q) ++ [x] := by
  have hf := hr.head_field hg
  have hslot : (q.head, (q.blocks q.head).prod.field.index) = (v.head, v.hi) := by
    rw [hf, hr.head_eq]
  rw [View.slots_push p v hg, List.map_append]
  congr 1
  · apply List.map_congr_left
    intro y hy
    rw [rd_pushQ, hslot, if_neg]
    intro hyx
    exact View.slot_free p v hg (hyx ▸ hy)
  · simp only [List.map_cons, List.map_nil]
    rw [rd_pushQ, hslot, if_pos rfl]

theorem map_rd_padvQ (p : Params) (q : Queue T) (l : List (Nat × Nat)) :
    l.map (rd (padvQ p q)) = l.map (rd q) :=
  List.map_congr_left fun y _ => rd_padvQ p q y

theorem map_rd_cadvQ (p : Params) (q : Queue T) (l : List (Nat × Nat)) :
    l.map (rd (cadvQ p q)) = l.map (rd q) :=
  List.map_congr_left fun y _ => rd_cadvQ p q y

theorem map_rd_popQ (q : Queue T) (l : List (Nat × Nat)) :
    l.map (rd (popQ q)) = l.map (rd q) :=
  List.map_congr_left fun y _ => rd_popQ q y

/-- History before the cursor store of `dequeue`: the item read is the oldest one. -/
theorem hist_pop {p : Params} {v : View} {q : Queue T} (hr : Rep p v q) (hg : v.Good p)
    (hlt : v.tj < p.NE) (hne : (v.pf p v.tail).index ≠ v.tj) :
    (v.slots p).map (rd q)
      = (q.blocks q.tail).data (q.blocks q.tail).cons.field.index
        :: (v.pop.slots p).map (rd (popQ q)) := by
  rw [View.slots_pop p v hg hlt hne, List.map_cons, map_rd_popQ, hr.tail_field hg, hr.tail_eq]
  rfl

theorem View.cadv_index_ne (p : Params) (v : View) (hg : v.Good p) (hNE : 1 ≤ p.NE)
    (hz : v.hi = 0 → v.Same) (hns : ¬ v.Same) :
    ((v.cadv p).pf p (v.cadv p).tail).index ≠ 0 := by
  obtain ⟨h1, h2, h3, h4, h5, h6, h7, h8⟩ := hg
  obtain ⟨head, hv, hi, tail, tv, tj⟩ := v
  simp only [View.pf, View.cadv, View.Same, nextB, bump] at *
  split_ifs <;> simp only <;> omega

/-! ## The calls on views -/

theorem Rep.wraps_iff {p : Params} {v : View} {q : Queue T} (hr : Rep p v q)
    (hg : v.Good p) (hw : p.VERSION_BITS ≤ 44) : Wraps p q ↔ v.wraps p := by
  unfold Wraps View.wraps
  rw [hr.head_field hg, hr.prod_nvsn_eq hg hw, prod_advance_eq]
  have h := hr.prod_ok_iff hg hw
  cases h2 : prod_ok p q
  · have : v.Blocked p := by
      by_contra hc
      rw [h.2 hc] at h2
      exact Bool.noConfusion h2
    simp [this]
  · have : ¬ v.Blocked p := h.1 h2
    simp [this]

/-- A returning `enqueue` call that does not make a version wrap does what `View.enq`
says, and appends its argument to the stored items exactly when it returns `true`. -/
theorem enqueue_refines {p : Params} {v : View} {q : Queue T} (hp : p.Ok) (hr : Rep p v q)
    (hg : v.Good p) (hz : v.hi = 0 → v.Same) (hnw : ¬ v.wraps p) (fuel : Nat) (x : T)
    (r : Bool × Queue T) (h : enqueue p fuel q x = some r) :
    r.1 = (v.enq p).1 ∧ Rep p (v.enq p).2 r.2 ∧ (v.enq p).2.Good p ∧
      ((v.enq p).2.hi = 0 → (v.enq p).2.Same) ∧
      ((v.enq p).2.slots p).map (rd r.2)
        = (v.slots p).map (rd q) ++ (if r.1 = true then [x] else []) := by
  obtain ⟨hB, hdiv, hNE, hidx, hw1, hw⟩ := hp
  have hf := hr.head_field hg
  rcases enqueue_cases p hNE fuel q x r h with ⟨h1, rfl⟩ | ⟨h1, h2, rfl⟩ | ⟨h1, h2, rfl⟩
  · rw [hf] at h1
    have he : v.enq p = (true, v.push) := by simp only [View.enq]; rw [if_pos h1]
    rw [he]
    refine ⟨rfl, hr.push hg h1 hidx x, v.good_push p hg h1, ?_, ?_⟩
    · intro h0; simp [View.push] at h0
    · simp only [if_true]
      exact hist_push hr hg x
  · rw [hf] at h1
    have hfull : v.hi = p.NE := by have := hg.hi_le; simp only at h1; omega
    have hnb : ¬ v.Blocked p := (hr.prod_ok_iff hg hw).1 h2
    have he : v.enq p = (true, (v.padv p).push) := by
      simp only [View.enq]; rw [if_neg h1, if_neg hnb]
    have hver : v.hv + bump p v.head < 2 ^ p.VERSION_BITS := by
      by_contra hc
      exact hnw ⟨h1, hnb, by omega⟩
    have hr1 := hr.padv hg hfull hw hver
    have hg1 := v.good_padv p hg hfull hnb hver
    have h01 : (v.padv p).hi < p.NE := by simp only [View.padv]; omega
    rw [he]
    refine ⟨rfl, hr1.push hg1 h01 hidx x, (v.padv p).good_push p hg1 h01, ?_, ?_⟩
    · intro h0; simp [View.push] at h0
    · simp only [if_true]
      rw [hist_push hr1 hg1, View.slots_padv p v hg hfull hnb, map_rd_padvQ]
  · rw [hf] at h1
    have hb : v.Blocked p := by
      by_contra hnb
      rw [(hr.prod_ok_iff hg hw).2 hnb] at h2
      exact Bool.noConfusion h2
    have he : v.enq p = (false, v) := by
      simp only [View.enq]; rw [if_neg h1, if_pos hb]
    rw [he]
    exact ⟨rfl, hr, hg, hz, by simp⟩

/-- A returning `dequeue` call does what `View.deq` says; when it returns `true` the
value handed out is the oldest stored item, when it returns `false` the caller's variable
and the queue are untouched. -/
theorem dequeue_refines {p : Params} {v : View} {q : Queue T} (hp : p.Ok) (hr : Rep p v q)
    (hg : v.Good p) (hz : v.hi = 0 → v.Same) (fuel : Nat) (t : T)
    (r : Bool × T × Queue T) (h : dequeue p fuel q t = some r) :
    r.1 = (v.deq p).1 ∧ Rep p (v.deq p).2 r.2.2 ∧ (v.deq p).2.Good p ∧
      ((v.deq p).2.hi = 0 → (v.deq p).2.Same) ∧
      (v.slots p).map (rd q)
        = (if r.1 = true then [r.2.1] else []) ++ ((v.deq p).2.slots p).map (rd r.2.2) ∧
      (r.1 = false → v.slots p = [] ∧ r.2.1 = t ∧ r.2.2 = q) := by
  obtain ⟨hB, hdiv, hNE, hidx, hw1, hw⟩ := hp
  have hf := hr.tail_field hg
  have hpf := hr.tail_prod hg
  rcases dequeue_cases p hNE fuel q t r h with
    ⟨h1, h2, rfl⟩ | ⟨h1, h2, rfl⟩ | ⟨h1, h2, h3, rfl⟩ | ⟨h1, h2, h3, rfl⟩ | ⟨h1, h2, rfl⟩
  · rw [hf] at h1
    rw [hpf, hf] at h2
    have he : v.deq p = (false, v) := by
      simp only [View.deq]; rw [if_pos h1, if_pos h2]
    rw [he]
    exact ⟨rfl, hr, hg, hz, by simp, fun _ => ⟨View.slots_nil_fast p v hg h1 h2, rfl, rfl⟩⟩
  · rw [hf] at h1
    rw [hpf, hf] at h2
    have he : v.deq p = (true, v.pop) := by
      simp only [View.deq]; rw [if_pos h1, if_neg h2]
    rw [he]
    refine ⟨rfl, hr.pop hg h1 hidx, v.good_pop p hg h1 h2, hz, ?_, fun hc => ?_⟩
    · simp only [if_true]
      exact hist_pop hr hg h1 h2
    · exact absurd hc (by simp)
  · exfalso
    have hns : ¬ v.Same := (hr.cons_ok_iff hg hw).1 h2
    rw [hf] at h1
    have hfull : v.tj = p.NE := by have := hg.tj_le; simp only at h1; omega
    have hr1 := hr.cadv hg hfull hw hns
    have hg1 := v.good_cadv p hg hfull hns
    rw [hr1.tail_prod hg1] at h3
    exact View.cadv_index_ne p v hg hNE hz hns h3
  · have hns : ¬ v.Same := (hr.cons_ok_iff hg hw).1 h2
    rw [hf] at h1
    have hfull : v.tj = p.NE := by have := hg.tj_le; simp only at h1; omega
    have hr1 := hr.cadv hg hfull hw hns
    have hg1 := v.good_cadv p hg hfull hns
    rw [hr1.tail_prod hg1] at h3
    have h01 : (v.cadv p).tj < p.NE := by simp only [View.cadv]; omega
    have h3' : ((v.cadv p).pf p (v.cadv p).tail).index ≠ (v.cadv p).tj := h3
    have he : v.deq p = (true, (v.cadv p).pop) := by
      simp only [View.deq]; rw [if_neg h1, if_neg hns]
    rw [he]
    refine ⟨rfl, hr1.pop hg1 h01 hidx, (v.cadv p).good_pop p hg1 h01 h3', ?_, ?_,
      fun hc => ?_⟩
    · intro h0
      exact absurd (hz h0) hns
    · simp only [if_true]
      have e := hist_pop hr1 hg1 h01 h3'
      rw [View.slots_cadv p v hg hfull hns, map_rd_cadvQ, cadvQ_tail_index] at e
      exact e
    · exact absurd hc (by simp)
  · rw [hf] at h1
    have hs : v.Same := by
      by_contra hns
      rw [(hr.cons_ok_iff hg hw).2 hns] at h2
      exact Bool.noConfusion h2
    have hfull : v.tj = p.NE := by have := hg.tj_le; simp only at h1; omega
    have he : v.deq p = (false, v) := by
      simp only [View.deq]; rw [if_neg h1, if_pos hs]
    rw [he]
    exact ⟨rfl, hr, hg, hz, by simp, fun _ => ⟨View.slots_nil_slow p v hg hfull hs, rfl, rfl⟩⟩

/-! ## Reachable states satisfy the invariant -/

/-- An `enqueue` call that does not make a version wrap keeps the invariant. -/
theorem Inv.enq (p : Params) (hp : p.Ok) (s s' : Sys T) (fuel : Nat) (x : T)
    (hinv : Inv p s) (hnw : ¬ Wraps p s.q) (h : Sys.enq p fuel s x = some s') : Inv p s' := by
  obtain ⟨v, hr, hg, hz, hacc⟩ := hinv
  unfold Sys.enq at h
  cases he : enqueue p fuel s.q x with
  | none => rw [he] at h; simp at h
  | some r =>
    rw [he] at h
    simp only [Option.map_some', Option.some.injEq] at h
    subst h
    have hnw' : ¬ v.wraps p := fun hc => hnw ((hr.wraps_iff hg hp.2.2.2.2.2).2 hc)
    obtain ⟨-, hr', hg', hz', hh⟩ := enqueue_refines hp hr hg hz hnw' fuel x r he
    refine ⟨(v.enq p).2, hr', hg', hz', ?_⟩
    simp only
    rw [hh, hacc]
    cases r.1 <;> simp

/-- A `dequeue` call keeps the invariant. -/
theorem Inv.deq (p : Params) (hp : p.Ok) (s s' : Sys T) (fuel : Nat) (t : T)
    (hinv : Inv p s) (h : Sys.deq p fuel s t = some s') : Inv p s' := by
  obtain ⟨v, hr, hg, hz, hacc⟩ := hinv
  unfold Sys.deq at h
  cases he : dequeue p fuel s.q t with
  | none => rw [he] at h; simp at h
  | some r =>
    rw [he] at h
    simp only [Option.map_some', Option.some.injEq] at h
    subst h
    obtain ⟨-, hr', hg', hz', hh, -⟩ := dequeue_refines hp hr hg hz fuel t r he
    refine ⟨(v.deq p).2, hr', hg', hz', ?_⟩
    simp only
    rw [hacc, hh]
    cases r.1 <;> simp

/-- Every reachable state satisfies the invariant. -/
theorem Reach.inv {p : Params} {s : Sys T} (h : Reach p s) (hp : p.Ok) : Inv p s := by
  induction h with
  | fresh mem => exact Inv.fresh p hp mem
  | enq s s' fuel x _ hnw hstep ih => exact Inv.enq p hp s s' fuel x ih hnw hstep
  | deq s s' fuel t _ hstep ih => exact Inv.deq p hp s s' fuel t ih hstep

/-! ## Consequences of the invariant -/

theorem Params.Ok.cap {p : Params} (hp : p.Ok) : p.B * p.NE = p.N :=
  Nat.mul_div_cancel' (Nat.dvd_of_mod_eq_zero hp.2.1)

theorem Inv.prefix_accepted {p : Params} {s : Sys T} (h : Inv p s) :
    s.delivered <+: s.accepted := by
  obtain ⟨v, -, -, -, hacc⟩ := h
  rw [hacc]
  exact List.prefix_append _ _

theorem Inv.count {p : Params} {s : Sys T} (h : Inv p s) :
    ∃ v : View, Rep p v s.q ∧ v.Good p ∧ (v.hi = 0 → v.Same) ∧
      s.accepted.length = s.delivered.length + (v.slots p).length := by
  obtain ⟨v, hr, hg, hz, hacc⟩ := h
  refine ⟨v, hr, hg, hz, ?_⟩
  rw [hacc, List.length_append, List.length_map]

/-- In a state described by a view, `dequeue` returns `true` exactly when a slot is in
use; when it returns `false` nothing has changed. -/
theorem dequeue_view {p : Params} {v : View} {q : Queue T} (hp : p.Ok) (hr : Rep p v q)
    (hg : v.Good p) (hz : v.hi = 0 → v.Same) (fuel : Nat) (t : T) (r : Bool × T × Queue T)
    (h : dequeue p fuel q t = some r) :
    (r.1 = false ∧ v.slots p = [] ∧ r.2.1 = t ∧ r.2.2 = q) ∨
      (r.1 = true ∧ 0 < (v.slots p).length) := by
  obtain ⟨-, -, -, -, hh, hfalse⟩ := dequeue_refines hp hr hg hz fuel t r h
  cases h1 : r.1
  · exact Or.inl ⟨rfl, hfalse h1⟩
  · right
    rw [h1] at hh
    have := congrArg List.length hh
    simp only [List.length_map, if_true, List.length_append, List.length_singleton] at this
    exact ⟨rfl, by omega⟩

/-- In a state described by a view, `enqueue` returns `false` exactly when the head block
is full and the producer is blocked; then nothing has changed. -/
theorem enqueue_view {p : Params} {v : View} {q : Queue T} (hp : p.Ok) (hr : Rep p v q)
    (hg : v.Good p) (fuel : Nat) (x : T) (r : Bool × Queue T)
    (h : enqueue p fuel q x = some r) :
    (r.1 = false ∧ v.hi = p.NE ∧ v.Blocked p ∧ r.2 = q) ∨
      (r.1 = true ∧ ¬ (v.hi = p.NE ∧ v.Blocked p)) := by
  obtain ⟨hB, hdiv, hNE, hidx, hw1, hw⟩ := hp
  have hf := hr.head_field hg
  rcases enqueue_cases p hNE fuel q x r h with ⟨h1, rfl⟩ | ⟨h1, h2, rfl⟩ | ⟨h1, h2, rfl⟩
  · rw [hf] at h1
    right
    refine ⟨rfl, fun hc => ?_⟩
    simp only at h1
    omega
  · right
    exact ⟨rfl, fun hc => (hr.prod_ok_iff hg hw).1 h2 hc.2⟩
  · left
    rw [hf] at h1
    have hfull : v.hi = p.NE := by have := hg.hi_le; simp only at h1; omega
    refine ⟨rfl, hfull, ?_, rfl⟩
    by_contra hnb
    rw [(hr.prod_ok_iff hg hw).2 hnb] at h2
    exact Bool.noConfusion h2

/-- A failing `enqueue` needs one pass only. -/
theorem enqueue_blocked {p : Params} {v : View} {q : Queue T} (hp : p.Ok) (hr : Rep p v q)
    (hg : v.Good p) (hfull : v.hi = p.NE) (hb : v.Blocked p) (fuel : Nat) (hfuel : 1 ≤ fuel)
    (x : T) : enqueue p fuel q x = some (false, q) := by
  obtain ⟨k, rfl⟩ : ∃ k, fuel = k + 1 := ⟨fuel - 1, by omega⟩
  have hf := hr.head_field hg
  have hok : prod_ok p q = false := by
    cases h2 : prod_ok p q
    · rfl
    · exact absurd hb ((hr.prod_ok_iff hg hp.2.2.2.2.2).1 h2)
  rw [enqueue_succ, hf, if_neg (by simp only; omega), hok]
  rfl

/-- The result of `calls` does not depend on the fuel once there are two units of it. -/
theorem calls_fuel (p : Params) (hNE : 1 ≤ p.NE) (fuel : Nat) (hf : 2 ≤ fuel)
    (cs : List (Call T)) (q : Queue T) : calls p fuel cs q = calls p 2 cs q := by
  induction cs generalizing q with
  | nil => rfl
  | cons c cs ih =>
    cases c with
    | enq x =>
      simp only [calls, enqueue_fuel p hNE fuel hf]
      cases enqueue p 2 q x with
      | none => rfl
      | some r => obtain ⟨ok, q'⟩ := r; simp only [ih]
    | deq t =>
      simp only [calls, dequeue_fuel p hNE fuel hf]
      cases dequeue p 2 q t with
      | none => rfl
      | some r => obtain ⟨ok, t', q'⟩ := r; simp only [ih]

/-! ## Call sequences on views -/

/-- The queue does what the view does: a run of calls on a queue represented by `v`
returns what the run on `v` returns. -/
theorem calls_refines (p : Params) (hp : p.Ok) (fuel : Nat) (hf : 2 ≤ fuel)
    (cs : List (Call T)) :
    ∀ (v : View) (q : Queue T) (rs : List (Ret T)) (v' : View) (l' : List T),
      Rep p v q → v.Good p → (v.hi = 0 → v.Same) →
      View.calls p cs v ((v.slots p).map (rd q)) = some (rs, v', l') →
      ∃ q', calls p fuel cs q = some (rs, q') ∧ Rep p v' q' ∧ v'.Good p ∧
        (v'.hi = 0 → v'.Same) ∧ l' = (v'.slots p).map (rd q') := by
  induction cs with
  | nil =>
    intro v q rs v' l' hr hg hz h
    simp only [View.calls, Option.some.injEq, Prod.mk.injEq] at h
    obtain ⟨rfl, rfl, rfl⟩ := h
    exact ⟨q, rfl, hr, hg, hz, rfl⟩
  | cons c cs ih =>
    intro v q rs v' l' hr hg hz h
    cases c with
    | enq x =>
      simp only [View.calls] at h
      by_cases hwr : v.wraps p
      · rw [if_pos hwr] at h; exact absurd h (by simp)
      · rw [if_neg hwr] at h
        have hsome := enqueue_isSome p hp.2.2.1 fuel hf q x
        cases he : enqueue p fuel q x with
        | none => rw [he] at hsome; exact Bool.noConfusion hsome
        | some r =>
          obtain ⟨h1, hr1, hg1, hz1, hh⟩ := enqueue_refines hp hr hg hz hwr fuel x r he
          have hl : (if (v.enq p).1 = true then (v.slots p).map (rd q) ++ [x]
              else (v.slots p).map (rd q)) = ((v.enq p).2.slots p).map (rd r.2) := by
            rw [hh, ← h1]
            cases r.1 <;> simp
          rw [hl] at h
          cases hc : View.calls p cs (v.enq p).2 (((v.enq p).2.slots p).map (rd r.2)) with
          | none => rw [hc] at h; exact absurd h (by simp)
          | some res =>
            obtain ⟨rs1, v1, l1⟩ := res
            rw [hc] at h
            simp only [Option.some.injEq, Prod.mk.injEq] at h
            obtain ⟨rfl, rfl, rfl⟩ := h
            obtain ⟨q', hq', hrest⟩ := ih _ _ _ _ _ hr1 hg1 hz1 hc
            refine ⟨q', ?_, hrest⟩
            obtain ⟨ok, q1⟩ := r
            simp only at h1 hq'
            simp only [calls, he, hq', h1]
    | deq t =>
      simp only [View.calls] at h
      have hsome := dequeue_isSome p hp.2.2.1 fuel hf q t
      cases he : dequeue p fuel q t with
      | none => rw [he] at hsome; exact Bool.noConfusion hsome
      | some r =>
        obtain ⟨h1, hr1, hg1, hz1, hh, hfalse⟩ := dequeue_refines hp hr hg hz fuel t r he
        obtain ⟨ok, t1, q1⟩ := r
        simp only at h1 hr1 hh hfalse
        cases hd : (v.deq p).1
        · rw [hd] at h h1
          subst h1
          simp only [Bool.false_eq_true, if_false, List.nil_append] at h hh
          obtain ⟨-, rfl, rfl⟩ := hfalse rfl
          rw [hh] at h
          cases hc : View.calls p cs (v.deq p).2 (((v.deq p).2.slots p).map (rd q1)) with
          | none => rw [hc] at h; exact absurd h (by simp)
          | some res =>
            obtain ⟨rs1, v1, l1⟩ := res
            rw [hc] at h
            simp only [Option.some.injEq, Prod.mk.injEq] at h
            obtain ⟨rfl, rfl, rfl⟩ := h
            obtain ⟨q', hq', hrest⟩ := ih _ _ _ _ _ hr1 hg1 hz1 hc
            refine ⟨q', ?_, hrest⟩
            simp only [calls, he, hq']
        · rw [hd] at h h1
          subst h1
          simp only [if_true, List.singleton_append] at h hh
          rw [hh] at h
          simp only at h
          cases hc : View.calls p cs (v.deq p).2 (((v.deq p).2.slots p).map (rd q1)) with
          | none => rw [hc] at h; exact absurd h (by simp)
          | some res =>
            obtain ⟨rs1, v1, l1⟩ := res
            rw [hc] at h
            simp only [Option.some.injEq, Prod.mk.injEq] at h
            obtain ⟨rfl, rfl, rfl⟩ := h
            obtain ⟨q', hq', hrest⟩ := ih _ _ _ _ _ hr1 hg1 hz1 hc
            refine ⟨q', ?_, hrest⟩
            simp only [calls, he, hq']

/-! ## Concrete states -/

theorem Reach.enq_getD {p : Params} {s : Sys T} (h : Reach p s) (fuel : Nat) (x : T)
    (hw : ¬ Wraps p s.q) (hs : (Sys.enq p fuel s x).isSome = true) :
    Reach p ((Sys.enq p fuel s x).getD s) := by
  cases he : Sys.enq p fuel s x with
  | none => rw [he] at hs; exact Bool.noConfusion hs
  | some s' => exact Reach.enq s _ fuel x h hw he

theorem Reach.deq_getD {p : Params} {s : Sys T} (h : Reach p s) (fuel : Nat) (t : T)
    (hs : (Sys.deq p fuel s t).isSome = true) :
    Reach p ((Sys.deq p fuel s t).getD s) := by
  cases he : Sys.deq p fuel s t with
  | none => rw [he] at hs; exact Bool.noConfusion hs
  | some s' => exact Reach.deq s _ fuel t h he

theorem tiny_ok : tiny.Ok := by decide

theorem reach_tiny0 : Reach tiny tiny0 := Reach.fresh zeroMem

theorem reach_tiny1 : Reach tiny tiny1 :=
  reach_tiny0.enq_getD 2 10 (by decide) (by decide)

theorem reach_tiny2 : Reach tiny tiny2 :=
  reach_tiny1.enq_getD 2 11 (by decide) (by decide)

theorem reach_tiny3 : Reach tiny tiny3 :=
  reach_tiny2.deq_getD 2 0 (by decide)

/-! ## The properties of the queue -/

/-- C1 (FIFO order at call granularity).  In every state reached from a fresh queue by
complete `enqueue` and `dequeue` calls without a version wrap, the list of delivered
values is a prefix of the list of accepted values: the `k`-th successful dequeue returned
the argument of the `k`-th successful enqueue. -/
theorem fifo_order (p : Params) (hp : p.Ok) (s : Sys T) (h : Reach p s) :
    s.delivered <+: s.accepted ∧
      ∀ k, k < s.delivered.length → s.delivered[k]? = s.accepted[k]? := by
  obtain ⟨l, hl⟩ := (h.inv hp).prefix_accepted
  refine ⟨⟨l, hl⟩, fun k hk => ?_⟩
  rw [← hl, List.getElem?_append_left hk]

/-- The FIFO property on the tiny queue after two enqueues and one dequeue. -/
theorem fifo_order_witness :
    tiny.Ok ∧ Reach tiny tiny3 ∧ (tiny3.delivered <+: tiny3.accepted ∧
      ∀ k, k < tiny3.delivered.length → tiny3.delivered[k]? = tiny3.accepted[k]?) :=
  ⟨tiny_ok, reach_tiny3, fifo_order tiny tiny_ok tiny3 reach_tiny3⟩

/-- C2 (dequeue returns false exactly when the queue is empty).  In every reachable
state a `dequeue` call returns, and it returns `true` if and only if more enqueues than
dequeues have succeeded so far. -/
theorem dequeue_true_iff_nonempty (p : Params) (hp : p.Ok) (s : Sys T) (h : Reach p s)
    (fuel : Nat) (hf : 2 ≤ fuel) (t : T) :
    ∃ t' q', dequeue p fuel s.q t
      = some (decide (s.delivered.length < s.accepted.length), t', q') := by
  obtain ⟨v, hr, hg, hz, hlen⟩ := (h.inv hp).count
  have hsome := dequeue_isSome p hp.2.2.1 fuel hf s.q t
  cases he : dequeue p fuel s.q t with
  | none => rw [he] at hsome; exact Bool.noConfusion hsome
  | some r =>
    obtain ⟨ok, t', q'⟩ := r
    refine ⟨t', q', ?_⟩
    rcases dequeue_view hp hr hg hz fuel t _ he with ⟨h1, h2, -, -⟩ | ⟨h1, h2⟩
    · simp only at h1
      rw [h2] at hlen
      have : decide (s.delivered.length < s.accepted.length) = false :=
        decide_eq_false (by simp only [List.length_nil] at hlen; omega)
      rw [this, h1]
    · simp only at h1
      have : decide (s.delivered.length < s.accepted.length) = true :=
        decide_eq_true (by omega)
      rw [this, h1]

/-- On the tiny queue with one item in flight, `dequeue` returns the flag of non-emptiness. -/
theorem dequeue_true_iff_nonempty_witness :
    tiny.Ok ∧ Reach tiny tiny3 ∧ 2 ≤ 2 ∧ ∃ t' q', dequeue tiny 2 tiny3.q 0
      = some (decide (tiny3.delivered.length < tiny3.accepted.length), t', q') :=
  ⟨tiny_ok, reach_tiny3, Nat.le_refl 2,
    dequeue_true_iff_nonempty tiny tiny_ok tiny3 reach_tiny3 2 (Nat.le_refl 2) 0⟩

/-- C3 (bounded buffering).  In every reachable state the number of successful enqueues
minus the number of successful dequeues is at most the capacity `N`. -/
theorem bounded_buffering (p : Params) (hp : p.Ok) (s : Sys T) (h : Reach p s) :
    s.delivered.length ≤ s.accepted.length ∧
      s.accepted.length - s.delivered.length ≤ p.N := by
  obtain ⟨v, hr, hg, hz, hlen⟩ := (h.inv hp).count
  have h1 := View.length_le p v hg
  rw [hp.cap] at h1
  omega

/-- The bound on the full tiny queue. -/
theorem bounded_buffering_witness :
    tiny.Ok ∧ Reach tiny tiny2 ∧ (tiny2.delivered.length ≤ tiny2.accepted.length ∧
      tiny2.accepted.length - tiny2.delivered.length ≤ tiny.N) :=
  ⟨tiny_ok, reach_tiny2, bounded_buffering tiny tiny_ok tiny2 reach_tiny2⟩

/-- C4 (backpressure at the bound).  In every reachable state in which `N` items are
enqueued but not dequeued, `enqueue` returns `false` (and leaves the queue as it is). -/
theorem backpressure_at_bound (p : Params) (hp : p.Ok) (s : Sys T) (h : Reach p s)
    (hfull : s.accepted.length - s.delivered.length = p.N) (fuel : Nat) (hf : 1 ≤ fuel)
    (x : T) : enqueue p fuel s.q x = some (false, s.q) := by
  obtain ⟨v, hr, hg, hz, hlen⟩ := (h.inv hp).count
  have h1 : (v.slots p).length = p.B * p.NE := by rw [hp.cap]; omega
  obtain ⟨h2, h3⟩ := View.full_blocked p v hg hp.2.2.1 h1
  exact enqueue_blocked hp hr hg h2 h3 fuel hf x

/-- On the full tiny queue `enqueue(12)` returns `false`. -/
theorem backpressure_at_bound_witness :
    tiny.Ok ∧ Reach tiny tiny2 ∧ tiny2.accepted.length - tiny2.delivered.length = tiny.N ∧
      1 ≤ 2 ∧ enqueue tiny 2 tiny2.q 12 = some (false, tiny2.q) :=
  ⟨tiny_ok, reach_tiny2, by decide, by decide,
    backpressure_at_bound tiny tiny_ok tiny2 reach_tiny2 (by decide) 2 (by decide) 12⟩

/-- C5, as stated, fails: in `Queue<uint64_t, 2, 1>` after `enqueue(10); enqueue(11);
dequeue()` one item is in flight, which is less than `N = 2`, and `enqueue` returns
`false`. -/
theorem enqueue_fails_with_free_capacity :
    ¬ ∀ (p : Params) (s : Sys Nat), p.Ok → Reach p s →
      s.accepted.length - s.delivered.length < p.N →
      ∀ (fuel : Nat) (x : Nat), 2 ≤ fuel → ∃ q', enqueue p fuel s.q x = some (true, q') := by
  intro hall
  obtain ⟨q', hq'⟩ := hall tiny tiny3 tiny_ok reach_tiny3 (by decide) 2 12 (Nat.le_refl 2)
  have h1 : (enqueue tiny 2 tiny3.q 12).map Prod.fst = some false := by decide
  rw [hq'] at h1
  exact absurd h1 (by simp)

/-- C5, amended (no false "full" report at block granularity).  In every reachable state
in which at most `N - NE` items are enqueued but not dequeued, `enqueue` returns `true`. -/
theorem enqueue_accepts_with_free_block (p : Params) (hp : p.Ok) (s : Sys T)
    (h : Reach p s) (hroom : s.accepted.length - s.delivered.length + p.NE ≤ p.N)
    (fuel : Nat) (hf : 2 ≤ fuel) (x : T) :
    ∃ q', enqueue p fuel s.q x = some (true, q') := by
  obtain ⟨v, hr, hg, hz, hlen⟩ := (h.inv hp).count
  have hsome := enqueue_isSome p hp.2.2.1 fuel hf s.q x
  cases he : enqueue p fuel s.q x with
  | none => rw [he] at hsome; exact Bool.noConfusion hsome
  | some r =>
    obtain ⟨ok, q'⟩ := r
    rcases enqueue_view hp hr hg fuel x _ he with ⟨-, h2, h3, -⟩ | ⟨h1, -⟩
    · exfalso
      have h4 := View.blocked_length p v hg hp.2.2.1 h2 h3
      rw [hp.cap] at h4
      omega
    · simp only at h1
      exact ⟨q', by rw [h1]⟩

/-- On the fresh tiny queue `enqueue(10)` returns `true`. -/
theorem enqueue_accepts_with_free_block_witness :
    tiny.Ok ∧ Reach tiny tiny0 ∧
      tiny0.accepted.length - tiny0.delivered.length + tiny.NE ≤ tiny.N ∧ 2 ≤ 2 ∧
      ∃ q', enqueue tiny 2 tiny0.q 10 = some (true, q') :=
  ⟨tiny_ok, reach_tiny0, by decide, by decide,
    enqueue_accepts_with_free_block tiny tiny_ok tiny0 reach_tiny0 (by decide) 2
      (by decide) 10⟩

/-- C6 (a failed enqueue is atomic).  With `NE ≥ 1`, in every state of the queue (reachable
or not) an `enqueue` call returns, and when it returns `false` the whole queue (head,
tail, every cursor of every block and every data slot) is as before the call. -/
theorem failed_enqueue_unchanged (p : Params) (hNE : 1 ≤ p.NE) (q : Queue T) (x : T)
    (fuel : Nat) :
    (2 ≤ fuel → (enqueue p fuel q x).isSome = true) ∧
      ∀ q', enqueue p fuel q x = some (false, q') → q' = q := by
  refine ⟨fun hf => enqueue_isSome p hNE fuel hf q x, fun q' he => ?_⟩
  rcases enqueue_cases p hNE fuel q x _ he with ⟨_, h2⟩ | ⟨_, _, h2⟩ | ⟨_, _, h2⟩
  · exact absurd (congrArg Prod.fst h2) (by simp)
  · exact absurd (congrArg Prod.fst h2) (by simp)
  · exact congrArg Prod.snd h2

/-- On the full tiny queue `enqueue(12)` returns `false` and the queue is unchanged. -/
theorem failed_enqueue_unchanged_witness :
    1 ≤ tiny.NE ∧ enqueue tiny 2 tiny2.q 12 = some (false, tiny2.q) := by
  refine ⟨by decide, ?_⟩
  have h1 : (enqueue tiny 2 tiny2.q 12).map Prod.fst = some false := by decide
  cases he : enqueue tiny 2 tiny2.q 12 with
  | none => rw [he] at h1; simp at h1
  | some r =>
    obtain ⟨ok, q'⟩ := r
    rw [he] at h1
    simp only [Option.map_some', Option.some.injEq] at h1
    subst h1
    rw [(failed_enqueue_unchanged tiny (by decide) tiny2.q 12 2).2 q' he]

/-- C7 (a failed dequeue has no side effect).  In every reachable state a `dequeue` call
returns, and when it returns `false` the caller's variable and the whole queue (head,
tail, every cursor and every data slot) are as before the call. -/
theorem failed_dequeue_unchanged (p : Params) (hp : p.Ok) (s : Sys T) (h : Reach p s)
    (fuel : Nat) (t : T) :
    (2 ≤ fuel → (dequeue p fuel s.q t).isSome = true) ∧
      ∀ t' q', dequeue p fuel s.q t = some (false, t', q') → t' = t ∧ q' = s.q := by
  refine ⟨fun hf => dequeue_isSome p hp.2.2.1 fuel hf s.q t, fun t' q' he => ?_⟩
  obtain ⟨v, hr, hg, hz, -⟩ := h.inv hp
  rcases dequeue_view hp hr hg hz fuel t _ he with ⟨-, -, h3, h4⟩ | ⟨h1, -⟩
  · exact ⟨h3, h4⟩
  · exact absurd h1 (by simp)

/-- On the fresh tiny queue `dequeue` returns `false`; variable and queue are unchanged. -/
theorem failed_dequeue_unchanged_witness :
    tiny.Ok ∧ Reach tiny tiny0 ∧ dequeue tiny 2 tiny0.q 7 = some (false, 7, tiny0.q) := by
  refine ⟨tiny_ok, reach_tiny0, ?_⟩
  have h1 : (dequeue tiny 2 tiny0.q 7).map Prod.fst = some false := by decide
  cases he : dequeue tiny 2 tiny0.q 7 with
  | none => rw [he] at h1; simp at h1
  | some r =>
    obtain ⟨ok, t', q'⟩ := r
    rw [he] at h1
    simp only [Option.map_some', Option.some.injEq] at h1
    subst h1
    obtain ⟨h2, h3⟩ :=
      (failed_dequeue_unchanged tiny tiny_ok tiny0 reach_tiny0 2 7).2 t' q' he
    rw [h2, h3]

/-- The scenario on the view of a fresh queue. -/
theorem scenario_view (t : Nat) :
    ∃ v l, View.calls (Params.source 8 2) (scenario t) ⟨0, 1, 0, 0, 1, 0⟩ []
      = some (scenarioRets, v, l) :=
  ⟨_, _, rfl⟩

/-- C8 (concrete scenario for `Queue<T, 8, 2>`).  From a fresh queue, whatever the storage
held before construction: the enqueues of 0, ..., 7 return `true`, a ninth `enqueue(8)`
returns `false`, four dequeues return `true` with 0, 1, 2, 3, the next `enqueue(8)`
returns `true`, and five more dequeues return `true` with 4, 5, 6, 7, 8. -/
theorem scenario_8_2 (mem : Nat → Block Nat) (t : Nat) (fuel : Nat) (hf : 2 ≤ fuel) :
    (calls (Params.source 8 2) fuel (scenario t)
      (Queue.Queue (Params.source 8 2) mem)).map Prod.fst = some scenarioRets := by
  have hok : (Params.source 8 2).Ok := by decide
  obtain ⟨v, l, hv⟩ := scenario_view t
  have hr := rep_fresh (Params.source 8 2) hok.2.2.2.1 hok.2.2.2.2.1 mem
  have hg := good_fresh (Params.source 8 2) hok.1 hok.2.2.2.2.1
  have h0 : (View.slots (Params.source 8 2) ⟨0, 1, 0, 0, 1, 0⟩).map
      (rd (Queue.Queue (Params.source 8 2) mem)) = [] := rfl
  rw [← h0] at hv
  obtain ⟨q', hq', -⟩ := calls_refines (Params.source 8 2) hok fuel hf (scenario t) _ _ _ _ _
    hr hg (fun _ => ⟨rfl, rfl⟩) hv
  rw [hq']
  rfl

/-- The scenario with two units of fuel on zero-initialised storage. -/
theorem scenario_8_2_witness :
    2 ≤ 2 ∧ (calls (Params.source 8 2) 2 (scenario 99)
      (Queue.Queue (Params.source 8 2) zeroMem)).map Prod.fst = some scenarioRets :=
  ⟨Nat.le_refl 2, scenario_8_2 zeroMem 99 2 (Nat.le_refl 2)⟩

/-- C9 (a freshly constructed queue is empty).  For every `N` and `B` with `B ≥ 1` and
`N / B < 2 ^ 20` (`N / B = 0` included), the first `dequeue` on a newly constructed queue
returns `false`, and changes nothing. -/
theorem fresh_dequeue_false (p : Params) (hB : 1 ≤ p.B) (hidx : p.NE < 2 ^ INDEX_BITS)
    (hw1 : 1 ≤ p.VERSION_BITS) (hw : p.VERSION_BITS ≤ 44) (mem : Nat → Block T)
    (fuel : Nat) (hf : 1 ≤ fuel) (t : T) :
    dequeue p fuel (Queue.Queue p mem) t = some (false, t, Queue.Queue p mem) := by
  obtain ⟨k, rfl⟩ : ∃ k, fuel = k + 1 := ⟨fuel - 1, by omega⟩
  have hr := rep_fresh p hidx hw1 mem
  have hg := good_fresh p hB hw1
  rw [dequeue_succ, hr.tail_field hg, hr.tail_prod hg]
  by_cases h0 : 0 < p.NE
  · rw [if_pos h0, if_pos (by simp [View.pf])]
  · have hok : cons_ok (Queue.Queue p mem) = false := by
      cases h2 : cons_ok (Queue.Queue p mem)
      · rfl
      · exact absurd ⟨rfl, rfl⟩ ((hr.cons_ok_iff hg hw).1 h2)
    rw [if_neg h0, hok]
    rfl

/-- The first `dequeue` on a fresh `Queue<T, 0, 3>` (no entries at all) returns `false`. -/
theorem fresh_dequeue_false_witness :
    1 ≤ (Params.source 0 3).B ∧ (Params.source 0 3).NE < 2 ^ INDEX_BITS ∧
      1 ≤ (Params.source 0 3).VERSION_BITS ∧ (Params.source 0 3).VERSION_BITS ≤ 44 ∧ 1 ≤ 1 ∧
      dequeue (Params.source 0 3) 1 (Queue.Queue (Params.source 0 3) zeroMem) 7
        = some (false, 7, Queue.Queue (Params.source 0 3) zeroMem) :=
  ⟨by decide, by decide, by decide, by decide, by decide,
    fresh_dequeue_false (Params.source 0 3) (by decide) (by decide) (by decide) (by decide)
      zeroMem 1 (by decide) 7⟩

/-- C10 (initial ring state).  After construction, `head` and `tail` refer to block 0 and,
for every `i < B`, both cursors of block `i` have `next = (i + 1) mod B`; block 0 has both
cursors at (version 1, index 0) with `is_first = true`; every block `i > 0` has both
cursors at (version 0, index `NE`) with `is_first = false`. -/
theorem initial_ring_state (p : Params) (hidx : p.NE < 2 ^ INDEX_BITS)
    (hw1 : 1 ≤ p.VERSION_BITS) (mem : Nat → Block T) :
    (Queue.Queue p mem).head = 0 ∧ (Queue.Queue p mem).tail = 0 ∧
      ∀ i, i < p.B →
        ((Queue.Queue p mem).blocks i).prod.next = (i + 1) % p.B ∧
        ((Queue.Queue p mem).blocks i).cons.next = (i + 1) % p.B ∧
        (i = 0 →
          ((Queue.Queue p mem).blocks i).prod.field = ⟨1, 0⟩ ∧
          ((Queue.Queue p mem).blocks i).cons.field = ⟨1, 0⟩ ∧
          ((Queue.Queue p mem).blocks i).prod.is_first = true ∧
          ((Queue.Queue p mem).blocks i).cons.is_first = true) ∧
        (0 < i →
          ((Queue.Queue p mem).blocks i).prod.field = ⟨0, p.NE⟩ ∧
          ((Queue.Queue p mem).blocks i).cons.field = ⟨0, p.NE⟩ ∧
          ((Queue.Queue p mem).blocks i).prod.is_first = false ∧
          ((Queue.Queue p mem).blocks i).cons.is_first = false) := by
  have h1 : 1 % 2 ^ p.VERSION_BITS = 1 :=
    Nat.mod_eq_of_lt (Nat.one_lt_two_pow (by omega))
  have h2 : p.NE % 2 ^ INDEX_BITS = p.NE := Nat.mod_eq_of_lt hidx
  refine ⟨rfl, rfl, fun i hi => ?_⟩
  rw [ctor_blocks p mem i hi]
  simp only [Block.init, Cursor.init, Field.make, h1, h2]
  rcases i with _ | i
  · simp
  · simp

/-- Block 1 of a fresh `Queue<T, 8, 2>`: cursor at (0, 4), successor block 0. -/
theorem initial_ring_state_witness :
    (Params.source 8 2).NE < 2 ^ INDEX_BITS ∧ 1 ≤ (Params.source 8 2).VERSION_BITS ∧
      ((Queue.Queue (Params.source 8 2) zeroMem).blocks 1).prod.field = ⟨0, 4⟩ ∧
      ((Queue.Queue (Params.source 8 2) zeroMem).blocks 1).cons.next = 0 :=
  ⟨by decide, by decide,
    ((initial_ring_state (Params.source 8 2) (by decide) (by decide) zeroMem).2.2 1
      (by decide)).2.2.2 (by decide) |>.1,
    ((initial_ring_state (Params.source 8 2) (by decide) (by decide) zeroMem).2.2 1
      (by decide)).2.1⟩

/-! ## The view of a reachable queue -/

theorem Rep.viewOf_eq {p : Params} {v : View} {q : Queue T} (hr : Rep p v q)
    (hg : v.Good p) : viewOf q = v := by
  obtain ⟨head, hv, hi, tail, tv, tj⟩ := v
  have h1 := hr.head_field hg
  have h2 := hr.tail_field hg
  have h3 := hr.head_eq
  have h4 := hr.tail_eq
  simp only at h1 h2 h3 h4
  unfold viewOf
  rw [h1, h2, h3, h4]

theorem Rep.inUse_eq {p : Params} {v : View} {q : Queue T} (hr : Rep p v q)
    (hg : v.Good p) : inUse p q = v.slots p := by
  unfold inUse
  rw [hr.viewOf_eq hg]

/-- In a reachable state the cursors are described by the view read off the queue, and
the accepted items that have not been delivered are stored in the slots in use. -/
theorem Inv.stored {p : Params} {s : Sys T} (h : Inv p s) :
    Rep p (viewOf s.q) s.q ∧ (viewOf s.q).Good p ∧
      ((viewOf s.q).hi = 0 → (viewOf s.q).Same) ∧
      s.accepted = s.delivered ++ (inUse p s.q).map (rd s.q) := by
  obtain ⟨v, hr, hg, hz, hacc⟩ := h
  have hv := hr.viewOf_eq hg
  unfold inUse
  rw [hv]
  exact ⟨hr, hg, hz, hacc⟩

/-! ### The slots in use are pairwise different -/

theorem nodup_segS (b lo n : Nat) : (segS b lo n).Nodup := by
  induction n generalizing lo with
  | zero => simp [segS]
  | succ n ih =>
    rw [segS, List.nodup_cons]
    refine ⟨?_, ih (lo + 1)⟩
    rw [mem_segS]
    simp only
    omega

theorem nodup_spanS (NE a n : Nat) : (spanS NE a n).Nodup := by
  induction n generalizing a with
  | zero => simp [spanS]
  | succ n ih =>
    rw [spanS, List.nodup_append]
    refine ⟨nodup_segS a 0 NE, ih (a + 1), ?_⟩
    intro x hx hy
    rw [mem_segS] at hx
    rw [mem_spanS] at hy
    omega

theorem View.nodup_slots (p : Params) (v : View) (h : v.Good p) : (v.slots p).Nodup := by
  obtain ⟨h1, h2, h3, h4, h5, h6, h7, h8⟩ := h
  unfold View.slots
  split_ifs with e e2
  · exact nodup_segS _ _ _
  · rw [List.nodup_append, List.nodup_append]
    refine ⟨⟨nodup_segS _ _ _, nodup_spanS _ _ _, ?_⟩, nodup_segS _ _ _, ?_⟩
    · intro x hx hy
      rw [mem_segS] at hx
      rw [mem_spanS] at hy
      omega
    · intro x hx hy
      rw [List.mem_append, mem_segS, mem_spanS] at hx
      rw [mem_segS] at hy
      omega
  · rw [List.nodup_append, List.nodup_append, List.nodup_append]
    refine ⟨⟨⟨nodup_segS _ _ _, nodup_spanS _ _ _, ?_⟩, nodup_spanS _ _ _, ?_⟩,
      nodup_segS _ _ _, ?_⟩
    · intro x hx hy
      rw [mem_segS] at hx
      rw [mem_spanS] at hy
      omega
    · intro x hx hy
      rw [List.mem_append, mem_segS, mem_spanS] at hx
      rw [mem_spanS] at hy
      omega
    · intro x hx hy
      rw [List.mem_append, List.mem_append, mem_segS, mem_spanS, mem_spanS] at hx
      rw [mem_segS] at hy
      omega

/-! ## Field arithmetic -/

/-- C13 (field encoding).  For a version `v` that fits in `VERSION_BITS` bits (44 in the
source) and an index `i` that fits in 20 bits, `Field(v, i)` reads back as version `v`
and index `i`; `Field(v, i) + n` has version `v` and index `(i + n) mod 2 ^ 20`, which
is `i + n` when `i + n < 2 ^ 20`. -/
theorem field_lossless (p : Params) (v i n : Nat) (hv : v < 2 ^ p.VERSION_BITS)
    (hi : i < 2 ^ INDEX_BITS) :
    (Field.make p v i).version = v ∧ (Field.make p v i).index = i ∧
      ((Field.make p v i).add n).version = v ∧
      ((Field.make p v i).add n).index = (i + n) % 2 ^ INDEX_BITS ∧
      (i + n < 2 ^ INDEX_BITS → ((Field.make p v i).add n).index = i + n) := by
  simp only [Field.make, Field.add, Nat.mod_eq_of_lt hv, Nat.mod_eq_of_lt hi, true_and]
  exact fun h => Nat.mod_eq_of_lt h

/-- The field `(2 ^ 44 - 1, 2 ^ 20 - 1)` of the source, and its sum with 1. -/
theorem field_lossless_witness :
    2 ^ 44 - 1 < 2 ^ (Params.source 8 2).VERSION_BITS ∧ 2 ^ 20 - 1 < 2 ^ INDEX_BITS ∧
      (Field.make (Params.source 8 2) (2 ^ 44 - 1) (2 ^ 20 - 1)).version = 2 ^ 44 - 1 ∧
      ((Field.make (Params.source 8 2) (2 ^ 44 - 1) (2 ^ 20 - 1)).add 1).version
        = 2 ^ 44 - 1 ∧
      ((Field.make (Params.source 8 2) (2 ^ 44 - 1) (2 ^ 20 - 1)).add 1).index
        = (2 ^ 20 - 1 + 1) % 2 ^ INDEX_BITS :=
  ⟨by decide, by decide,
    (field_lossless (Params.source 8 2) (2 ^ 44 - 1) (2 ^ 20 - 1) 1 (by decide)
      (by decide)).1,
    (field_lossless (Params.source 8 2) (2 ^ 44 - 1) (2 ^ 20 - 1) 1 (by decide)
      (by decide)).2.2.1,
    (field_lossless (Params.source 8 2) (2 ^ 44 - 1) (2 ^ 20 - 1) 1 (by decide)
      (by decide)).2.2.2.1⟩

/-! ## Passes and advances of a call -/

theorem enqueue_cost_succ (p : Params) (fuel : Nat) (q : Queue T) :
    enqueue_cost p (fuel + 1) q =
      if (q.blocks q.head).prod.field.index < p.NE then some (1, 0)
      else if prod_ok p q then
        (enqueue_cost p fuel (padvQ p q)).map fun c => (c.1 + 1, c.2 + 1)
      else some (1, 1) := by
  rw [enqueue_cost]
  simp only [prod_advance_eq]
  by_cases h1 : (q.blocks q.head).prod.field.index < p.NE
  · simp [h1]
  · cases h2 : prod_ok p q <;> simp [h1]

theorem dequeue_cost_succ (p : Params) (fuel : Nat) (q : Queue T) :
    dequeue_cost p (fuel + 1) q =
      if (q.blocks q.tail).cons.field.index < p.NE then some (1, 0)
      else if cons_ok q then
        (dequeue_cost p fuel (cadvQ p q)).map fun c => (c.1 + 1, c.2 + 1)
      else some (1, 1) := by
  rw [dequeue_cost]
  simp only [cons_advance_eq]
  by_cases h1 : (q.blocks q.tail).cons.field.index < p.NE
  · simp [h1]
  · cases h2 : cons_ok q <;> simp [h1]

/-- With `NE ≥ 1` an `enqueue` call makes at most two passes and at most one advance. -/
theorem enqueue_cost_le (p : Params) (hNE : 1 ≤ p.NE) (fuel : Nat) (hf : 2 ≤ fuel)
    (q : Queue T) : ∃ c, enqueue_cost p fuel q = some c ∧ c.1 ≤ 2 ∧ c.2 ≤ 1 := by
  obtain ⟨k, rfl⟩ : ∃ k, fuel = k + 2 := ⟨fuel - 2, by omega⟩
  have h0 : enqueue_cost p (k + 1) (padvQ p q) = some (1, 0) := by
    rw [enqueue_cost_succ, padvQ_head_index, if_pos (by omega)]
  rw [enqueue_cost_succ, h0]
  split_ifs
  · exact ⟨(1, 0), rfl, by decide, by decide⟩
  · exact ⟨(2, 1), rfl, by decide, by decide⟩
  · exact ⟨(1, 1), rfl, by decide, by decide⟩

/-- With `NE ≥ 1` a `dequeue` call makes at most two passes and at most one advance. -/
theorem dequeue_cost_le (p : Params) (hNE : 1 ≤ p.NE) (fuel : Nat) (hf : 2 ≤ fuel)
    (q : Queue T) : ∃ c, dequeue_cost p fuel q = some c ∧ c.1 ≤ 2 ∧ c.2 ≤ 1 := by
  obtain ⟨k, rfl⟩ : ∃ k, fuel = k + 2 := ⟨fuel - 2, by omega⟩
  have h0 : dequeue_cost p (k + 1) (cadvQ p q) = some (1, 0) := by
    rw [dequeue_cost_succ, cadvQ_tail_index, if_pos (by omega)]
  rw [dequeue_cost_succ, h0]
  split_ifs
  · exact ⟨(1, 0), rfl, by decide, by decide⟩
  · exact ⟨(2, 1), rfl, by decide, by decide⟩
  · exact ⟨(1, 1), rfl, by decide, by decide⟩

/-- The cost functions run out of fuel exactly when the calls do. -/
theorem enqueue_cost_isSome (p : Params) (fuel : Nat) (q : Queue T) (x : T) :
    (enqueue_cost p fuel q).isSome = (enqueue p fuel q x).isSome := by
  induction fuel generalizing q with
  | zero => rfl
  | succ fuel ih =>
    rw [enqueue_cost_succ, enqueue_succ]
    split_ifs
    · rfl
    · rw [Option.isSome_map', ih]
    · rfl

theorem dequeue_cost_isSome (p : Params) (fuel : Nat) (q : Queue T) (t : T) :
    (dequeue_cost p fuel q).isSome = (dequeue p fuel q t).isSome := by
  induction fuel generalizing q with
  | zero => rfl
  | succ fuel ih =>
    rw [dequeue_cost_succ, dequeue_succ]
    split_ifs
    · rfl
    · rfl
    · rw [Option.isSome_map', ih]
    · rfl

/-- After a successful `prod_advance` one pass of `enqueue` stores the item in slot 0 of
the block entered and returns `true`. -/
theorem enqueue_after_advance (p : Params) (hNE : 1 ≤ p.NE) (q q' : Queue T) (x : T)
    (h : prod_advance p q = (true, q')) (k : Nat) :
    enqueue p (k + 1) q' x = some (true, pushQ q' x) ∧
      ((pushQ q' x).blocks q'.head).data 0 = x := by
  rw [prod_advance_eq] at h
  cases h2 : prod_ok p q
  · rw [h2] at h; simp at h
  · rw [h2, if_pos rfl] at h
    have hq : q' = padvQ p q := (congrArg Prod.snd h).symm
    subst hq
    have h0 := padvQ_head_index p q
    refine ⟨?_, ?_⟩
    · rw [enqueue_succ, h0, if_pos (by omega)]
    · simp only [pushQ, upd_same, h0]

/-! ## The block that the producer enters -/

/-- The consumer cursor of the block after the head block is never ahead of the version
that `prod_advance` asks for, and when the producer is not blocked it is exactly the
drained cursor of that version. -/
theorem View.reuse_drained (p : Params) (v : View) (hg : v.Good p) :
    ¬ ((v.cf p (nextB p v.head)).version > v.hv + bump p v.head - 1) ∧
      (¬ v.Blocked p → v.cf p (nextB p v.head) = ⟨v.hv + bump p v.head - 1, p.NE⟩) := by
  obtain ⟨h1, h2, h3, h4, h5, h6, h7, h8⟩ := hg
  by_cases hB : v.head + 1 < p.B
  · have hb : bump p v.head = 0 := by simp [bump, hB]
    have hn : nextB p v.head = v.head + 1 := by simp [nextB, hB]
    rw [hb, hn]
    unfold View.Blocked View.cf
    split_ifs <;> simp only [Field.mk.injEq, and_true] <;> omega
  · have hb : bump p v.head = 1 := by simp [bump, hB]
    have hn : nextB p v.head = 0 := by simp [nextB, hB]
    rw [hb, hn]
    unfold View.Blocked View.cf
    split_ifs <;> simp only [Field.mk.injEq, and_true] <;> omega

/-- In a state described by a view, the version asked for by `prod_advance` does not
underflow, the test `c.version > vsn` of `cons_ready` is false, and a successful
`prod_advance` has found the drained cursor `(nvsn - 1, NE)`. -/
theorem Rep.advance_drained {p : Params} {v : View} {q : Queue T} (hr : Rep p v q)
    (hg : v.Good p) (hw : p.VERSION_BITS ≤ 44) :
    1 ≤ (q.blocks q.head).prod.field.version ∧ 1 ≤ prod_nvsn q ∧
      (prod_nvsn q + (2 ^ 64 - 1)) % 2 ^ 64 = prod_nvsn q - 1 ∧
      ¬ ((q.blocks (q.blocks q.head).prod.next).cons.field.version > prod_nvsn q - 1) ∧
      (prod_ok p q = true →
        (q.blocks (q.blocks q.head).prod.next).cons.field = ⟨prod_nvsn q - 1, p.NE⟩) := by
  have hn := hr.pnext_eq hg
  unfold pnext at hn
  have hv := hr.prod_nvsn_eq hg hw
  have hc := hr.cons_eq _ (nextB_lt p _ hg.head_lt)
  have hf := hr.head_field hg
  have h1 := hg.hv_pos
  have h2 := hg.hv_lt
  have h3 := pow_bits p hw
  have h4 : bump p v.head ≤ 1 := by unfold bump; split_ifs <;> omega
  obtain ⟨h5, h6⟩ := View.reuse_drained p v hg
  rw [hn, hv, hc, hf]
  refine ⟨h1, by omega, by omega, h5, fun hok => h6 ((hr.prod_ok_iff hg hw).1 hok)⟩

/-! ## Cursor consistency on views -/

/-- When the head block is full and the producer is blocked, the block after the head
block has a slot in use. -/
theorem View.blocked_holds (p : Params) (v : View) (hg : v.Good p) (hNE : 1 ≤ p.NE)
    (hfull : v.hi = p.NE) (hb : v.Blocked p) : ∃ k, (nextB p v.head, k) ∈ v.slots p := by
  obtain ⟨h1, h2, h3, h4, h5, h6, h7, h8⟩ := hg
  unfold View.Blocked at hb
  by_cases e0 : v.tj < p.NE
  · refine ⟨v.tj, ?_⟩
    unfold View.slots nextB
    split_ifs <;> simp only [List.mem_append, mem_segS, mem_spanS] <;> omega
  · refine ⟨0, ?_⟩
    unfold View.slots nextB
    split_ifs <;> simp only [List.mem_append, mem_segS, mem_spanS] <;> omega

/-- Indices are at most `NE` and no consumer version is ahead of the producer version of
its block. -/
theorem View.cursor_le (p : Params) (v : View) (hg : v.Good p) (b : Nat) :
    (v.pf p b).index ≤ p.NE ∧ (v.cf p b).index ≤ p.NE ∧
      (v.cf p b).version ≤ (v.pf p b).version := by
  obtain ⟨h1, h2, h3, h4, h5, h6, h7, h8⟩ := hg
  unfold View.pf View.cf
  split_ifs <;> simp only <;> omega

/-- In the tail block, while the consumer index is below `NE`: the producer has the
version of the consumer, its index is not behind, and the two indices are equal exactly
when no slot of the block is in use. -/
theorem View.tail_consistent (p : Params) (v : View) (hg : v.Good p) (hlt : v.tj < p.NE) :
    (v.pf p v.tail).version = v.tv ∧ v.tj ≤ (v.pf p v.tail).index ∧
      ((v.pf p v.tail).index = v.tj ↔ ∀ k, (v.tail, k) ∉ v.slots p) := by
  obtain ⟨h1, h2, h3, h4, h5, h6, h7, h8⟩ := hg
  refine ⟨?_, ?_, ?_⟩
  · unfold View.pf
    split_ifs <;> simp only <;> omega
  · unfold View.pf
    split_ifs <;> simp only <;> omega
  · constructor
    · intro he k
      have hnil := View.slots_nil_fast p v ⟨h1, h2, h3, h4, h5, h6, h7, h8⟩ hlt he
      rw [hnil]
      exact List.not_mem_nil _
    · intro hno
      by_contra hne
      have hs := View.slots_pop p v ⟨h1, h2, h3, h4, h5, h6, h7, h8⟩ hlt hne
      apply hno v.tj
      rw [hs]
      exact List.mem_cons_self _ _

/-! ## Versions never decrease -/

theorem View.enq_cases (p : Params) (v : View) :
    (v.hi < p.NE ∧ v.enq p = (true, v.push)) ∨
      (¬ v.hi < p.NE ∧ v.Blocked p ∧ v.enq p = (false, v)) ∨
      (¬ v.hi < p.NE ∧ ¬ v.Blocked p ∧ v.enq p = (true, (v.padv p).push)) := by
  unfold View.enq
  by_cases h1 : v.hi < p.NE
  · exact Or.inl ⟨h1, by rw [if_pos h1]⟩
  · by_cases h2 : v.Blocked p
    · exact Or.inr (Or.inl ⟨h1, h2, by rw [if_neg h1, if_pos h2]⟩)
    · exact Or.inr (Or.inr ⟨h1, h2, by rw [if_neg h1, if_neg h2]⟩)

theorem View.deq_cases (p : Params) (v : View) :
    (v.tj < p.NE ∧ (v.pf p v.tail).index = v.tj ∧ v.deq p = (false, v)) ∨
      (v.tj < p.NE ∧ (v.pf p v.tail).index ≠ v.tj ∧ v.deq p = (true, v.pop)) ∨
      (¬ v.tj < p.NE ∧ v.Same ∧ v.deq p = (false, v)) ∨
      (¬ v.tj < p.NE ∧ ¬ v.Same ∧ v.deq p = (true, (v.cadv p).pop)) := by
  unfold View.deq
  by_cases h1 : v.tj < p.NE
  · by_cases h2 : (v.pf p v.tail).index = v.tj
    · exact Or.inl ⟨h1, h2, by rw [if_pos h1, if_pos h2]⟩
    · exact Or.inr (Or.inl ⟨h1, h2, by rw [if_pos h1, if_neg h2]⟩)
  · by_cases h2 : v.Same
    · exact Or.inr (Or.inr (Or.inl ⟨h1, h2, by rw [if_neg h1, if_pos h2]⟩))
    · exact Or.inr (Or.inr (Or.inr ⟨h1, h2, by rw [if_neg h1, if_neg h2]⟩))

/-- The block entered by the producer had the producer version that it gets, minus 1. -/
theorem View.pf_next (p : Params) (v : View) (hg : v.Good p) :
    (v.pf p (nextB p v.head)).version + 1 = v.hv + bump p v.head := by
  obtain ⟨h1, h2, h3, h4, h5, h6, h7, h8⟩ := hg
  unfold View.pf nextB bump
  split_ifs <;> simp only <;> omega

/-- The block entered by the consumer had the consumer version that it gets, minus 1. -/
theorem View.cf_next (p : Params) (v : View) (hg : v.Good p) :
    (v.cf p (nextB p v.tail)).version + 1 = v.tv + bump p v.tail := by
  obtain ⟨h1, h2, h3, h4, h5, h6, h7, h8⟩ := hg
  unfold View.cf nextB bump
  split_ifs <;> simp only <;> omega

/-- An enqueue decreases no producer version. -/
theorem View.pf_enq_mono (p : Params) (v : View) (hg : v.Good p) (b : Nat) (hb : b < p.B) :
    (v.pf p b).version ≤ ((v.enq p).2.pf p b).version := by
  rcases View.enq_cases p v with ⟨h1, he⟩ | ⟨h1, h2, he⟩ | ⟨h1, h2, he⟩
  · rw [he]
    simp only
    rw [View.pf_push]
    split_ifs with h
    · rw [h]; simp [View.pf]
    · exact Nat.le_refl _
  · rw [he]
  · have hfull : v.hi = p.NE := by have := hg.hi_le; omega
    have hnx := View.pf_next p v hg
    rw [he]
    simp only
    rw [View.pf_push]
    split_ifs with h
    · rw [h]
      simp only [View.padv]
      omega
    · rw [View.pf_padv p v hg hfull b hb, if_neg (show ¬ b = nextB p v.head from h)]

/-- An enqueue changes no consumer cursor. -/
theorem View.cf_enq (p : Params) (v : View) (b : Nat) :
    (v.enq p).2.cf p b = v.cf p b := by
  rcases View.enq_cases p v with ⟨h1, he⟩ | ⟨h1, h2, he⟩ | ⟨h1, h2, he⟩ <;> rw [he] <;> rfl

/-- A dequeue decreases no consumer version. -/
theorem View.cf_deq_mono (p : Params) (v : View) (hg : v.Good p) (b : Nat) (hb : b < p.B) :
    (v.cf p b).version ≤ ((v.deq p).2.cf p b).version := by
  rcases View.deq_cases p v with ⟨h1, h2, he⟩ | ⟨h1, h2, he⟩ | ⟨h1, h2, he⟩ | ⟨h1, h2, he⟩
  · rw [he]
  · rw [he]
    simp only
    rw [View.cf_pop]
    split_ifs with h
    · rw [h]; simp [View.cf]
    · exact Nat.le_refl _
  · rw [he]
  · have hfull : v.tj = p.NE := by have := hg.tj_le; omega
    have hnx := View.cf_next p v hg
    rw [he]
    simp only
    rw [View.cf_pop]
    split_ifs with h
    · rw [h]
      simp only [View.cadv]
      omega
    · rw [View.cf_cadv p v hg hfull b hb, if_neg (show ¬ b = nextB p v.tail from h)]

/-- A dequeue changes no producer cursor. -/
theorem View.pf_deq (p : Params) (v : View) (b : Nat) :
    (v.deq p).2.pf p b = v.pf p b := by
  rcases View.deq_cases p v with ⟨h1, h2, he⟩ | ⟨h1, h2, he⟩ | ⟨h1, h2, he⟩ | ⟨h1, h2, he⟩ <;>
    rw [he] <;> rfl

/-! ## What a block advance stores -/

/-- A successful `prod_advance` that does not make the version wrap enters the block after
the head block with cursor `(v + is_first, 0)`, one version above the one it had. -/
theorem Rep.prod_advance_cursor {p : Params} {v : View} {q : Queue T} (hr : Rep p v q)
    (hg : v.Good p) (hw : p.VERSION_BITS ≤ 44)
    (hmax : v.hv + bump p v.head < 2 ^ p.VERSION_BITS) (q' : Queue T)
    (h : prod_advance p q = (true, q')) :
    q'.head = (q.blocks q.head).prod.next ∧
      (q'.blocks q'.head).prod.field
        = ⟨(q.blocks q.head).prod.field.version
            + (if (q.blocks (q.blocks q.head).prod.next).prod.is_first then 1 else 0), 0⟩ ∧
      (q'.blocks q'.head).prod.field.version
        = (q.blocks (q.blocks q.head).prod.next).prod.field.version + 1 := by
  rw [prod_advance_eq] at h
  cases h2 : prod_ok p q
  · rw [h2] at h; simp at h
  · rw [h2, if_pos rfl] at h
    have hq : q' = padvQ p q := (congrArg Prod.snd h).symm
    subst hq
    have hn := hr.pnext_eq hg
    have hnv := hr.prod_nvsn_eq hg hw
    have hlt := nextB_lt p _ hg.head_lt
    have hnx := View.pf_next p v hg
    have hnew : ((padvQ p q).blocks (padvQ p q).head).prod.field
        = ⟨v.hv + bump p v.head, 0⟩ := by
      simp only [padvQ, upd_same, Field.make, hnv, Nat.mod_eq_of_lt hmax]
      rfl
    unfold pnext at hn
    rw [hnew, hn, hr.head_field hg, hr.prod_eq _ hlt]
    simp only [nextB_first]
    exact ⟨hn, trivial, by omega⟩

/-- A successful `cons_advance` enters the block after the tail block with cursor
`(v + is_first, 0)`, one version above the one it had. -/
theorem Rep.cons_advance_cursor {p : Params} {v : View} {q : Queue T} (hr : Rep p v q)
    (hg : v.Good p) (hw : p.VERSION_BITS ≤ 44) (nb : Nat) (q' : Queue T)
    (h : cons_advance p q = (some nb, q')) :
    nb = (q.blocks q.tail).cons.next ∧ q'.tail = nb ∧
      (q'.blocks q'.tail).cons.field
        = ⟨(q.blocks q.tail).cons.field.version
            + (if (q.blocks (q.blocks q.tail).cons.next).cons.is_first then 1 else 0), 0⟩ ∧
      (q'.blocks q'.tail).cons.field.version
        = (q.blocks (q.blocks q.tail).cons.next).cons.field.version + 1 := by
  rw [cons_advance_eq] at h
  cases h2 : cons_ok q
  · rw [h2] at h; simp at h
  · rw [h2, if_pos rfl] at h
    have hq : q' = cadvQ p q := (congrArg Prod.snd h).symm
    have hnb : nb = cnext q := by
      have := congrArg Prod.fst h
      simp only [Option.some.injEq] at this
      exact this.symm
    subst hq
    have hns : ¬ v.Same := (hr.cons_ok_iff hg hw).1 h2
    have hn := hr.cnext_eq hg
    have hnv := hr.cons_nvsn_eq hg hw
    have hlt := nextB_lt p _ hg.tail_lt
    have hnx := View.cf_next p v hg
    have hmax : v.tv + bump p v.tail < 2 ^ p.VERSION_BITS := by
      obtain ⟨h1, h2, h3, h4, h5, h6, h7, h8⟩ := hg
      unfold View.Same at hns
      unfold bump
      split_ifs <;> omega
    have hnew : ((cadvQ p q).blocks (cadvQ p q).tail).cons.field
        = ⟨v.tv + bump p v.tail, 0⟩ := by
      simp only [cadvQ, upd_same, Field.make, hnv, Nat.mod_eq_of_lt hmax]
      rfl
    rw [hnb]
    unfold cnext at hn ⊢
    rw [hnew, hn, hr.tail_field hg, hr.cons_eq _ hlt]
    simp only [nextB_first]
    exact ⟨trivial, hn, trivial, by omega⟩

/-! ## Runs of dequeue calls -/

theorem DeqRun.reach {p : Params} {s s' : Sys T} (h : DeqRun p s s') (hs : Reach p s) :
    Reach p s' := by
  induction h with
  | refl => exact hs
  | step s' s'' fuel t _ hstep ih => exact Reach.deq s' s'' fuel t ih hstep

theorem DeqRun.accepted_eq {p : Params} {s s' : Sys T} (h : DeqRun p s s') :
    s'.accepted = s.accepted := by
  induction h with
  | refl => rfl
  | step s' s'' fuel t _ hstep ih =>
    unfold Sys.deq at hstep
    cases he : dequeue p fuel s'.q t with
    | none => rw [he] at hstep; simp at hstep
    | some r =>
      rw [he] at hstep
      simp only [Option.map_some', Option.some.injEq] at hstep
      rw [← hstep]
      exact ih

/-! ## More concrete states -/

theorem reach_tiny4 : Reach tiny tiny4 :=
  reach_tiny3.deq_getD 2 0 (by decide)

theorem reach_tiny5 : Reach tiny tiny5 :=
  reach_tiny4.enq_getD 2 12 (by decide) (by decide)

/-! ## Further properties of the queue -/

/-- C14 (block-granular acceptance).  In every reachable state: (a) if at most `N - NE`
items are enqueued but not dequeued, `enqueue` returns `true`; (b) `enqueue` returns
`false` only when the head block is full and the block after it has a slot in use, that
is, holds an accepted item that has not been dequeued; (c) after `dequeue` calls that
delivered `NE` further items, `enqueue` returns `true`. -/
theorem block_granular_acceptance (p : Params) (hp : p.Ok) (s : Sys T) (h : Reach p s)
    (fuel : Nat) (hf : 2 ≤ fuel) (x : T) :
    (s.accepted.length - s.delivered.length + p.NE ≤ p.N →
      ∃ q', enqueue p fuel s.q x = some (true, q')) ∧
    (∀ q', enqueue p fuel s.q x = some (false, q') →
      (s.q.blocks s.q.head).prod.field.index = p.NE ∧
      (∃ k, ((s.q.blocks s.q.head).prod.next, k) ∈ inUse p s.q) ∧
      s.accepted = s.delivered ++ (inUse p s.q).map (rd s.q)) ∧
    (∀ s', DeqRun p s s' → s.delivered.length + p.NE ≤ s'.delivered.length →
      ∃ q', enqueue p fuel s'.q x = some (true, q')) := by
  have key : ∀ s1 : Sys T, Reach p s1 →
      s1.accepted.length - s1.delivered.length + p.NE ≤ p.N →
      ∃ q', enqueue p fuel s1.q x = some (true, q') := by
    intro s1 h1 hroom
    obtain ⟨v, hr, hg, hz, hlen⟩ := (h1.inv hp).count
    have hsome := enqueue_isSome p hp.2.2.1 fuel hf s1.q x
    cases he : enqueue p fuel s1.q x with
    | none => rw [he] at hsome; exact Bool.noConfusion hsome
    | some r =>
      obtain ⟨ok, q'⟩ := r
      rcases enqueue_view hp hr hg fuel x _ he with ⟨-, h2, h3, -⟩ | ⟨h1, -⟩
      · exfalso
        have h4 := View.blocked_length p v hg hp.2.2.1 h2 h3
        rw [hp.cap] at h4
        omega
      · simp only at h1
        exact ⟨q', by rw [h1]⟩
  refine ⟨key s h, ?_, ?_⟩
  · intro q' he
    obtain ⟨hr, hg, hz, hacc⟩ := (h.inv hp).stored
    rcases enqueue_view hp hr hg fuel x _ he with ⟨-, h2, h3, -⟩ | ⟨h1, -⟩
    · have hpn := hr.pnext_eq hg
      unfold pnext at hpn
      rw [hpn, hr.inUse_eq hg]
      exact ⟨h2, View.blocked_holds p _ hg hp.2.2.1 h2 h3, hr.inUse_eq hg ▸ hacc⟩
    · exact absurd h1 (by simp)
  · intro s' hrun hdel
    have h' := hrun.reach h
    have hacc := hrun.accepted_eq
    obtain ⟨v, hr, hg, hz, hlen⟩ := (h.inv hp).count
    have hle := View.length_le p v hg
    rw [hp.cap] at hle
    have hcap : p.NE ≤ p.N := by
      rw [← hp.cap]
      exact Nat.le_mul_of_pos_left _ hp.1
    apply key s' h'
    rw [hacc]
    omega

/-- On the fresh tiny queue `enqueue(10)` returns `true`: nothing is in flight. -/
theorem block_granular_acceptance_witness :
    tiny.Ok ∧ Reach tiny tiny0 ∧ 2 ≤ 2 ∧ ∃ q', enqueue tiny 2 tiny0.q 10 = some (true, q') :=
  ⟨tiny_ok, reach_tiny0, by decide,
    (block_granular_acceptance tiny tiny_ok tiny0 reach_tiny0 2 (by decide) 10).1
      (by decide)⟩

/-- C15 (bounded retry inside one call).  With `NE ≥ 1`, in every state of the queue an
`enqueue` call and a `dequeue` call return after at most two passes through `again` and at
most one invocation of `prod_advance` (resp. `cons_advance`); after a successful
`prod_advance` the next pass of `enqueue` stores the item and returns `true`. -/
theorem bounded_retry (p : Params) (hNE : 1 ≤ p.NE) (q : Queue T) (x t : T) (fuel : Nat)
    (hf : 2 ≤ fuel) :
    (∃ c, enqueue_cost p fuel q = some c ∧ c.1 ≤ 2 ∧ c.2 ≤ 1) ∧
    (enqueue p fuel q x).isSome = true ∧
    (∃ c, dequeue_cost p fuel q = some c ∧ c.1 ≤ 2 ∧ c.2 ≤ 1) ∧
    (dequeue p fuel q t).isSome = true ∧
    (∀ q' k, prod_advance p q = (true, q') →
      enqueue p (k + 1) q' x = some (true, pushQ q' x) ∧
      ((pushQ q' x).blocks q'.head).data 0 = x) :=
  ⟨enqueue_cost_le p hNE fuel hf q, enqueue_isSome p hNE fuel hf q x,
    dequeue_cost_le p hNE fuel hf q, dequeue_isSome p hNE fuel hf q t,
    fun q' k h => enqueue_after_advance p hNE q q' x h k⟩

/-- On the drained full tiny queue, `enqueue` makes two passes and one advance. -/
theorem bounded_retry_witness :
    1 ≤ tiny.NE ∧ 2 ≤ 2 ∧ enqueue_cost tiny 2 tiny4.q = some (2, 1) ∧
      ∃ c, enqueue_cost tiny 2 tiny4.q = some c ∧ c.1 ≤ 2 ∧ c.2 ≤ 1 :=
  ⟨by decide, by decide, by decide,
    (bounded_retry tiny (by decide) tiny4.q 0 0 2 (by decide)).1⟩

/-- C16 (versions count ring laps monotonically).  In every reachable state: an `enqueue`
call made while the head version is below `2 ^ VERSION_BITS - 1`, and any `dequeue` call,
decrease no producer or consumer version of any block; a successful `prod_advance` (while
the head version is below the maximum) and a successful `cons_advance` set the cursor of
the block entered to `(v + 1, 0)` if that block is the first one and to `(v, 0)` otherwise,
`v` being the version of the block left, and this is one more than the version the block
entered had before. -/
theorem versions_monotone (p : Params) (hp : p.Ok) (s : Sys T) (h : Reach p s) :
    (∀ fuel x r, (s.q.blocks s.q.head).prod.field.version + 1 < 2 ^ p.VERSION_BITS →
      enqueue p fuel s.q x = some r → ∀ b, b < p.B →
        (s.q.blocks b).prod.field.version ≤ (r.2.blocks b).prod.field.version ∧
        (s.q.blocks b).cons.field.version ≤ (r.2.blocks b).cons.field.version) ∧
    (∀ fuel t r, dequeue p fuel s.q t = some r → ∀ b, b < p.B →
        (s.q.blocks b).prod.field.version ≤ (r.2.2.blocks b).prod.field.version ∧
        (s.q.blocks b).cons.field.version ≤ (r.2.2.blocks b).cons.field.version) ∧
    (∀ q', (s.q.blocks s.q.head).prod.field.version + 1 < 2 ^ p.VERSION_BITS →
      prod_advance p s.q = (true, q') →
        q'.head = (s.q.blocks s.q.head).prod.next ∧
        (q'.blocks q'.head).prod.field
          = ⟨(s.q.blocks s.q.head).prod.field.version
              + (if (s.q.blocks (s.q.blocks s.q.head).prod.next).prod.is_first then 1
                else 0), 0⟩ ∧
        (q'.blocks q'.head).prod.field.version
          = (s.q.blocks (s.q.blocks s.q.head).prod.next).prod.field.version + 1) ∧
    (∀ nb q', cons_advance p s.q = (some nb, q') →
        nb = (s.q.blocks s.q.tail).cons.next ∧ q'.tail = nb ∧
        (q'.blocks q'.tail).cons.field
          = ⟨(s.q.blocks s.q.tail).cons.field.version
              + (if (s.q.blocks (s.q.blocks s.q.tail).cons.next).cons.is_first then 1
                else 0), 0⟩ ∧
        (q'.blocks q'.tail).cons.field.version
          = (s.q.blocks (s.q.blocks s.q.tail).cons.next).cons.field.version + 1) := by
  obtain ⟨hr, hg, hz, -⟩ := (h.inv hp).stored
  have hw := hp.2.2.2.2.2
  have hf := hr.head_field hg
  have hbump : bump p (viewOf s.q).head ≤ 1 := by unfold bump; split_ifs <;> omega
  refine ⟨?_, ?_, ?_, ?_⟩
  · intro fuel x r hmax he b hb
    rw [hf] at hmax
    simp only at hmax
    have hnw : ¬ (viewOf s.q).wraps p := fun hc => by
      have := hc.2.2
      omega
    obtain ⟨-, hr', -, -, -⟩ := enqueue_refines hp hr hg hz hnw fuel x r he
    rw [hr.prod_eq b hb, hr.cons_eq b hb, hr'.prod_eq b hb, hr'.cons_eq b hb]
    simp only
    rw [View.cf_enq]
    exact ⟨View.pf_enq_mono p _ hg b hb, Nat.le_refl _⟩
  · intro fuel t r he b hb
    obtain ⟨-, hr', -, -, -, -⟩ := dequeue_refines hp hr hg hz fuel t r he
    rw [hr.prod_eq b hb, hr.cons_eq b hb, hr'.prod_eq b hb, hr'.cons_eq b hb]
    simp only
    rw [View.pf_deq]
    exact ⟨Nat.le_refl _, View.cf_deq_mono p _ hg b hb⟩
  · intro q' hmax he
    rw [hf] at hmax
    simp only at hmax
    exact hr.prod_advance_cursor hg hw (by omega) q' he
  · intro nb q' he
    exact hr.cons_advance_cursor hg hw nb q' he

/-- On the drained full tiny queue `prod_advance` succeeds: the only block, which is the
first one, is entered again with cursor `(2, 0)`. -/
theorem versions_monotone_witness :
    tiny.Ok ∧ Reach tiny tiny4 ∧
      (tiny4.q.blocks tiny4.q.head).prod.field.version + 1 < 2 ^ tiny.VERSION_BITS ∧
      (((prod_advance tiny tiny4.q).2).blocks ((prod_advance tiny tiny4.q).2).head).prod.field
        = ⟨(tiny4.q.blocks tiny4.q.head).prod.field.version
            + (if (tiny4.q.blocks (tiny4.q.blocks tiny4.q.head).prod.next).prod.is_first
              then 1 else 0), 0⟩ :=
  ⟨tiny_ok, reach_tiny4, by decide,
    ((versions_monotone tiny tiny_ok tiny4 reach_tiny4).2.2.1 (prod_advance tiny tiny4.q).2
      (by decide) (Prod.ext (by decide) rfl)).2.1⟩

/-- C17 (cursor consistency).  In every reachable state: every cursor index is at most
`NE`; the consumer version of a block is at most its producer version; and while the
consumer index of the tail block is below `NE`, the producer cursor of the tail block has
the version of the consumer cursor and an index that is not behind, so that the test
`p.index == c.index` of `dequeue` holds exactly when no slot of the tail block is in use.
The slots in use hold the accepted items that have not been delivered. -/
theorem cursor_consistency (p : Params) (hp : p.Ok) (s : Sys T) (h : Reach p s) :
    (∀ b, b < p.B →
      (s.q.blocks b).prod.field.index ≤ p.NE ∧ (s.q.blocks b).cons.field.index ≤ p.NE ∧
      (s.q.blocks b).cons.field.version ≤ (s.q.blocks b).prod.field.version) ∧
    ((s.q.blocks s.q.tail).cons.field.index < p.NE →
      (s.q.blocks s.q.tail).prod.field.version = (s.q.blocks s.q.tail).cons.field.version ∧
      (s.q.blocks s.q.tail).cons.field.index ≤ (s.q.blocks s.q.tail).prod.field.index ∧
      ((s.q.blocks s.q.tail).prod.field.index = (s.q.blocks s.q.tail).cons.field.index ↔
        ∀ k, (s.q.tail, k) ∉ inUse p s.q)) ∧
    s.accepted = s.delivered ++ (inUse p s.q).map (rd s.q) := by
  obtain ⟨hr, hg, hz, hacc⟩ := (h.inv hp).stored
  refine ⟨fun b hb => ?_, fun hlt => ?_, hacc⟩
  · rw [hr.prod_eq b hb, hr.cons_eq b hb]
    exact View.cursor_le p _ hg b
  · rw [hr.tail_field hg] at hlt ⊢
    rw [hr.tail_prod hg, hr.inUse_eq hg]
    exact View.tail_consistent p _ hg hlt

/-- On the tiny queue with one item in flight the indices of the tail block differ. -/
theorem cursor_consistency_witness :
    tiny.Ok ∧ Reach tiny tiny3 ∧ (tiny3.q.blocks tiny3.q.tail).cons.field.index < tiny.NE ∧
      (tiny3.q.blocks tiny3.q.tail).prod.field.version
        = (tiny3.q.blocks tiny3.q.tail).cons.field.version :=
  ⟨tiny_ok, reach_tiny3, by decide,
    ((cursor_consistency tiny tiny_ok tiny3 reach_tiny3).2.1 (by decide)).1⟩

/-- C18 (no mutual stall).  In every reachable state: if `enqueue` returns `false` then
`dequeue` returns `true`, if `dequeue` returns `false` then `enqueue` returns `true`, and
so the two calls do not both return `false`. -/
theorem no_mutual_stall (p : Params) (hp : p.Ok) (s : Sys T) (h : Reach p s) (fuel : Nat)
    (hf : 2 ≤ fuel) (x t : T) :
    (∀ q', enqueue p fuel s.q x = some (false, q') →
      ∃ t' q'', dequeue p fuel s.q t = some (true, t', q'')) ∧
    (∀ t' q', dequeue p fuel s.q t = some (false, t', q') →
      ∃ q'', enqueue p fuel s.q x = some (true, q'')) ∧
    ¬ ((∃ q', enqueue p fuel s.q x = some (false, q')) ∧
      ∃ t' q', dequeue p fuel s.q t = some (false, t', q')) := by
  obtain ⟨v, hr, hg, hz, -⟩ := h.inv hp
  have hNE := hp.2.2.1
  have hcap : p.NE ≤ p.B * p.NE := Nat.le_mul_of_pos_left _ hp.1
  have hboth : ∀ q' t' q'', enqueue p fuel s.q x = some (false, q') →
      dequeue p fuel s.q t = some (false, t', q'') → False := by
    intro q' t' q'' he hd
    rcases enqueue_view hp hr hg fuel x _ he with ⟨-, h2, h3, -⟩ | ⟨h1, -⟩
    · rcases dequeue_view hp hr hg hz fuel t _ hd with ⟨-, h5, -, -⟩ | ⟨h4, -⟩
      · have h6 := View.blocked_length p v hg hNE h2 h3
        rw [h5] at h6
        simp only [List.length_nil] at h6
        omega
      · exact absurd h4 (by simp)
    · exact absurd h1 (by simp)
  refine ⟨fun q' he => ?_, fun t' q' hd => ?_, fun ⟨⟨q', he⟩, t', q'', hd⟩ =>
    hboth q' t' q'' he hd⟩
  · have hsome := dequeue_isSome p hNE fuel hf s.q t
    cases hd : dequeue p fuel s.q t with
    | none => rw [hd] at hsome; exact Bool.noConfusion hsome
    | some r =>
      obtain ⟨ok, t', q''⟩ := r
      cases ok
      · exact absurd (hboth q' t' q'' he hd) id
      · exact ⟨t', q'', rfl⟩
  · have hsome := enqueue_isSome p hNE fuel hf s.q x
    cases he : enqueue p fuel s.q x with
    | none => rw [he] at hsome; exact Bool.noConfusion hsome
    | some r =>
      obtain ⟨ok, q''⟩ := r
      cases ok
      · exact absurd (hboth q'' t' q' he hd) id
      · exact ⟨q'', rfl⟩

/-- On the full tiny queue `enqueue` returns `false` and `dequeue` returns `true`. -/
theorem no_mutual_stall_witness :
    tiny.Ok ∧ Reach tiny tiny2 ∧ 2 ≤ 2 ∧
      ∃ t' q'', dequeue tiny 2 tiny2.q 0 = some (true, t', q'') := by
  refine ⟨tiny_ok, reach_tiny2, by decide, ?_⟩
  have h1 : (enqueue tiny 2 tiny2.q 12).map Prod.fst = some false := by decide
  cases he : enqueue tiny 2 tiny2.q 12 with
  | none => rw [he] at h1; simp at h1
  | some r =>
    obtain ⟨ok, q'⟩ := r
    rw [he] at h1
    simp only [Option.map_some', Option.some.injEq] at h1
    subst h1
    exact (no_mutual_stall tiny tiny_ok tiny2 reach_tiny2 2 (by decide) 12 0).1 q' he

/-- C19 (producer reuse happens only on a fully drained block).  In every reachable state
the producer version of the head block is at least 1, so that `nvsn - 1` in `prod_advance`
does not underflow; the test `c.version > vsn` of `cons_ready` is false at that call; and
when `prod_advance` succeeds, the consumer cursor of the block entered is exactly
`(nvsn - 1, NE)`. -/
theorem producer_reuse_drained (p : Params) (hp : p.Ok) (s : Sys T) (h : Reach p s) :
    1 ≤ (s.q.blocks s.q.head).prod.field.version ∧ 1 ≤ prod_nvsn s.q ∧
      (prod_nvsn s.q + (2 ^ 64 - 1)) % 2 ^ 64 = prod_nvsn s.q - 1 ∧
      ¬ ((s.q.blocks (s.q.blocks s.q.head).prod.next).cons.field.version
          > prod_nvsn s.q - 1) ∧
      (∀ q', prod_advance p s.q = (true, q') →
        (s.q.blocks (s.q.blocks s.q.head).prod.next).cons.field
          = ⟨prod_nvsn s.q - 1, p.NE⟩ ∧
        (q'.blocks q'.head).cons.field = ⟨prod_nvsn s.q - 1, p.NE⟩) := by
  obtain ⟨v, hr, hg, hz, -⟩ := h.inv hp
  obtain ⟨h1, h2, h3, h4, h5⟩ := hr.advance_drained hg hp.2.2.2.2.2
  refine ⟨h1, h2, h3, h4, fun q' he => ?_⟩
  rw [prod_advance_eq] at he
  cases hok : prod_ok p s.q
  · rw [hok] at he; simp at he
  · rw [hok, if_pos rfl] at he
    have hq : q' = padvQ p s.q := (congrArg Prod.snd he).symm
    subst hq
    refine ⟨h5 hok, ?_⟩
    have : ((padvQ p s.q).blocks (padvQ p s.q).head).cons
        = (s.q.blocks (s.q.blocks s.q.head).prod.next).cons := by
      simp only [padvQ, upd_same, pnext]
    rw [this]
    exact h5 hok

/-- On the drained full tiny queue `prod_advance` succeeds and the consumer cursor of the
block entered is `(1, 2)`. -/
theorem producer_reuse_drained_witness :
    tiny.Ok ∧ Reach tiny tiny4 ∧
      (tiny4.q.blocks (tiny4.q.blocks tiny4.q.head).prod.next).cons.field
        = ⟨prod_nvsn tiny4.q - 1, tiny.NE⟩ :=
  ⟨tiny_ok, reach_tiny4,
    ((producer_reuse_drained tiny tiny_ok tiny4 reach_tiny4).2.2.2.2
      (prod_advance tiny tiny4.q).2 (Prod.ext (by decide) rfl)).1⟩

/-! ## The tail after a block is drained -/

/-- The calls of `fillDrain` on the view of a fresh queue. -/
theorem fillDrain_view (t : Nat) :
    View.calls (Params.source 8 2) (fillDrain t) ⟨0, 1, 0, 0, 1, 0⟩ []
      = some (fillDrainRets, ⟨1, 1, 4, 0, 1, 4⟩, [4, 5, 6, 7]) := by
  rfl

/-- In `Queue<T, 8, 2>`, after the enqueues of 0, ..., 7 and four dequeues the tail is
still block 0, drained, and the consumer cursor of block 1 is untouched; the fifth dequeue
moves the tail to block 1 and reads its first entry. -/
theorem fillDrain_state (mem : Nat → Block Nat) (t : Nat) (fuel : Nat) (hf : 2 ≤ fuel) :
    ∃ q, calls (Params.source 8 2) fuel (fillDrain t) (Queue.Queue (Params.source 8 2) mem)
        = some (fillDrainRets, q) ∧
      q.tail = 0 ∧ (q.blocks 0).cons.field = ⟨1, 4⟩ ∧ (q.blocks 1).cons.field = ⟨0, 4⟩ ∧
      ∃ q', dequeue (Params.source 8 2) fuel q t = some (true, 4, q') ∧
        q'.tail = 1 ∧ (q'.blocks 1).cons.field = ⟨1, 1⟩ := by
  have hok : (Params.source 8 2).Ok := by decide
  have hv := fillDrain_view t
  have hr := rep_fresh (Params.source 8 2) hok.2.2.2.1 hok.2.2.2.2.1 mem
  have hg := good_fresh (Params.source 8 2) hok.1 hok.2.2.2.2.1
  have h0 : (View.slots (Params.source 8 2) ⟨0, 1, 0, 0, 1, 0⟩).map
      (rd (Queue.Queue (Params.source 8 2) mem)) = [] := rfl
  rw [← h0] at hv
  obtain ⟨q, hq, hr1, hg1, hz1, hl⟩ := calls_refines (Params.source 8 2) hok fuel hf
    (fillDrain t) _ _ _ _ _ hr hg (fun _ => ⟨rfl, rfl⟩) hv
  refine ⟨q, hq, hr1.tail_eq, ?_, ?_, ?_⟩
  · rw [hr1.cons_eq 0 (by decide)]
    rfl
  · rw [hr1.cons_eq 1 (by decide)]
    rfl
  · have hsome := dequeue_isSome (Params.source 8 2) hok.2.2.1 fuel hf q t
    cases he : dequeue (Params.source 8 2) fuel q t with
    | none => rw [he] at hsome; exact Bool.noConfusion hsome
    | some r =>
      obtain ⟨h1, hr2, -, -, hh, -⟩ := dequeue_refines hok hr1 hg1 hz1 fuel t r he
      obtain ⟨ok, t', q'⟩ := r
      have hd : View.deq (Params.source 8 2) ⟨1, 1, 4, 0, 1, 4⟩
          = (true, ⟨1, 1, 4, 1, 1, 1⟩) := rfl
      rw [hd] at h1 hr2 hh
      simp only at h1 hr2 hh
      subst h1
      rw [← hl] at hh
      simp only [if_true, List.singleton_append, List.cons.injEq] at hh
      refine ⟨q', ?_, hr2.tail_eq, ?_⟩
      · rw [← hh.1]
      · rw [hr2.cons_eq 1 (by decide)]
        rfl

/-- C20, as stated, fails: in `Queue<uint64_t, 8, 2>` on zero-initialised storage, after
the enqueues of 0, ..., 7 and four dequeues the tail does not refer to block 1 with the
consumer cursor `(1, 0)`. -/
theorem tail_not_advanced_by_fourth_dequeue :
    ∃ q, calls (Params.source 8 2) 2 (fillDrain 0)
        (Queue.Queue (Params.source 8 2) zeroMem) = some (fillDrainRets, q) ∧
      ¬ (q.tail = 1 ∧ (q.blocks 1).cons.field = ⟨1, 0⟩) := by
  obtain ⟨q, hq, ht, -, -, -⟩ := fillDrain_state zeroMem 0 2 (Nat.le_refl 2)
  exact ⟨q, hq, fun hc => absurd (ht ▸ hc.1) (by decide)⟩

/-- C20, amended (the tail advance is lazy).  In `Queue<T, 8, 2>`, after the enqueues of
0, ..., 7 and four dequeues, which return 0, 1, 2, 3, the tail still refers to block 0
with the consumer cursor `(1, 4)` and the consumer cursor of block 1 is still `(0, 4)`; it
is the fifth dequeue that advances the tail: it returns 4, and on its return the tail
refers to block 1 with the consumer cursor `(1, 1)`. -/
theorem tail_advance_is_lazy (mem : Nat → Block Nat) (t : Nat) (fuel : Nat)
    (hf : 2 ≤ fuel) :
    ∃ q, calls (Params.source 8 2) fuel (fillDrain t) (Queue.Queue (Params.source 8 2) mem)
        = some (fillDrainRets, q) ∧
      q.tail = 0 ∧ (q.blocks 0).cons.field = ⟨1, 4⟩ ∧ (q.blocks 1).cons.field = ⟨0, 4⟩ ∧
      ∃ q', dequeue (Params.source 8 2) fuel q t = some (true, 4, q') ∧
        q'.tail = 1 ∧ (q'.blocks 1).cons.field = ⟨1, 1⟩ :=
  fillDrain_state mem t fuel hf

/-- The lazy tail advance with two units of fuel on zero-initialised storage. -/
theorem tail_advance_is_lazy_witness :
    2 ≤ 2 ∧ ∃ q, calls (Params.source 8 2) 2 (fillDrain 0)
        (Queue.Queue (Params.source 8 2) zeroMem) = some (fillDrainRets, q) ∧
      q.tail = 0 ∧ (q.blocks 0).cons.field = ⟨1, 4⟩ ∧ (q.blocks 1).cons.field = ⟨0, 4⟩ ∧
      ∃ q', dequeue (Params.source 8 2) 2 q 0 = some (true, 4, q') ∧
        q'.tail = 1 ∧ (q'.blocks 1).cons.field = ⟨1, 1⟩ :=
  ⟨Nat.le_refl 2, tail_advance_is_lazy zeroMem 0 2 (Nat.le_refl 2)⟩

/-! ## After a wrap of the producer version -/

theorem View.Good.wide {p : Params} {v : View} (h : v.Good p) : v.Good p.wide := by
  obtain ⟨h1, h2, h3, h4, h5, h6, h7, h8⟩ := h
  have hpow : 2 ^ p.VERSION_BITS < 2 ^ (p.VERSION_BITS + 1) :=
    Nat.pow_lt_pow_right (by decide) (Nat.lt_succ_self _)
  exact ⟨h1, h2, h3, Nat.lt_trans h4 hpow, h5, h6, h7, h8⟩

/-- History after the store of `enqueue`, for any description of the cursors. -/
theorem hist_push_gen {p : Params} {v : View} {q : Queue T} (hg : v.Good p)
    (hh : q.head = v.head) (hi : (q.blocks q.head).prod.field.index = v.hi) (x : T) :
    (v.push.slots p).map (rd (pushQ q x)) = (v.slots p).map (rd q) ++ [x] ∧
      ∀ y ∈ v.slots p, rd (pushQ q x) y = rd q y := by
  have hslot : (q.head, (q.blocks q.head).prod.field.index) = (v.head, v.hi) := by
    rw [hi, hh]
  have hkeep : ∀ y ∈ v.slots p, rd (pushQ q x) y = rd q y := by
    intro y hy
    rw [rd_pushQ, hslot, if_neg]
    intro hyx
    exact View.slot_free p v hg (hyx ▸ hy)
  refine ⟨?_, hkeep⟩
  rw [View.slots_push p v hg, List.map_append]
  congr 1
  · exact List.map_congr_left hkeep
  · simp only [List.map_cons, List.map_nil]
    rw [rd_pushQ, hslot, if_pos rfl]

/-- History before the cursor store of `dequeue`, for any description of the cursors. -/
theorem hist_pop_gen {p : Params} {v : View} {q : Queue T} (hg : v.Good p)
    (ht : q.tail = v.tail) (hj : (q.blocks q.tail).cons.field.index = v.tj)
    (hlt : v.tj < p.NE) (hne : (v.pf p v.tail).index ≠ v.tj) :
    (v.slots p).map (rd q)
      = (q.blocks q.tail).data (q.blocks q.tail).cons.field.index
        :: (v.pop.slots p).map (rd (popQ q)) := by
  rw [View.slots_pop p v hg hlt hne, List.map_cons, map_rd_popQ, hj, ht]
  rfl

theorem RepW.head_field_w {p : Params} {v : View} {q : Queue T} (hr : RepW p v q) :
    (q.blocks q.head).prod.field = ⟨0, v.hi⟩ := by
  rw [hr.head_eq, hr.prod_zero]

theorem RepW.tail_field_w {p : Params} {v : View} {q : Queue T} (hr : RepW p v q)
    (hg : v.Good p.wide) : (q.blocks q.tail).cons.field = ⟨v.tv, v.tj⟩ := by
  rw [hr.tail_eq, hr.cons_eq _ hg.tail_lt]
  simp [View.cf]

theorem RepW.tail_pos {p : Params} {v : View} {q : Queue T} (hr : RepW p v q)
    (hg : v.Good p.wide) (hlt : v.tj < p.NE) : 0 < v.tail := by
  have h1 := hr.vhead
  have h2 := hr.vtv
  have h8 := hg.rel
  have : p.wide.NE = p.NE := rfl
  omega

theorem RepW.pf_tail {p : Params} {v : View} {q : Queue T} (hr : RepW p v q)
    (hg : v.Good p.wide) (hlt : v.tj < p.NE) : (v.pf p.wide v.tail).index ≠ v.tj := by
  have h0 := hr.tail_pos hg hlt
  have h1 := hr.vhead
  have hNE : p.wide.NE = p.NE := rfl
  unfold View.pf
  split_ifs <;> simp only <;> omega

/-- After the wrap the store of `enqueue` keeps the description. -/
theorem RepW.push_w {p : Params} {v : View} {q : Queue T} (hr : RepW p v q)
    (hlt : v.hi < p.NE) (hidx : p.NE < 2 ^ INDEX_BITS) (x : T) :
    RepW p v.push (pushQ q x) := by
  have hh := hr.head_eq
  have hmod : (v.hi + 1) % 2 ^ INDEX_BITS = v.hi + 1 := Nat.mod_eq_of_lt (by omega)
  refine ⟨hh, hr.vhead, hr.vhv, hr.vtv, hr.tail_eq, ?_, ?_, ?_⟩
  · simp only [pushQ, hh, upd_same, hr.prod_zero, Field.add, hmod]
    rfl
  · intro b hb0 hb
    simp only [pushQ, hh, upd_apply]
    rw [if_neg (by omega)]
    exact hr.prod_eq b hb0 hb
  · intro b hb
    simp only [pushQ, upd_apply]
    split_ifs with h
    · rw [h]; simp only; rw [← h]; exact hr.cons_eq b hb
    · exact hr.cons_eq b hb

/-- After the wrap the cursor store of `dequeue` keeps the description. -/
theorem RepW.pop_w {p : Params} {v : View} {q : Queue T} (hr : RepW p v q)
    (hg : v.Good p.wide) (hlt : v.tj < p.NE) (hidx : p.NE < 2 ^ INDEX_BITS) :
    RepW p v.pop (popQ q) := by
  have hf := hr.tail_field_w hg
  have ht := hr.tail_eq
  have h0 := hr.tail_pos hg hlt
  have hmod : (v.tj + 1) % 2 ^ INDEX_BITS = v.tj + 1 := Nat.mod_eq_of_lt (by omega)
  refine ⟨hr.head_eq, hr.vhead, hr.vhv, hr.vtv, ht, ?_, ?_, ?_⟩
  · simp only [popQ, ht, upd_apply]
    rw [if_neg (by omega)]
    exact hr.prod_zero
  · intro b hb0 hb
    simp only [popQ, upd_apply]
    split_ifs with h
    · rw [h]; simp only; rw [← h]; exact hr.prod_eq b hb0 hb
    · exact hr.prod_eq b hb0 hb
  · intro b hb
    rw [View.cf_pop]
    simp only [popQ, upd_apply]
    by_cases h : b = v.tail
    · have h' : b = q.tail := by rw [ht]; exact h
      rw [if_pos h, if_pos h']
      simp only [hf, Field.add]
      rw [← h', hr.cons_eq b hb, hmod]
    · have h' : ¬ b = q.tail := by rw [ht]; exact h
      rw [if_neg h, if_neg h']
      exact hr.cons_eq b hb

theorem RepW.cnext_eq_w {p : Params} {v : View} {q : Queue T} (hr : RepW p v q)
    (hg : v.Good p.wide) : cnext q = nextB p v.tail := by
  unfold cnext
  rw [hr.tail_eq, hr.cons_eq _ hg.tail_lt]
  exact mod_next p _ hg.tail_lt

theorem RepW.tv_eq {p : Params} {v : View} {q : Queue T} (hr : RepW p v q) :
    v.tv = 2 ^ p.VERSION_BITS - 1 := by
  have h1 := hr.vhv
  have h2 := hr.vtv
  omega

theorem RepW.cons_nvsn_eq_w {p : Params} {v : View} {q : Queue T} (hr : RepW p v q)
    (hg : v.Good p.wide) (hw : p.VERSION_BITS ≤ 44) :
    cons_nvsn q = v.tv + bump p v.tail := by
  have hn := hr.cnext_eq_w hg
  unfold cnext at hn
  unfold cons_nvsn
  simp only
  rw [hn, hr.tail_field_w hg, hr.cons_eq _ (nextB_lt p _ hg.tail_lt)]
  simp only
  rw [nextB_first]
  have h1 := hr.vhv
  have h2 := hr.vtv
  have h3 := pow_bits p hw
  have h4 : bump p v.tail ≤ 1 := by unfold bump; split_ifs <;> omega
  exact Nat.mod_eq_of_lt (by omega)

/-- After the wrap the consumer can advance into every block but block 0. -/
theorem RepW.cons_ok_iff_w {p : Params} {v : View} {q : Queue T} (hr : RepW p v q)
    (hg : v.Good p.wide) (hw1 : 1 ≤ p.VERSION_BITS) (hw : p.VERSION_BITS ≤ 44) :
    cons_ok q = true ↔ v.tail + 1 < p.B := by
  unfold cons_ok Block.prod_ready
  rw [hr.cons_nvsn_eq_w hg hw, hr.cnext_eq_w hg]
  have htv := hr.tv_eq
  have hpos : 1 < 2 ^ p.VERSION_BITS := Nat.one_lt_two_pow (by omega)
  simp only [beq_iff_eq]
  by_cases hB : v.tail + 1 < p.B
  · have hb : bump p v.tail = 0 := by simp [bump, hB]
    have hn : nextB p v.tail = v.tail + 1 := by simp [nextB, hB]
    rw [hb, hn, hr.prod_eq _ (Nat.succ_pos _) hB]
    simp only [hB, iff_true]
    omega
  · have hb : bump p v.tail = 1 := by simp [bump, hB]
    have hn : nextB p v.tail = 0 := by simp [nextB, hB]
    rw [hb, hn, hr.prod_zero]
    simp only [hB, iff_false]
    omega

/-- After the wrap the producer cannot leave block 0. -/
theorem RepW.prod_ok_false {p : Params} {v : View} {q : Queue T} (hr : RepW p v q)
    (hB : 2 ≤ p.B) (hw : p.VERSION_BITS ≤ 44) :
    prod_ok p q = false := by
  have h1 : (0 + 1) % p.B = 1 := Nat.mod_eq_of_lt (by omega)
  have hc := hr.cons_eq 1 (by omega)
  have hp1 := hr.prod_eq 1 (by decide) (by omega)
  have hnv : prod_nvsn q = 0 := by
    unfold prod_nvsn
    simp only [hr.head_eq, hr.prod_zero, h1, hp1]
    rfl
  have htv := hr.tv_eq
  have h3 := pow_bits p hw
  have hle : (v.cf p 1).version ≤ v.tv := by
    unfold View.cf
    split_ifs <;> simp only <;> omega
  unfold prod_ok pnext Block.cons_ready
  rw [hnv, hr.head_eq, hr.prod_zero]
  simp only [h1, hc]
  have hvsn : (0 + (2 ^ 64 - 1)) % 2 ^ 64 = 2 ^ 64 - 1 := by decide
  rw [hvsn]
  have hlt : (v.cf p 1).version < 2 ^ 44 := by omega
  simp only [Bool.or_eq_false_iff, Bool.and_eq_false_imp, decide_eq_true_eq,
    decide_eq_false_iff_not, beq_iff_eq]
  refine ⟨fun h => ?_, ?_⟩ <;> omega

/-- After the wrap a successful `cons_advance` keeps the description. -/
theorem RepW.cadv_w {p : Params} {v : View} {q : Queue T} (hr : RepW p v q)
    (hg : v.Good p.wide) (hfull : v.tj = p.NE) (hB : v.tail + 1 < p.B)
    (hw1 : 1 ≤ p.VERSION_BITS) (hw : p.VERSION_BITS ≤ 44) :
    RepW p (v.cadv p) (cadvQ p q) := by
  have hn := hr.cnext_eq_w hg
  have hnv := hr.cons_nvsn_eq_w hg hw
  have hb : bump p v.tail = 0 := by simp [bump, hB]
  have hnx : nextB p v.tail = v.tail + 1 := by simp [nextB, hB]
  have htv := hr.tv_eq
  have hpos : 1 < 2 ^ p.VERSION_BITS := Nat.one_lt_two_pow (by omega)
  have hmod : (v.tv + bump p v.tail) % 2 ^ p.VERSION_BITS = v.tv + bump p v.tail :=
    Nat.mod_eq_of_lt (by omega)
  refine ⟨hr.head_eq, hr.vhead, hr.vhv, ?_, hn, ?_, ?_, ?_⟩
  · have := hr.vtv
    simp only [View.cadv, hb]
    omega
  · simp only [cadvQ, upd_apply, hn, hnx]
    rw [if_neg (by omega)]
    exact hr.prod_zero
  · intro b hb0 hbB
    simp only [cadvQ, upd_apply, hn]
    split_ifs with h
    · simp only; rw [← h]; exact hr.prod_eq b hb0 hbB
    · exact hr.prod_eq b hb0 hbB
  · intro b hbB
    have hcf := View.cf_cadv p.wide v hg hfull b hbB
    have hcf' : (v.cadv p).cf p b
        = if b = nextB p v.tail then ⟨v.tv + bump p v.tail, 0⟩ else v.cf p b := hcf
    rw [hcf']
    simp only [cadvQ, upd_apply, hn, hnv]
    by_cases h : b = nextB p v.tail
    · rw [if_pos h, if_pos h]
      simp only [Field.make]
      rw [hr.cons_eq _ (nextB_lt p _ hg.tail_lt), ← h, hmod]
      simp
    · rw [if_neg h, if_neg h]
      exact hr.cons_eq b hbB

/-- What the view looks like when the enqueue call makes the producer version wrap. -/
theorem View.wraps_facts (p : Params) (v : View) (hg : v.Good p) (hw : v.wraps p) :
    v.hi = p.NE ∧ ¬ v.Blocked p ∧ v.head + 1 = p.B ∧ v.hv + 1 = 2 ^ p.VERSION_BITS ∧
      v.hv = v.tv ∧ bump p v.head = 1 ∧ nextB p v.head = 0 := by
  obtain ⟨h1, h2, h3, h4, h5, h6, h7, h8⟩ := hg
  obtain ⟨w1, w2, w3⟩ := hw
  have w2' := w2
  unfold View.Blocked at w2'
  unfold bump at w3 ⊢
  unfold nextB
  split_ifs at w3 ⊢ with hc
  · omega
  · refine ⟨by omega, w2, by omega, by omega, by omega, rfl, rfl⟩

/-- The successful `prod_advance` that makes the producer version wrap. -/
theorem Rep.wrap {p : Params} {v : View} {q : Queue T} (hr : Rep p v q) (hg : v.Good p)
    (hw : v.wraps p) (hbits : p.VERSION_BITS ≤ 44) :
    RepW p (v.padv p) (padvQ p q) ∧ (v.padv p).Good p.wide := by
  obtain ⟨hfull, hnb, hlast, hmax, hvt, hbump, hnext⟩ := View.wraps_facts p v hg hw
  have hn := hr.pnext_eq hg
  have hv := hr.prod_nvsn_eq hg hbits
  have hpow : 2 ^ (p.VERSION_BITS + 1) = 2 * 2 ^ p.VERSION_BITS := by
    rw [Nat.pow_succ, Nat.mul_comm]
  have hgood : (v.padv p).Good p.wide :=
    View.good_padv p.wide v hg.wide hfull hnb (by
      show v.hv + bump p v.head < 2 ^ (p.VERSION_BITS + 1)
      omega)
  refine ⟨⟨hn.trans hnext, hnext, ?_, ?_, hr.tail_eq, ?_, ?_, ?_⟩, hgood⟩
  · show v.hv + bump p v.head = _
    omega
  · show v.hv + bump p v.head = v.tv + 1
    omega
  · simp only [padvQ, upd_apply, hn, hv, hnext, hbump, if_true, Field.make, hmax,
      Nat.mod_self, Nat.zero_mod]
    rw [hr.prod_eq 0 (by omega)]
    rfl
  · intro b hb0 hbB
    simp only [padvQ, upd_apply, hn, hnext]
    rw [if_neg (by omega), hr.prod_eq b hbB]
    have hpf : v.pf p b = ⟨2 ^ p.VERSION_BITS - 1, p.NE⟩ := by
      unfold View.pf
      split_ifs with h1 h2
      · congr 1; omega
      · rw [hfull]; congr 1; omega
      · omega
    rw [hpf]
  · intro b hbB
    simp only [padvQ, upd_apply, hn]
    split_ifs with h
    · simp only; rw [← h]; exact hr.cons_eq b hbB
    · exact hr.cons_eq b hbB

/-- After the wrap the slots in use computed from the stored cursors are the ones of the
view. -/
theorem RepW.inUse_eq_w {p : Params} {v : View} {q : Queue T} (hr : RepW p v q)
    (hg : v.Good p.wide) : inUse p q = v.slots p := by
  have h1 := hr.head_field_w
  have h2 := hr.tail_field_w hg
  have h3 := hr.vhv
  have h4 := hr.vtv
  have h5 := hg.tv_pos
  rw [hr.head_eq] at h1
  rw [hr.tail_eq] at h2
  unfold inUse viewOf View.slots
  simp only [hr.head_eq, hr.tail_eq, h1, h2, hr.vhead]
  rw [if_neg (by omega), if_neg (by omega)]

/-- An `enqueue` call, wrapping or not, leaves the items in the slots in use alone. -/
theorem Rep.enqueue_keeps {p : Params} {v : View} {q : Queue T} (hp : p.Ok)
    (hr : Rep p v q) (hg : v.Good p) (fuel : Nat) (x : T) (r : Bool × Queue T)
    (h : enqueue p fuel q x = some r) : ∀ y ∈ v.slots p, rd r.2 y = rd q y := by
  have hbits := hp.2.2.2.2.2
  rcases enqueue_cases p hp.2.2.1 fuel q x r h with ⟨_, rfl⟩ | ⟨h1, h2, rfl⟩ | ⟨_, _, rfl⟩
  · exact (hist_push_gen hg hr.head_eq (by rw [hr.head_field hg]) x).2
  · have hfull : v.hi = p.NE := by
      have := hg.hi_le
      rw [hr.head_field hg] at h1
      simp only at h1
      omega
    have hnb : ¬ v.Blocked p := (hr.prod_ok_iff hg hbits).1 h2
    have hpow : 2 ^ (p.VERSION_BITS + 1) = 2 * 2 ^ p.VERSION_BITS := by
      rw [Nat.pow_succ, Nat.mul_comm]
    have hb : bump p v.head ≤ 1 := by unfold bump; split_ifs <;> omega
    have hlt := hg.hv_lt
    have hgw : (v.padv p).Good p.wide :=
      View.good_padv p.wide v hg.wide hfull hnb (by
        show v.hv + bump p v.head < 2 ^ (p.VERSION_BITS + 1)
        omega)
    have hk := (hist_push_gen (p := p.wide) (v := v.padv p) (q := padvQ p q) hgw
      (hr.pnext_eq hg) (padvQ_head_index p q) x).2
    intro y hy
    have hy' : y ∈ (v.padv p).slots p.wide := by
      have hs : (v.padv p).slots p.wide = v.slots p := View.slots_padv p v hg hfull hnb
      rw [hs]; exact hy
    rw [hk y hy', rd_padvQ]
  · intro y _; rfl

/-- An enqueue call that makes the producer version wrap leads to the wrapped
invariant. -/
theorem Inv.enq_wrap (p : Params) (hp : p.Ok) (s s' : Sys T) (fuel : Nat) (x : T)
    (hinv : Inv p s) (hw : Wraps p s.q) (h : Sys.enq p fuel s x = some s') : InvW p s' := by
  obtain ⟨v, hr, hg, hz, hacc⟩ := hinv
  have hbits := hp.2.2.2.2.2
  have hw' : v.wraps p := (hr.wraps_iff hg hbits).1 hw
  obtain ⟨hfull, hnb, -, -, -, -, -⟩ := View.wraps_facts p v hg hw'
  unfold Sys.enq at h
  cases he : enqueue p fuel s.q x with
  | none => rw [he] at h; simp at h
  | some r =>
    rw [he] at h
    simp only [Option.map_some', Option.some.injEq] at h
    subst h
    rcases enqueue_cases p hp.2.2.1 fuel s.q x r he with
      ⟨h1, rfl⟩ | ⟨h1, h2, rfl⟩ | ⟨h1, h2, rfl⟩
    · rw [hr.head_field hg] at h1
      simp only at h1
      omega
    · obtain ⟨hrw, hgw⟩ := hr.wrap hg hw' hbits
      have hlt : (v.padv p).hi < p.NE := hp.2.2.1
      have hh := (hist_push_gen (p := p.wide) (v := v.padv p) (q := padvQ p s.q) hgw
        (hr.pnext_eq hg) (padvQ_head_index p s.q) x).1
      have hs : (v.padv p).slots p.wide = v.slots p := View.slots_padv p v hg hfull hnb
      rw [hs, map_rd_padvQ] at hh
      refine ⟨(v.padv p).push, hrw.push_w hlt hp.2.2.2.1 x,
        View.good_push p.wide _ hgw hlt, ?_⟩
      have hh' : ((v.padv p).push.slots p).map (rd (pushQ (padvQ p s.q) x))
          = (v.slots p).map (rd s.q) ++ [x] := hh
      simp only [if_true]
      rw [hh', hacc, List.append_assoc]
    · rw [(hr.prod_ok_iff hg hbits).2 hnb] at h2
      exact Bool.noConfusion h2

/-- After the wrap (two blocks or more) an `enqueue` call only stores in block 0 or
fails. -/
theorem RepW.enqueue_refines_w {p : Params} {v : View} {q : Queue T} (hp : p.Ok)
    (hB : 2 ≤ p.B) (hr : RepW p v q) (hg : v.Good p.wide) (fuel : Nat) (x : T)
    (r : Bool × Queue T) (h : enqueue p fuel q x = some r) :
    ∃ v' : View, RepW p v' r.2 ∧ v'.Good p.wide ∧
      (v'.slots p).map (rd r.2) = (v.slots p).map (rd q) ++ (if r.1 = true then [x] else []) ∧
      ∀ y ∈ v.slots p, rd r.2 y = rd q y := by
  rcases enqueue_cases p hp.2.2.1 fuel q x r h with ⟨h1, rfl⟩ | ⟨_, h2, rfl⟩ | ⟨_, _, rfl⟩
  · rw [hr.head_field_w] at h1
    simp only at h1
    have hh := hist_push_gen (p := p.wide) (v := v) (q := q) hg
      (hr.head_eq.trans hr.vhead.symm) (by rw [hr.head_field_w]) x
    exact ⟨v.push, hr.push_w h1 hp.2.2.2.1 x, View.good_push p.wide v hg h1, hh.1, hh.2⟩
  · rw [hr.prod_ok_false hB hp.2.2.2.2.2] at h2
    exact Bool.noConfusion h2
  · exact ⟨v, hr, hg, by simp, fun y _ => rfl⟩

/-- After the wrap a `dequeue` call that returns `true` returns the item of the oldest
slot in use. -/
theorem RepW.dequeue_refines_w {p : Params} {v : View} {q : Queue T} (hp : p.Ok)
    (hr : RepW p v q) (hg : v.Good p.wide) (fuel : Nat) (t : T)
    (r : Bool × T × Queue T) (h : dequeue p fuel q t = some r) :
    ∃ v' : View, RepW p v' r.2.2 ∧ v'.Good p.wide ∧
      (v.slots p).map (rd q)
        = (if r.1 = true then [r.2.1] else []) ++ (v'.slots p).map (rd r.2.2) := by
  have hbits := hp.2.2.2.2.2
  have hNE := hp.2.2.1
  have hf := hr.tail_field_w hg
  have hns : ¬ v.Same := by
    have := hr.vtv
    unfold View.Same
    omega
  rcases dequeue_cases p hNE fuel q t r h with
    ⟨h1, h2, rfl⟩ | ⟨h1, h2, rfl⟩ | ⟨h1, h2, h3, rfl⟩ | ⟨h1, h2, h3, rfl⟩ | ⟨h1, h2, rfl⟩
  · exfalso
    rw [hf] at h1 h2
    simp only at h1 h2
    have h0 := hr.tail_pos hg h1
    rw [hr.tail_eq, hr.prod_eq _ h0 hg.tail_lt] at h2
    simp only at h2
    omega
  · rw [hf] at h1
    simp only at h1
    have hne := hr.pf_tail hg h1
    have hh := hist_pop_gen (p := p.wide) (v := v) (q := q) hg hr.tail_eq
      (by rw [hf]) h1 hne
    exact ⟨v.pop, hr.pop_w hg h1 hp.2.2.2.1, View.good_pop p.wide v hg h1 hne, hh⟩
  · exfalso
    have hlt := (hr.cons_ok_iff_w hg hp.2.2.2.2.1 hbits).1 h2
    have hn := hr.cnext_eq_w hg
    have hnx : nextB p v.tail = v.tail + 1 := by simp [nextB, hlt]
    have ht : (cadvQ p q).tail = v.tail + 1 := hn.trans hnx
    rw [ht] at h3
    have hpr : ((cadvQ p q).blocks (v.tail + 1)).prod = (q.blocks (v.tail + 1)).prod := by
      simp only [cadvQ, upd_apply, hn, hnx, if_true]
    rw [hpr, hr.prod_eq _ (Nat.succ_pos _) hlt] at h3
    simp only at h3
    omega
  · have hlt := (hr.cons_ok_iff_w hg hp.2.2.2.2.1 hbits).1 h2
    have hfull : v.tj = p.NE := by
      have := hg.tj_le
      rw [hf] at h1
      simp only at h1
      have : p.wide.NE = p.NE := rfl
      omega
    have hrc := hr.cadv_w hg hfull hlt hp.2.2.2.2.1 hbits
    have hgc : (v.cadv p).Good p.wide := View.good_cadv p.wide v hg hfull hns
    have hlt0 : (v.cadv p).tj < p.NE := hNE
    have hne := hrc.pf_tail hgc hlt0
    have hh := hist_pop_gen (p := p.wide) (v := v.cadv p) (q := cadvQ p q) hgc hrc.tail_eq
      (by rw [hrc.tail_field_w hgc]) hlt0 hne
    have hs : (v.cadv p).slots p.wide = v.slots p := View.slots_cadv p.wide v hg hfull hns
    rw [hs, map_rd_cadvQ] at hh
    have hidx : ((cadvQ p q).blocks (cadvQ p q).tail).cons.field.index = 0 := by
      rw [hrc.tail_field_w hgc]; rfl
    rw [hidx] at hh
    exact ⟨(v.cadv p).pop, hrc.pop_w hgc hlt0 hp.2.2.2.1, View.good_pop p.wide _ hgc hlt0 hne,
      hh⟩
  · exact ⟨v, hr, hg, by simp⟩

/-- After the wrap (two blocks or more) an `enqueue` call keeps the wrapped invariant. -/
theorem InvW.enq_w (p : Params) (hp : p.Ok) (hB : 2 ≤ p.B) (s s' : Sys T) (fuel : Nat) (x : T)
    (hinv : InvW p s) (h : Sys.enq p fuel s x = some s') : InvW p s' := by
  obtain ⟨v, hr, hg, hacc⟩ := hinv
  unfold Sys.enq at h
  cases he : enqueue p fuel s.q x with
  | none => rw [he] at h; simp at h
  | some r =>
    rw [he] at h
    simp only [Option.map_some', Option.some.injEq] at h
    subst h
    obtain ⟨v', hr', hg', hh, -⟩ := hr.enqueue_refines_w hp hB hg fuel x r he
    refine ⟨v', hr', hg', ?_⟩
    simp only
    rw [hh, hacc]
    cases r.1 <;> simp

/-- After the wrap a `dequeue` call keeps the wrapped invariant. -/
theorem InvW.deq_w (p : Params) (hp : p.Ok) (s s' : Sys T) (fuel : Nat) (t : T)
    (hinv : InvW p s) (h : Sys.deq p fuel s t = some s') : InvW p s' := by
  obtain ⟨v, hr, hg, hacc⟩ := hinv
  unfold Sys.deq at h
  cases he : dequeue p fuel s.q t with
  | none => rw [he] at h; simp at h
  | some r =>
    rw [he] at h
    simp only [Option.map_some', Option.some.injEq] at h
    subst h
    obtain ⟨v', hr', hg', hh⟩ := hr.dequeue_refines_w hp hg fuel t r he
    refine ⟨v', hr', hg', ?_⟩
    simp only
    rw [hacc, hh]
    cases r.1 <;> simp

/-- With two blocks or more, every state reached by complete calls, version wraps
included, satisfies the invariant or the wrapped invariant. -/
theorem ReachAll.inv_all {p : Params} {s : Sys T} (h : ReachAll p s) (hp : p.Ok)
    (hB : 2 ≤ p.B) : Inv p s ∨ InvW p s := by
  induction h with
  | fresh mem => exact Or.inl (Inv.fresh p hp mem)
  | enq s s' fuel x _ hstep ih =>
    rcases ih with ih | ih
    · by_cases hw : Wraps p s.q
      · exact Or.inr (Inv.enq_wrap p hp s s' fuel x ih hw hstep)
      · exact Or.inl (Inv.enq p hp s s' fuel x ih hw hstep)
    · exact Or.inr (InvW.enq_w p hp hB s s' fuel x ih hstep)
  | deq s s' fuel t _ hstep ih =>
    rcases ih with ih | ih
    · exact Or.inl (Inv.deq p hp s s' fuel t ih hstep)
    · exact Or.inr (InvW.deq_w p hp s s' fuel t ih hstep)

theorem head_of_drop (a d l : List T) (t : T) (h : a = d ++ t :: l) :
    (a.drop d.length).head? = some t := by
  subst h
  simp

theorem ReachAll.enq_all {p : Params} {s : Sys T} (h : ReachAll p s) (fuel : Nat) (x : T)
    (hs : (Sys.enq p fuel s x).isSome = true) :
    ReachAll p ((Sys.enq p fuel s x).getD s) := by
  cases he : Sys.enq p fuel s x with
  | none => rw [he] at hs; exact Bool.noConfusion hs
  | some s' => exact ReachAll.enq s _ fuel x h he

theorem ReachAll.deq_all {p : Params} {s : Sys T} (h : ReachAll p s) (fuel : Nat) (t : T)
    (hs : (Sys.deq p fuel s t).isSome = true) :
    ReachAll p ((Sys.deq p fuel s t).getD s) := by
  cases he : Sys.deq p fuel s t with
  | none => rw [he] at hs; exact Bool.noConfusion hs
  | some s' => exact ReachAll.deq s _ fuel t h he

theorem reach_narrow3 : ReachAll narrow narrow3 :=
  (((ReachAll.fresh zeroMem).enq_all 2 1 (by decide)).deq_all 2 0 (by decide)).enq_all
    2 2 (by decide)

theorem reach_duo5 : ReachAll duo duo5 :=
  (((((ReachAll.fresh zeroMem).enq_all 2 1 (by decide)).enq_all 2 2 (by decide)).deq_all
    2 0 (by decide)).deq_all 2 0 (by decide)).enq_all 2 3 (by decide)

/-- C11, as stated, fails for a ring of one block.  For `N = 1`, `B = 1` and a version
counter of one bit, after `enqueue(1); dequeue(); enqueue(2)` the producer version has
wrapped from 1 to 0 (the third call makes it wrap), the item 2 is accepted and not
delivered and is stored in slot 0 of block 0, which is in use; the next call `enqueue(3)`
returns `true` and overwrites that slot with 3, and the `dequeue` after it returns
`false`, so that the item 2 is lost. -/
theorem wrap_overwrites_single_block :
    narrow.Ok ∧ ReachAll narrow narrow3 ∧ Wraps narrow narrow2.q ∧
      narrow3.accepted = [1, 2] ∧ narrow3.delivered = [1] ∧
      inUse narrow narrow3.q = [(0, 0)] ∧ rd narrow3.q (0, 0) = 2 ∧
      (enqueue narrow 2 narrow3.q 3).map (fun r => (r.1, rd r.2 (0, 0))) = some (true, 3) ∧
      (dequeue narrow 2 narrow4.q 0).map (fun r => r.1) = some false ∧
      ¬ (∀ (fuel : Nat) (x : Nat) (r : Bool × Queue Nat),
          enqueue narrow fuel narrow3.q x = some r → r.1 = true →
          ∀ y ∈ inUse narrow narrow3.q, rd r.2 y = rd narrow3.q y) := by
  refine ⟨by decide, reach_narrow3, by decide, by decide, by decide, by decide, by decide,
    by decide, by decide, ?_⟩
  intro hc
  have h1 : (enqueue narrow 2 narrow3.q 3).map (fun r => (r.1, rd r.2 (0, 0)))
      = some (true, 3) := by decide
  cases he : enqueue narrow 2 narrow3.q 3 with
  | none => rw [he] at h1; exact Option.noConfusion h1
  | some r =>
    rw [he] at h1
    simp only [Option.map_some', Option.some.injEq, Prod.mk.injEq] at h1
    have h := hc 2 3 r he h1.1 (0, 0) (by decide)
    rw [h1.2] at h
    revert h
    decide

/-- C11 (version wraparound), amended to rings of two blocks or more.  In every state
reached from a fresh queue by complete `enqueue` and `dequeue` calls, the calls that make
the producer version wrap included: the accepted items that have not been delivered are
the items stored in the slots in use, oldest first; no slot is in use twice; an `enqueue`
call that returns `true` leaves the item of every slot in use as it is; and a `dequeue`
call that returns `true` returns the oldest accepted item that has not been delivered. -/
theorem wrap_keeps_data (p : Params) (hp : p.Ok) (hB : 2 ≤ p.B) (s : Sys T)
    (h : ReachAll p s) :
    s.accepted = s.delivered ++ (inUse p s.q).map (rd s.q) ∧ (inUse p s.q).Nodup ∧
      (∀ (fuel : Nat) (x : T) (r : Bool × Queue T), enqueue p fuel s.q x = some r →
        r.1 = true → ∀ y ∈ inUse p s.q, rd r.2 y = rd s.q y) ∧
      (∀ (fuel : Nat) (t : T) (r : Bool × T × Queue T), dequeue p fuel s.q t = some r →
        r.1 = true → (s.accepted.drop s.delivered.length).head? = some r.2.1) := by
  rcases h.inv_all hp hB with hinv | hinv
  · obtain ⟨v, hr, hg, hz, hacc⟩ := hinv
    rw [hr.inUse_eq hg]
    refine ⟨hacc, View.nodup_slots p v hg, ?_, ?_⟩
    · intro fuel x r he _
      exact hr.enqueue_keeps hp hg fuel x r he
    · intro fuel t r he ht
      obtain ⟨-, -, -, -, hh, -⟩ := dequeue_refines hp hr hg hz fuel t r he
      rw [if_pos ht] at hh
      exact head_of_drop _ _ _ _ (by rw [hacc, hh]; rfl)
  · obtain ⟨v, hr, hg, hacc⟩ := hinv
    rw [hr.inUse_eq_w hg]
    refine ⟨hacc, View.nodup_slots p.wide v hg, ?_, ?_⟩
    · intro fuel x r he _
      obtain ⟨-, -, -, -, hk⟩ := hr.enqueue_refines_w hp hB hg fuel x r he
      exact hk
    · intro fuel t r he ht
      obtain ⟨v', -, -, hh⟩ := hr.dequeue_refines_w hp hg fuel t r he
      rw [if_pos ht] at hh
      exact head_of_drop _ _ _ _ (by rw [hacc, hh]; rfl)

theorem wrap_keeps_data_witness :
    duo.Ok ∧ 2 ≤ duo.B ∧ Wraps duo duo4.q ∧ ReachAll duo duo5 ∧
      (duo5.accepted = duo5.delivered ++ (inUse duo duo5.q).map (rd duo5.q) ∧
        (inUse duo duo5.q).Nodup ∧
        (∀ (fuel : Nat) (x : Nat) (r : Bool × Queue Nat), enqueue duo fuel duo5.q x = some r →
          r.1 = true → ∀ y ∈ inUse duo duo5.q, rd r.2 y = rd duo5.q y) ∧
        (∀ (fuel : Nat) (t : Nat) (r : Bool × Nat × Queue Nat),
          dequeue duo fuel duo5.q t = some r →
          r.1 = true → (duo5.accepted.drop duo5.delivered.length).head? = some r.2.1)) :=
  ⟨by decide, by decide, by decide, reach_duo5,
    wrap_keeps_data duo (by decide) (by decide) duo5 reach_duo5⟩

end BBQ
